import Mathlib

/-! # Memory subsystem of the N-Queens multi-solver: arena, block pool, allocation tracker

Shallow embedding of `src/optimizedv/memory/arenaallocator.cpp`,
`src/optimizedv/memory/memorypool.cpp` and `src/optimizedv/memory/memorytracker.cpp`, and of
the search routines of `src/optimizedv/dfs.cpp` and `src/optimizedv/csp.cpp` that use them.

Conventions.
* Addresses and `size_t` quantities are natural numbers, the null pointer is `0`.  In the
  arena the `size_t` sums of `allocate` and `allocateNewBlock` and the pointer it returns are
  reduced modulo `2 ^ 64`, as the unsigned arithmetic of the 64-bit target does; a slab lies
  inside the address space.  The pool is covered for the executions in which no `size_t`
  computation wraps around.
* The `std::atomic<uint64_t>` counters of the tracker are reduced modulo `2 ^ 64` at every
  update.  `memorytracker.cpp` replaces the global `operator delete`, which calls
  `MemoryTracker::trackFree`; storage that a container releases while the thread owns
  `MemoryTracker::mutex` takes this path (`deleteUnderLock`), and a call that relocks the
  mutex does not return, the result `none`.
* The C++ heap is the environment.  The address it hands out for a new slab is read from a
  function `heap` indexed by the number of slabs the allocator already owns; the result of a
  `malloc` inside the tracker is an argument of the call.  Heap exhaustion (`bad_alloc`) ends
  the computation and is not a state of the model.
* Undefined behaviour that the code can reach on its own (indexing past the slab vector, a
  zero alignment, reading `next` through a null free-list head) is the result `none`.
-/

namespace NQueens

/-! ## Arena (`arenaallocator.cpp`) -/

/-- The number of values of `size_t` and of a pointer on the 64-bit target: unsigned
arithmetic on them is taken modulo `2 ^ 64`. -/
def word : Nat := 2 ^ 64

/-- Modelled from the spec: the slab record `ArenaBlock` of the header `arenaallocator.h`,
which is not among the sources ("a contiguous raw memory block with capacity and a
used-bytes cursor").  `memory` is the address of the first byte of the storage, as
`block.memory.get()` reads it. -/
structure ArenaBlock where
  memory : Nat
  size : Nat
  used : Nat
deriving DecidableEq, Repr

/-- Modelled from the spec: the default argument of `allocateNewBlock`, declared in the
header `arenaallocator.h`, which is not among the sources.  The constructor calls
`allocateNewBlock()` and the spec names the constructor argument the "initial slab size",
so the default minimum is `0`. -/
def defaultMinSize : Nat := 0

/-- The fields of `ArenaAllocator`: `blockSize`, `currentBlock`, `blocks`. -/
structure ArenaAllocator where
  blockSize : Nat
  currentBlock : Nat
  blocks : List ArenaBlock
deriving DecidableEq, Repr

namespace ArenaAllocator

/-- The address of the storage of a new slab of `newSize` bytes when the heap answers
`base`.  The storage and its past-the-end address lie in the address space, so the answer of
a heap satisfies `base + newSize < 2 ^ 64`; the model reads the answer through this bound,
which leaves every such answer as it is. -/
def storageAt (base newSize : Nat) : Nat :=
  min base (word - 1 - newSize)

/-- Source `ArenaAllocator::allocateNewBlock(minSize)`; `base` is the answer of the heap for
the storage of `blocks.emplace_back(newSize)`.  `newSize * 2` is a `size_t` product. -/
def allocateNewBlock (a : ArenaAllocator) (base : Nat) (minSize : Nat) : ArenaAllocator :=
  let newSize := max a.blockSize minSize
  let blocks := a.blocks ++ [{ memory := storageAt base newSize, size := newSize, used := 0 }]
  { blockSize := (newSize * 2) % word, currentBlock := blocks.length - 1, blocks := blocks }

/-- Source `ArenaAllocator::ArenaAllocator(initialBlockSize)`; the argument is a `size_t`. -/
def new (initialBlockSize : Nat) (heap : Nat → Nat) : ArenaAllocator :=
  allocateNewBlock { blockSize := initialBlockSize % word, currentBlock := 0, blocks := [] }
    (heap 0) defaultMinSize

/-- The padding `allocate` computes from a cursor: `(alignment - offset % alignment) % alignment`. -/
def padding (offset alignment : Nat) : Nat :=
  (alignment - offset % alignment) % alignment

/-- Source `ArenaAllocator::allocate(size, alignment)` with the recursion depth bounded by `fuel`.
The result is the new state and the returned pointer.  The sums `offset + padding + size`
and `size + padding` are `size_t` sums and the pointer is a 64-bit value: all three are
taken modulo `2 ^ 64`. -/
def allocateFuel : Nat → ArenaAllocator → (Nat → Nat) → Nat → Nat → Option (ArenaAllocator × Nat)
  | 0, _, _, _, _ => none
  | fuel + 1, a, heap, size, alignment =>
    if size = 0 then some (a, 0)
    else if alignment = 0 then none
    else
      match a.blocks[a.currentBlock]? with
      | none => none
      | some block =>
        let offset := block.used
        let padding := (alignment - offset % alignment) % alignment
        if (offset + padding + size) % word > block.size then
          allocateFuel fuel
            (allocateNewBlock a (heap a.blocks.length) ((size + padding) % word))
            heap size alignment
        else
          let ptr := (block.memory + offset + padding) % word
          let block := { block with used := (offset + padding + size) % word }
          some ({ a with blocks := a.blocks.set a.currentBlock block }, ptr)

/-- Source `ArenaAllocator::allocate(size, alignment)`: the first attempt and up to two
retries.  The retry on a new slab starts at cursor 0 with padding 0; it fails only when the
sum `size + padding` wrapped, and then the slab of the second retry has at least `size`
bytes (`allocate_returns`; a larger recursion bound gives the same result,
`allocateFuel_stable`). -/
def allocate (a : ArenaAllocator) (heap : Nat → Nat) (size alignment : Nat) :
    Option (ArenaAllocator × Nat) :=
  allocateFuel 3 a heap size alignment

/-- Source `ArenaAllocator::reset()`. -/
def reset (a : ArenaAllocator) : ArenaAllocator :=
  { a with blocks := a.blocks.map (fun block => { block with used := 0 }), currentBlock := 0 }

/-- Source `ArenaAllocator::clear()`. -/
def clear (a : ArenaAllocator) (heap : Nat → Nat) : ArenaAllocator :=
  allocateNewBlock { a with blocks := [], currentBlock := 0, blockSize := 65536 }
    (heap 0) defaultMinSize

/-- Source `ArenaAllocator::getTotalMemory()`.  The slabs are disjoint arrays of one address
space, so the sum of their sizes is below `2 ^ 64` and the `size_t` sum does not wrap. -/
def getTotalMemory (a : ArenaAllocator) : Nat :=
  a.blocks.foldl (fun total block => total + block.size) 0

/-- Source `ArenaAllocator::getUsedMemory()`. -/
def getUsedMemory (a : ArenaAllocator) : Nat :=
  a.blocks.foldl (fun used block => used + block.used) 0

/-- Source `ArenaAllocator::getWastedMemory()`. -/
def getWastedMemory (a : ArenaAllocator) : Nat :=
  a.getTotalMemory - a.getUsedMemory

/-- The arena states a program can reach: construction, then `allocate`, `reset`, `clear`. -/
inductive Reachable : ArenaAllocator → Prop
  | new (initialBlockSize : Nat) (heap : Nat → Nat) : Reachable (new initialBlockSize heap)
  | allocate {a b : ArenaAllocator} {p : Nat} (heap : Nat → Nat) (size alignment : Nat) :
      Reachable a → allocate a heap size alignment = some (b, p) → Reachable b
  | reset {a : ArenaAllocator} : Reachable a → Reachable (reset a)
  | clear {a : ArenaAllocator} (heap : Nat → Nat) : Reachable a → Reachable (clear a heap)

/-- The block `allocate` works on: `blocks[currentBlock]`. -/
def current (a : ArenaAllocator) : Option ArenaBlock :=
  a.blocks[a.currentBlock]?

/-- The current slab lacks room for `size` bytes at `alignment`: the sum of cursor, padding
and size, as a number, passes the capacity. -/
def lacksRoom (a : ArenaAllocator) (size alignment : Nat) : Prop :=
  ∃ block, a.current = some block ∧
    block.used + padding block.used alignment + size > block.size

/-- The `size_t` sum `offset + padding + size` that `allocate(size, alignment)` forms for
the current slab does not wrap: as a number it is below `2 ^ 64`. -/
def noWrap (a : ArenaAllocator) (size alignment : Nat) : Bool :=
  match a.current with
  | some block => decide (block.used + padding block.used alignment + size < word)
  | none => true

/-- What the arena state keeps true: the index is valid, the sizes are `size_t` values, no
cursor passes its capacity, every slab lies with its past-the-end address in the address
space, and `blockSize` is twice the size of the slab allocated last, as a `size_t`. -/
def WellFormed (a : ArenaAllocator) : Prop :=
  a.currentBlock < a.blocks.length ∧ a.blockSize < word ∧
  (∀ block ∈ a.blocks, block.used ≤ block.size ∧ block.memory + block.size < word) ∧
  (∃ last, a.blocks.getLast? = some last ∧ a.blockSize = (2 * last.size) % word)

/-- The calls of a program on one arena. -/
inductive ArenaOp where
  | allocate (size alignment : Nat)
  | reset
  | clear
deriving DecidableEq, Repr

/-- A program run on an arena.  The log holds, for every `allocate` with `size > 0`, the
index of the slab that served it (`currentBlock` at return) and the pointer returned, in
call order; `clear` destroys the slabs and starts the log afresh. -/
def runTrace : ArenaAllocator → (Nat → Nat) → List (Nat × Nat) → List ArenaOp →
    Option (ArenaAllocator × List (Nat × Nat))
  | a, _, log, [] => some (a, log)
  | a, heap, log, ArenaOp.allocate size alignment :: ops =>
    match allocate a heap size alignment with
    | none => none
    | some (b, p) =>
      runTrace b heap (if size = 0 then log else log ++ [(b.currentBlock, p)]) ops
  | a, heap, log, ArenaOp.reset :: ops => runTrace (reset a) heap log ops
  | a, heap, _, ArenaOp.clear :: ops => runTrace (clear a heap) heap [] ops

/-- The heap used in the worked scenarios: slab `i` is placed at address `65536 * (i + 1)`. -/
def scenarioHeap (i : Nat) : Nat := 65536 * (i + 1)

/-- A heap whose first slab sits at an address that is a multiple of 16 and not of 32. -/
def heap16 (_ : Nat) : Nat := 16

/-- The first log entry served by slab 0, if any. -/
def firstServed (log : List (Nat × Nat)) : Option (Nat × Nat) :=
  log.find? (fun e => e.1 == 0)

/-- What a run keeps true of the first slab and of the log. -/
def TraceInv (a : ArenaAllocator) (log : List (Nat × Nat)) : Prop :=
  Reachable a ∧ ∃ first, a.blocks.head? = some first ∧
    (firstServed log = none → first.used = 0) ∧
    (∀ e, firstServed log = some e → e.2 = first.memory)

/-- A sequence of `allocate(size, alignment)` calls with no `reset()` in between, each entry
`(size, alignment)`: the final state and the ranges returned, `(pointer, size)`, in call
order. -/
def allocateSeq : ArenaAllocator → (Nat → Nat) → List (Nat × Nat) →
    Option (ArenaAllocator × List (Nat × Nat))
  | a, _, [] => some (a, [])
  | a, heap, (size, alignment) :: rest =>
    match allocate a heap size alignment with
    | none => none
    | some (b, p) =>
      match allocateSeq b heap rest with
      | none => none
      | some (c, ranges) => some (c, (p, size) :: ranges)

/-- No call of the sequence forms a `size_t` sum that wraps (`noWrap` at every call). -/
def noWrapSeq : ArenaAllocator → (Nat → Nat) → List (Nat × Nat) → Bool
  | _, _, [] => true
  | a, heap, (size, alignment) :: rest =>
    noWrap a size alignment &&
    (match allocate a heap size alignment with
      | none => true
      | some (b, _) => noWrapSeq b heap rest)

/-- The slabs of the arena as `(address, size)`. -/
def layout (a : ArenaAllocator) : List (Nat × Nat) :=
  a.blocks.map (fun block => (block.memory, block.size))

/-- The cursor of slab `j`, and 0 for a slab the arena does not own yet. -/
def usedAt (a : ArenaAllocator) (j : Nat) : Nat :=
  match a.blocks[j]? with
  | some block => block.used
  | none => 0

/-- The byte ranges `[r.1, r.1 + r.2)` and `[s.1, s.1 + s.2)` do not overlap. -/
def RangesApart (r s : Nat × Nat) : Prop :=
  r.1 + r.2 ≤ s.1 ∨ s.1 + s.2 ≤ r.1

/-- The heap handed out storage that does not overlap: the slabs the arena owns are pairwise
disjoint. -/
def SlabsDisjoint (a : ArenaAllocator) : Prop :=
  (layout a).Pairwise RangesApart

/-- The range `r` lies in a slab of the layout `slabs`, behind the cursor that slab has in
state `a`. -/
def Fresh (a : ArenaAllocator) (slabs : List (Nat × Nat)) (r : Nat × Nat) : Prop :=
  ∃ j base size, slabs[j]? = some (base, size) ∧ base + usedAt a j ≤ r.1 ∧
    r.1 + r.2 ≤ base + size

end ArenaAllocator

/-! ## Allocation tracker (`memorytracker.cpp`, `memorytracker.h`) -/

/-- Source `struct AllocationInfo` of `memorytracker.h`. -/
structure AllocationInfo where
  ptr : Nat
  size : Nat
  file : String
  line : Int
  timestamp : Nat
  stackTrace : String
deriving DecidableEq, Repr

/-- The static members of `MemoryTracker`, and the C heap they are used with.
`allocations` is the `unordered_map<void*, AllocationInfo>`, as the list of its entries in
iteration order, with one entry per key.  `heap` lists the addresses `malloc` has handed out
and `free` has not yet taken back. -/
structure MemoryTracker where
  allocations : List (Nat × AllocationInfo)
  totalAllocated : Nat
  totalFreed : Nat
  peakUsage : Nat
  currentUsage : Nat
  allocationCount : Nat
  fragmentation : Nat
  enabled : Bool
  heap : List Nat
deriving DecidableEq, Repr

/-- What the environment supplies to one `trackAlloc` call: the pointer `malloc` returns
(`0` when it fails), the clock reading and the captured stack trace. -/
structure AllocEnv where
  mallocResult : Nat
  timestamp : Nat
  stackTrace : String
deriving DecidableEq, Repr

namespace MemoryTracker

/-- The modulus of the `uint64_t` counters. -/
def u64 : Nat := 2 ^ 64

/-- The static initialisers: empty ledger, counters 0, `enabled = false`. -/
def init : MemoryTracker :=
  { allocations := [], totalAllocated := 0, totalFreed := 0, peakUsage := 0,
    currentUsage := 0, allocationCount := 0, fragmentation := 0, enabled := false, heap := [] }

/-- Source `allocations.find(ptr)`. -/
def find (m : List (Nat × AllocationInfo)) (ptr : Nat) : Option AllocationInfo :=
  (m.find? (fun e => e.1 == ptr)).map Prod.snd

/-- Source `allocations.erase(it)` for the entry of key `ptr`. -/
def erase (m : List (Nat × AllocationInfo)) (ptr : Nat) : List (Nat × AllocationInfo) :=
  m.filter (fun e => e.1 != ptr)

/-- Source `allocations[ptr] = info`: the entry of `ptr` is created or overwritten. -/
def assign (m : List (Nat × AllocationInfo)) (ptr : Nat) (info : AllocationInfo) :
    List (Nat × AllocationInfo) :=
  (ptr, info) :: erase m ptr

/-- Source `malloc`: the heap hands out `result`, or fails with `0`. -/
def malloc (heap : List Nat) (result : Nat) : List Nat :=
  if result = 0 then heap else result :: heap

/-- Source `free(ptr)`; `free(nullptr)` does nothing. -/
def free (heap : List Nat) (ptr : Nat) : List Nat :=
  heap.erase ptr

/-- Source `MemoryTracker::enable()`. -/
def enable (t : MemoryTracker) : MemoryTracker := { t with enabled := true }

/-- Source `MemoryTracker::disable()`. -/
def disable (t : MemoryTracker) : MemoryTracker := { t with enabled := false }

/-- Source `MemoryTracker::reset()`: the state the call leaves when it returns.  Whether it
returns, with the release of the map nodes inside the locked region, is `resetCall`. -/
def reset (t : MemoryTracker) : MemoryTracker :=
  { t with allocations := [], totalAllocated := 0, totalFreed := 0, peakUsage := 0,
           currentUsage := 0, allocationCount := 0, fragmentation := 0 }

/-- Source `MemoryTracker::trackAlloc(size, file, line)`: the new state and the returned pointer. -/
def trackAlloc (t : MemoryTracker) (size : Nat) (file : String) (line : Int) (env : AllocEnv) :
    MemoryTracker × Nat :=
  if !t.enabled then
    ({ t with heap := malloc t.heap env.mallocResult }, env.mallocResult)
  else
    let ptr := env.mallocResult
    let t := { t with heap := malloc t.heap env.mallocResult }
    if ptr = 0 then (t, 0)
    else
      let info : AllocationInfo :=
        { ptr := ptr, size := size, file := file, line := line,
          timestamp := env.timestamp, stackTrace := env.stackTrace }
      let t := { t with allocations := assign t.allocations ptr info }
      let t := { t with totalAllocated := (t.totalAllocated + size) % u64 }
      let t := { t with currentUsage := (t.currentUsage + size) % u64 }
      let t := { t with allocationCount := (t.allocationCount + 1) % u64 }
      let t := if t.currentUsage > t.peakUsage then { t with peakUsage := t.currentUsage } else t
      (t, ptr)

/-- Source `MemoryTracker::trackFree(ptr)`: the state the call leaves when it returns.
Whether it returns, with the release of the erased map node inside the locked region, is
`trackFreeCall`. -/
def trackFree (t : MemoryTracker) (ptr : Nat) : MemoryTracker :=
  if ptr = 0 ∨ !t.enabled then
    { t with heap := free t.heap ptr }
  else
    let found := find t.allocations ptr
    let size := match found with
      | some info => info.size
      | none => 0
    let t := match found with
      | some _ => { t with allocations := erase t.allocations ptr }
      | none => t
    let t := { t with totalFreed := (t.totalFreed + size) % u64 }
    let t := { t with currentUsage := (t.currentUsage + u64 - size % u64) % u64 }
    { t with heap := free t.heap ptr }

/-- Source `getAllocationCount()`. -/
def getAllocationCount (t : MemoryTracker) : Nat := t.allocationCount

/-- Source `getCurrentUsage()`. -/
def getCurrentUsage (t : MemoryTracker) : Nat := t.currentUsage

/-- Source `getTotalAllocated()`. -/
def getTotalAllocated (t : MemoryTracker) : Nat := t.totalAllocated

/-- Source `getTotalFreed()`. -/
def getTotalFreed (t : MemoryTracker) : Nat := t.totalFreed

/-- Source `getPeakUsage()`. -/
def getPeakUsage (t : MemoryTracker) : Nat := t.peakUsage

/-- The key set of the ledger. -/
def keys (t : MemoryTracker) : List Nat := t.allocations.map Prod.fst

/-- One `trackAlloc` call with what the environment supplied to it. -/
structure AllocCall where
  size : Nat
  file : String
  line : Int
  env : AllocEnv
deriving DecidableEq, Repr

/-- The calls of a program on the tracker. -/
inductive TrackerOp where
  | enable
  | disable
  | trackAlloc (call : AllocCall)
  | trackFree (ptr : Nat)
deriving DecidableEq, Repr

/-- One call. -/
def step (t : MemoryTracker) : TrackerOp → MemoryTracker
  | TrackerOp.enable => enable t
  | TrackerOp.disable => disable t
  | TrackerOp.trackAlloc c => (trackAlloc t c.size c.file c.line c.env).1
  | TrackerOp.trackFree ptr => trackFree t ptr

/-- A sequence of calls, in program order. -/
def run (t : MemoryTracker) (ops : List TrackerOp) : MemoryTracker :=
  ops.foldl step t

/-- The calls of a run, each with the value of `enabled` at the time of the call. -/
def annotate : MemoryTracker → List TrackerOp → List (TrackerOp × Bool)
  | _, [] => []
  | t, op :: ops => (op, t.enabled) :: annotate (step t op) ops

/-- The event is a `trackAlloc` made while tracking was enabled that returned `p`. -/
def issues (e : TrackerOp × Bool) (p : Nat) : Bool :=
  match e.1 with
  | TrackerOp.trackAlloc c => e.2 && (c.env.mallocResult == p) && (p != 0)
  | _ => false

/-- The event passes `p` to `trackFree`; with `whileEnabled` only a call made while tracking
was enabled counts. -/
def frees (whileEnabled : Bool) (e : TrackerOp × Bool) (p : Nat) : Bool :=
  match e.1 with
  | TrackerOp.trackFree q => (q == p) && (!whileEnabled || e.2)
  | _ => false

/-- The address `p` was returned by a `trackAlloc` made while tracking was enabled and has
not since been passed to `trackFree` (with `whileEnabled`: to a `trackFree` made while
tracking was enabled). -/
def liveTracked (whileEnabled : Bool) : List (TrackerOp × Bool) → Nat → Bool
  | [], _ => false
  | e :: later, p =>
    (issues e p && later.all (fun f => !frees whileEnabled f p)) ||
      liveTracked whileEnabled later p

/-- Heap blocks `(address, size)` that are allocated at the same time: none at the null
address, all inside the 64-bit address space, at distinct addresses, with disjoint ranges. -/
def HeapBlocks (blocks : List (Nat × Nat)) : Prop :=
  (∀ b ∈ blocks, 0 < b.1 ∧ b.1 < 2 ^ 64 ∧ b.1 + b.2 ≤ 2 ^ 64) ∧
  blocks.Pairwise (fun b c => b.1 ≠ c.1 ∧ (b.1 + b.2 ≤ c.1 ∨ c.1 + c.2 ≤ b.1))

/-- The ledger as pairs `(address, size)`. -/
def ledgerSizes (t : MemoryTracker) : List (Nat × Nat) :=
  t.allocations.map (fun e => (e.1, e.2.size))

/-- A tracked call of the worked scenarios: 10 bytes, for which `malloc` returns 4096. -/
def scenarioCall : AllocCall :=
  { size := 10, file := "main_unified.cpp", line := 12,
    env := { mallocResult := 4096, timestamp := 0, stackTrace := "" } }

/-- A tracked call of `size` bytes for which `malloc` returns `result`. -/
def scenarioAlloc (size result : Nat) : AllocCall :=
  { size := size, file := "main_unified.cpp", line := 12,
    env := { mallocResult := result, timestamp := 0, stackTrace := "" } }

/-- The accounting invariant of a run in which no tracked address is handed out again:
`currentUsage` is the sum of the sizes in the ledger modulo `2 ^ 64`, the ledger has one
entry per key, and null is no key. -/
def UsageInv (t : MemoryTracker) : Prop :=
  t.currentUsage < u64 ∧
  Nat.ModEq u64 t.currentUsage ((ledgerSizes t).map Prod.snd).sum ∧
  (keys t).Nodup ∧ 0 ∉ keys t

/-- The counters hold `uint64_t` values. -/
def Counters64 (t : MemoryTracker) : Prop :=
  t.totalAllocated < u64 ∧ t.totalFreed < u64 ∧ t.peakUsage < u64 ∧
  t.currentUsage < u64 ∧ t.allocationCount < u64 ∧ t.fragmentation < u64

/-- The state of Scenario C before the stray free: tracking enabled, one tracked block of
256 bytes at address 4096. -/
def scenarioC : MemoryTracker :=
  run init [TrackerOp.enable, TrackerOp.trackAlloc (scenarioAlloc 256 4096)]

/-- The order `std::sort` establishes in `analyzeFragmentation`: ascending `ptr`. -/
def addressLe (a b : AllocationInfo) : Prop := a.ptr ≤ b.ptr

instance addressLeDecidable : DecidableRel addressLe :=
  fun a b => Nat.decLe a.ptr b.ptr

/-- The call `std::sort(sorted.begin(), sorted.end(), ...)` of `analyzeFragmentation`. -/
def sortByAddress (records : List AllocationInfo) : List AllocationInfo :=
  records.insertionSort addressLe

/-- One turn of the gap loop of `analyzeFragmentation`, for index `i`, in `uintptr_t` and
`uint64_t` arithmetic. -/
def gapStep (sorted : List AllocationInfo) (totalGap i : Nat) : Nat :=
  match sorted[i - 1]?, sorted[i]? with
  | some prev, some curr =>
    let prevEnd := (prev.ptr + prev.size) % u64
    let currStart := curr.ptr
    if currStart > prevEnd then (totalGap + (currStart - prevEnd)) % u64 else totalGap
  | _, _ => totalGap

/-- The gap loop of `analyzeFragmentation`: `for (i = 1; i < sorted.size(); i++)`. -/
def gapLoop (sorted : List AllocationInfo) : Nat :=
  (List.range' 1 (sorted.length - 1)).foldl (gapStep sorted) 0

/-- Source `MemoryTracker::analyzeFragmentation()`: the state the call leaves when it
returns.  Whether it returns, with the destruction of the vector `sorted` inside the locked
region, is `analyzeFragmentationCall`. -/
def analyzeFragmentation (t : MemoryTracker) : MemoryTracker :=
  if t.allocations.isEmpty then { t with fragmentation := 0 }
  else
    let sorted := sortByAddress (t.allocations.map Prod.snd)
    { t with fragmentation := gapLoop sorted }

/-- The figure C16 names: over records in ascending address order, the sum of the gaps
between the end (`ptr + size`) of one record and the start of the next, a gap counting only
when it is positive. -/
def gapSum : List AllocationInfo → Nat
  | prev :: curr :: rest => (curr.ptr - (prev.ptr + prev.size)) + gapSum (curr :: rest)
  | _ => 0

/-- The records are heap blocks at distinct addresses that end inside the 64-bit address
space. -/
def RecordsFit (records : List AllocationInfo) : Prop :=
  (records.map AllocationInfo.ptr).Nodup ∧ ∀ r ∈ records, r.ptr + r.size < u64

/-- A record of `size` bytes at `ptr`. -/
def scenarioInfo (ptr size : Nat) : AllocationInfo :=
  { ptr := ptr, size := size, file := "main_unified.cpp", line := 12, timestamp := 0,
    stackTrace := "" }

/-- A ledger of three records, at 4096 (100 bytes), 8192 (50 bytes) and 4200 (16 bytes), in
an iteration order that is not the address order. -/
def scenarioLedger : MemoryTracker :=
  { init with allocations := [(8192, scenarioInfo 8192 50), (4096, scenarioInfo 4096 100),
                              (4200, scenarioInfo 4200 16)] }

/-- What a tracker function does to state shared between threads, one entry per access in
program order: taking and releasing `MemoryTracker::mutex` (a `std::lock_guard` and the end
of its scope), reading or writing the ledger `allocations`, one atomic operation on a
counter, and anything else (heap call, clock, file output). -/
inductive SyncAction where
  | lock
  | unlock
  | ledgerRead
  | ledgerWrite
  | atomicCounter
  | other
deriving DecidableEq, Repr

/-- The accesses of `trackAlloc` (lines 68-103) on its tracked path: `malloc`, time stamp and
stack trace, the guarded `allocations[ptr] = info`, three atomic additions, and the loads
and the store of the peak update. -/
def trackAllocActions : List SyncAction :=
  [SyncAction.other, SyncAction.other, SyncAction.lock, SyncAction.ledgerWrite,
    SyncAction.unlock, SyncAction.atomicCounter, SyncAction.atomicCounter,
    SyncAction.atomicCounter, SyncAction.atomicCounter, SyncAction.atomicCounter,
    SyncAction.atomicCounter, SyncAction.atomicCounter]

/-- The accesses of `trackFree` (lines 105-124) on its tracked path: the guarded `find` and
`erase`, two atomic updates, `free`. -/
def trackFreeActions : List SyncAction :=
  [SyncAction.lock, SyncAction.ledgerRead, SyncAction.ledgerWrite, SyncAction.unlock,
    SyncAction.atomicCounter, SyncAction.atomicCounter, SyncAction.other]

/-- The accesses of `reset` (lines 57-66): all under the lock. -/
def resetActions : List SyncAction :=
  [SyncAction.lock, SyncAction.ledgerWrite, SyncAction.atomicCounter, SyncAction.atomicCounter,
    SyncAction.atomicCounter, SyncAction.atomicCounter, SyncAction.atomicCounter,
    SyncAction.atomicCounter, SyncAction.unlock]

/-- The accesses of `analyzeFragmentation` (lines 197-229): `empty()`, `size()` and the
iteration over the ledger, then the store of the result, all under the lock. -/
def analyzeFragmentationActions : List SyncAction :=
  [SyncAction.lock, SyncAction.ledgerRead, SyncAction.ledgerRead, SyncAction.ledgerRead,
    SyncAction.atomicCounter, SyncAction.unlock]

/-- The accesses of `generateReport` (lines 131-153): the file is opened, the counters are
loaded, then `allocations.size()`, `allocations.empty()` and the iteration over the ledger;
the function takes no lock. -/
def generateReportActions : List SyncAction :=
  [SyncAction.other, SyncAction.atomicCounter, SyncAction.atomicCounter,
    SyncAction.atomicCounter, SyncAction.atomicCounter, SyncAction.atomicCounter,
    SyncAction.atomicCounter, SyncAction.atomicCounter, SyncAction.ledgerRead,
    SyncAction.ledgerRead, SyncAction.ledgerRead, SyncAction.other]

/-- The accesses of `generateLeakReport` (lines 155-172): `allocations.size()`, a load of
`currentUsage`, the iteration over the ledger; the function takes no lock. -/
def generateLeakReportActions : List SyncAction :=
  [SyncAction.other, SyncAction.ledgerRead, SyncAction.atomicCounter, SyncAction.ledgerRead,
    SyncAction.other]

/-- Every ledger access of the sequence happens while the lock is held; `held` says whether
it is held at the start. -/
def ledgerGuarded : Bool → List SyncAction → Bool
  | _, [] => true
  | _, SyncAction.lock :: rest => ledgerGuarded true rest
  | _, SyncAction.unlock :: rest => ledgerGuarded false rest
  | held, SyncAction.ledgerRead :: rest => held && ledgerGuarded held rest
  | held, SyncAction.ledgerWrite :: rest => held && ledgerGuarded held rest
  | held, _ :: rest => ledgerGuarded held rest

/-- Two threads, each with the accesses it still has to make, and the owner of the mutex. -/
structure TwoThreads where
  owner : Option Bool
  first : List SyncAction
  second : List SyncAction
deriving DecidableEq, Repr

/-- Thread `who` (`false`: the first, `true`: the second) makes its next access.  The result
is `none` when the thread cannot move (nothing left, the mutex is taken, or it releases a
mutex it does not own); otherwise the new state and whether the access was a ledger access
made while the other thread owns the mutex. -/
def stepThread (s : TwoThreads) (who : Bool) : Option (TwoThreads × Bool) :=
  let mine := if who then s.second else s.first
  let put := fun (rest : List SyncAction) (owner : Option Bool) =>
    if who then { s with owner := owner, second := rest }
    else { s with owner := owner, first := rest }
  match mine with
  | [] => none
  | SyncAction.lock :: rest =>
    if s.owner = none then some (put rest (some who), false) else none
  | SyncAction.unlock :: rest =>
    if s.owner = some who then some (put rest none, false) else none
  | SyncAction.ledgerRead :: rest => some (put rest s.owner, decide (s.owner = some (!who)))
  | SyncAction.ledgerWrite :: rest => some (put rest s.owner, decide (s.owner = some (!who)))
  | _ :: rest => some (put rest s.owner, false)

/-- A schedule, the list of the threads that move in turn: `some true` when some ledger
access was made while the other thread owned the mutex, `some false` when none was, `none`
when the schedule asks a thread to move that cannot. -/
def runSchedule : TwoThreads → List Bool → Option Bool
  | _, [] => some false
  | s, who :: rest =>
    match stepThread s who with
    | none => none
    | some (s2, raced) =>
      match runSchedule s2 rest with
      | none => none
      | some later => some (raced || later)

/-- A schedule of `generateReport` (first thread) against `trackAlloc` (second thread): the
second thread runs until it owns the mutex, then the first runs up to its first read of the
ledger. -/
def reportRaceSchedule : List Bool :=
  [true, true, true, false, false, false, false, false, false, false, false, false]

/-- Both threads guard their remaining ledger accesses, given who owns the mutex now. -/
def BothGuarded (s : TwoThreads) : Prop :=
  ledgerGuarded (decide (s.owner = some false)) s.first = true ∧
  ledgerGuarded (decide (s.owner = some true)) s.second = true

/-- The states a run passes through, the start state first. -/
def states : MemoryTracker → List TrackerOp → List MemoryTracker
  | t, [] => [t]
  | t, op :: ops => t :: states (step t op) ops

/-- The size a call adds to the counters: that of a `trackAlloc` made while tracking is
enabled and for which `malloc` succeeds. -/
def trackedSize (e : TrackerOp × Bool) : Option Nat :=
  match e.1 with
  | TrackerOp.trackAlloc c => if e.2 && (c.env.mallocResult != 0) then some c.size else none
  | _ => none

/-- The sizes of the tracked allocations of a run, in program order. -/
def trackedSizes (t : MemoryTracker) (ops : List TrackerOp) : List Nat :=
  (annotate t ops).filterMap trackedSize

/-- No 64-bit overflow in a run: the bytes requested by its tracked allocations, and the
number of these allocations, are below `2 ^ 64`. -/
def NoOverflow (t : MemoryTracker) (ops : List TrackerOp) : Prop :=
  (trackedSizes t ops).sum < u64 ∧ (trackedSizes t ops).length < u64

/-- The largest value `currentUsage` has in the states of a run. -/
def maxUsage (t : MemoryTracker) (ops : List TrackerOp) : Nat :=
  ((states t ops).map (fun s => s.currentUsage)).foldr max 0

/-- What the counters keep true between calls while nothing overflows. -/
def CounterInv (t : MemoryTracker) : Prop :=
  t.totalAllocated < u64 ∧ t.currentUsage + t.totalFreed = t.totalAllocated ∧
  ((ledgerSizes t).map Prod.snd).sum ≤ t.currentUsage ∧ (keys t).Nodup ∧
  t.currentUsage ≤ t.peakUsage ∧ t.peakUsage ≤ t.totalAllocated

/-- Source the replaced global `operator delete(void* ptr)` and `operator delete[](void* ptr)`
of `memorytracker.cpp` (lines 249-255), which call `MemoryTracker::trackFree(ptr)`, for
storage of a container (a map node, the buffer of a string, the array of a vector) that is
released while the calling thread owns `MemoryTracker::mutex`.  The storage is a live
object, so `ptr` is not null.  With tracking disabled `trackFree` calls `free(ptr)` and
returns; the `heap` of the model lists the blocks of `trackAlloc` only and stays as it is.
With tracking enabled `trackFree` constructs a `std::lock_guard` on the mutex its own thread
owns: `std::mutex` is not recursive, the behaviour is undefined and the thread waits for
itself, so the call does not return, the result `none`. -/
def deleteUnderLock (t : MemoryTracker) : Option MemoryTracker :=
  if t.enabled then none else some t

/-- Source `MemoryTracker::trackFree(ptr)` as a call that returns or not.
`allocations.erase(it)` destroys the entry and releases its node with `operator delete`
inside the scope of the `lock_guard` (lines 112-119). -/
def trackFreeCall (t : MemoryTracker) (ptr : Nat) : Option MemoryTracker :=
  if ptr = 0 ∨ !t.enabled then
    some { t with heap := free t.heap ptr }
  else
    match find t.allocations ptr with
    | some info =>
      match deleteUnderLock { t with allocations := erase t.allocations ptr } with
      | none => none
      | some t =>
        let t := { t with totalFreed := (t.totalFreed + info.size) % u64 }
        let t := { t with currentUsage := (t.currentUsage + u64 - info.size % u64) % u64 }
        some { t with heap := free t.heap ptr }
    | none =>
      let t := { t with totalFreed := (t.totalFreed + 0) % u64 }
      let t := { t with currentUsage := (t.currentUsage + u64 - 0 % u64) % u64 }
      some { t with heap := free t.heap ptr }

/-- Source `allocations.clear()` inside the locked region of `reset`: the node of every
entry is released with `operator delete`, the entries taken in iteration order. -/
def clearUnderLock : MemoryTracker → List (Nat × AllocationInfo) → Option MemoryTracker
  | t, [] => some { t with allocations := [] }
  | t, _ :: rest =>
    match deleteUnderLock t with
    | none => none
    | some t => clearUnderLock t rest

/-- Source `MemoryTracker::reset()` as a call that returns or not: the whole body runs in
the scope of the `lock_guard` (lines 58-65). -/
def resetCall (t : MemoryTracker) : Option MemoryTracker :=
  match clearUnderLock t t.allocations with
  | none => none
  | some t =>
    some { t with totalAllocated := 0, totalFreed := 0, peakUsage := 0, currentUsage := 0,
                  allocationCount := 0, fragmentation := 0 }

/-- Source `MemoryTracker::analyzeFragmentation()` as a call that returns or not.  The
`lock_guard` is the first local object, so the vector `sorted` is destroyed, and its array
released with `operator delete`, before the mutex is unlocked; the early return for an empty
ledger comes before `sorted` is constructed. -/
def analyzeFragmentationCall (t : MemoryTracker) : Option MemoryTracker :=
  if t.allocations.isEmpty then some { t with fragmentation := 0 }
  else
    let sorted := sortByAddress (t.allocations.map Prod.snd)
    deleteUnderLock { t with fragmentation := gapLoop sorted }

end MemoryTracker

/-! ## Block pool (`memorypool.cpp`, `memorypool.h`) -/

/-- Source `sizeof(Block)`: the size of one free-list link, a pointer. -/
def sizeofBlock : Nat := 8

/-- The fields of `MemoryPool`.  `pools` holds the address of each slab, in the order of the
vector; `memory` is the machine memory as far as the pool reads it: `memory a` is the
pointer-sized word stored at address `a` (the `next` field of a `Block` placed there).
Words are addressed by their first byte; blocks of a pool start `blockSize >= sizeof(Block)`
bytes apart, so two link words of a pool never share a byte. -/
structure MemoryPool where
  blockSize : Nat
  poolSize : Nat
  pools : List Nat
  freeList : Nat
  memory : Nat → Nat

namespace MemoryPool

/-- The write `block->next = value` for the block at `addr`. -/
def store (memory : Nat → Nat) (addr value : Nat) : Nat → Nat :=
  fun a => if a = addr then value else memory a

/-- Source `memset(start, 0, len)`, also the value-initialisation of a new `char[len]`. -/
def zeroFill (memory : Nat → Nat) (start len : Nat) : Nat → Nat :=
  fun a => if start ≤ a ∧ a < start + len then 0 else memory a

/-- One turn of the loop of `allocatePool` for index `i`, on the pair `(memory, freeList)`. -/
def linkBlock (start blockSize : Nat) (st : (Nat → Nat) × Nat) (i : Nat) : (Nat → Nat) × Nat :=
  (store st.1 (start + i * blockSize) st.2, start + i * blockSize)

/-- Source `MemoryPool::allocatePool()`; `base` is the address of the new `char[]` array. -/
def allocatePool (p : MemoryPool) (base : Nat) : MemoryPool :=
  let memory := zeroFill p.memory base (p.blockSize * p.poolSize)
  let st := (List.range p.poolSize).foldl (linkBlock base p.blockSize) (memory, p.freeList)
  { p with memory := st.1, freeList := st.2, pools := p.pools ++ [base] }

/-- Source `MemoryPool::MemoryPool(blockSize, initialBlocks)`, in a process whose memory is `memory`. -/
def new (blockSize initialBlocks : Nat) (heap : Nat → Nat) (memory : Nat → Nat) : MemoryPool :=
  allocatePool { blockSize := max blockSize sizeofBlock, poolSize := initialBlocks, pools := [],
                 freeList := 0, memory := memory } (heap 0)

/-- Source `MemoryPool::allocate()`: the new state and the returned block; `none` when
`freeList->next` is read through a null `freeList`. -/
def allocate (p : MemoryPool) (heap : Nat → Nat) : Option (MemoryPool × Nat) :=
  let p := if p.freeList = 0 then allocatePool p (heap p.pools.length) else p
  if p.freeList = 0 then none
  else
    let block := p.freeList
    let next := p.memory p.freeList
    some ({ p with freeList := next, memory := zeroFill p.memory block p.blockSize }, block)

/-- Source `MemoryPool::deallocate(ptr)`. -/
def deallocate (p : MemoryPool) (ptr : Nat) : MemoryPool :=
  if ptr = 0 then p
  else { p with memory := store p.memory ptr p.freeList, freeList := ptr }

/-- The calls of a program on one pool. -/
inductive PoolOp where
  | allocate
  | deallocate (ptr : Nat)
deriving DecidableEq, Repr

/-- A pool together with the bookkeeping of a run: the blocks that are live (returned by
`allocate` and not yet passed to `deallocate`), the blocks returned so far (latest first),
and the numbers of `allocate` and `deallocate` calls made. -/
structure PoolRun where
  pool : MemoryPool
  live : List Nat
  returned : List Nat
  allocations : Nat
  deallocations : Nat

/-- One call of a run. -/
def stepPool (s : PoolRun) (heap : Nat → Nat) : PoolOp → Option PoolRun
  | PoolOp.allocate =>
    match allocate s.pool heap with
    | none => none
    | some (q, ptr) =>
      some { pool := q, live := ptr :: s.live, returned := ptr :: s.returned,
             allocations := s.allocations + 1, deallocations := s.deallocations }
  | PoolOp.deallocate ptr =>
    some { pool := deallocate s.pool ptr, live := s.live.erase ptr, returned := s.returned,
           allocations := s.allocations, deallocations := s.deallocations + 1 }

/-- A sequence of calls, in program order. -/
def runPool : PoolRun → (Nat → Nat) → List PoolOp → Option PoolRun
  | s, _, [] => some s
  | s, heap, op :: ops =>
    match stepPool s heap op with
    | none => none
    | some s2 => runPool s2 heap ops

/-- Every `deallocate` of the run is passed a block that is live at that call. -/
def disciplined : PoolRun → (Nat → Nat) → List PoolOp → Bool
  | _, _, [] => true
  | s, heap, op :: ops =>
    (match op with
      | PoolOp.allocate => true
      | PoolOp.deallocate ptr => decide (ptr ∈ s.live)) &&
    (match stepPool s heap op with
      | none => true
      | some s2 => disciplined s2 heap ops)

/-- The call is an `allocate`. -/
def isAllocate : PoolOp → Bool
  | PoolOp.allocate => true
  | PoolOp.deallocate _ => false

/-- The start of a run: a freshly constructed pool, nothing live. -/
def freshRun (blockSize initialBlocks : Nat) (heap : Nat → Nat) (memory : Nat → Nat) : PoolRun :=
  { pool := new blockSize initialBlocks heap memory, live := [], returned := [],
    allocations := 0, deallocations := 0 }

/-- The heap hands out slabs of `len` bytes that are not null and do not overlap. -/
def SlabsApart (heap : Nat → Nat) (len : Nat) : Prop :=
  (∀ i, heap i ≠ 0) ∧ ∀ i j, i ≠ j → heap i + len ≤ heap j ∨ heap j + len ≤ heap i

/-- The addresses of the blocks of the slab at `base`. -/
def slabBlocks (base blockSize poolSize : Nat) : List Nat :=
  (List.range poolSize).map (fun i => base + i * blockSize)

/-- The addresses of all blocks of the pool. -/
def allBlocks (p : MemoryPool) : List Nat :=
  p.pools.flatMap (fun base => slabBlocks base p.blockSize p.poolSize)

/-- The address ranges `[x, x + blockSize)` and `[y, y + blockSize)` do not overlap. -/
def Apart (blockSize x y : Nat) : Prop :=
  x + blockSize ≤ y ∨ y + blockSize ≤ x

/-- The list `chain` is the free list read from `head` through the `next` links in `memory`,
up to the terminating null. -/
def Chain (memory : Nat → Nat) : Nat → List Nat → Prop
  | head, [] => head = 0
  | head, x :: xs => head = x ∧ x ≠ 0 ∧ Chain memory (memory x) xs

/-- What a disciplined run keeps true: the slabs are the ones the heap handed out, and the
free list and the live blocks together are exactly the blocks of the slabs, each once. -/
def PoolInv (heap : Nat → Nat) (p : MemoryPool) (live : List Nat) : Prop :=
  sizeofBlock ≤ p.blockSize ∧ 0 < p.poolSize ∧
  p.pools = (List.range p.pools.length).map heap ∧
  ∃ chain, Chain p.memory p.freeList chain ∧ (chain ++ live).Perm (allBlocks p)

/-- The heap of the pool scenarios: slab `i` at address `4096 * (i + 1)`. -/
def poolHeap (i : Nat) : Nat := 4096 * (i + 1)

/-- Memory that holds zero everywhere. -/
def zeroMemory (_ : Nat) : Nat := 0

/-- The five blocks of Scenario A are issued and then released in the order of issue. -/
def scenarioA : List PoolOp :=
  [PoolOp.allocate, PoolOp.allocate, PoolOp.allocate, PoolOp.allocate, PoolOp.allocate,
    PoolOp.deallocate 4288, PoolOp.deallocate 4224, PoolOp.deallocate 4160,
    PoolOp.deallocate 4096, PoolOp.deallocate 8384]

end MemoryPool

/-! ## Pool-backed adapter (`MemoryPoolAllocator<T>` of `memorypool.h`) -/

/-- A call the adapter makes into the global heap. -/
inductive HeapCall where
  | operatorNew (bytes : Nat)
  | operatorDelete (ptr : Nat)
deriving DecidableEq, Repr

namespace MemoryPoolAllocator

/-- Source `MemoryPoolAllocator<T>::allocate(n)` for an element type of `sizeofT` bytes, bound
to `pool`; `newResult` is the pointer `::operator new` returns when it is called.  The result
is the pool after the call, the pointer returned and the heap calls made. -/
def allocate (pool : MemoryPool) (heap : Nat → Nat) (sizeofT n newResult : Nat) :
    Option (MemoryPool × Nat × List HeapCall) :=
  if n ≠ 1 then
    some (pool, newResult, [HeapCall.operatorNew (n * sizeofT)])
  else
    match MemoryPool.allocate pool heap with
    | none => none
    | some (q, ptr) => some (q, ptr, [])

/-- Source `MemoryPoolAllocator<T>::deallocate(ptr, n)`: the pool after the call and the heap
calls made. -/
def deallocate (pool : MemoryPool) (ptr n : Nat) : MemoryPool × List HeapCall :=
  if n ≠ 1 then
    (pool, [HeapCall.operatorDelete ptr])
  else
    (MemoryPool.deallocate pool ptr, [])

end MemoryPoolAllocator

/-! ## The N-queens problem -/

/-- Queens in the columns `qs[0], qs[1], ...` of the rows 0, 1, ...: no two of them share a
column or a diagonal. -/
def NoAttack (qs : List Nat) : Prop :=
  ∀ i j ci cj : Nat, i < j → qs[i]? = some ci → qs[j]? = some cj →
    ci ≠ cj ∧ ((ci : Int) - (cj : Int)).natAbs ≠ j - i

/-- A placement of `n` queens on the board of `n` rows and `n` columns, one per row. -/
def IsPlacement (n : Nat) (qs : List Nat) : Prop :=
  qs.length = n ∧ ∀ c ∈ qs, c < n

/-- The list `sols` holds the solutions of the `n`-queens problem, each once: the placements
of `n` queens, one per row, in which no two queens share a column or a diagonal.  The number
of solutions is the length of such a list. -/
def Enumerates (n : Nat) (sols : List (List Nat)) : Prop :=
  sols.Nodup ∧ ∀ qs, qs ∈ sols ↔ (IsPlacement n qs ∧ NoAttack qs)

/-! ## Blind depth-first enumerator (`dfs.cpp`)

`int` values are integers; the counter `count` is checked against `INT_MAX` at its
increment, where a signed overflow would be undefined behaviour.  The entries of the board
are `-1` or column numbers below `n`, and rows and columns are at most `n`, so no other `int`
computation of the enumerator leaves the range of `int`.  The recursion of `solve_all` is
bounded by a fuel argument; running out of fuel and undefined behaviour (an index outside
the board) are the result `none`. -/

namespace DFS

/-- Source `INT_MAX` for the 32-bit `int`. -/
def intMax : Int := 2147483647

/-- The loop of `is_safe` over the rows still to be examined. -/
def is_safeFrom (assignment : List Int) (row : Nat) (col : Int) : List Nat → Option Bool
  | [] => some true
  | r :: rest =>
    match assignment[r]? with
    | none => none
    | some c =>
      if c = col ∨ (c - col).natAbs = ((r : Int) - (row : Int)).natAbs then some false
      else is_safeFrom assignment row col rest

/-- Source `is_safe(assignment, row, col)` of `dfs.cpp`. -/
def is_safe (assignment : List Int) (row : Nat) (col : Int) : Option Bool :=
  is_safeFrom assignment row col (List.range row)

/-- The `for` loop of `solve_all` over the columns still to be tried; `recurse` is the call
`solve_all(board, row + 1, n, count)`, which returns the board and the counter it leaves. -/
def solve_allCols (recurse : List Int → Int → Option (List Int × Int)) (row : Nat) :
    List Nat → List Int → Int → Option (List Int × Int)
  | [], board, count => some (board, count)
  | col :: rest, board, count =>
    match is_safe board row (col : Int) with
    | none => none
    | some false => solve_allCols recurse row rest board count
    | some true =>
      if row < board.length then
        match recurse (board.set row (col : Int)) count with
        | none => none
        | some (board, count) => solve_allCols recurse row rest board count
      else none

/-- Source `solve_all(board, row, n, count)`: the board and the counter after the call. -/
def solve_all : Nat → List Int → Nat → Nat → Int → Option (List Int × Int)
  | 0, _, _, _, _ => none
  | fuel + 1, board, row, n, count =>
    if row = n then
      if count + 1 ≤ intMax then some (board, count + 1) else none
    else
      solve_allCols (fun b c => solve_all fuel b (row + 1) n c) row (List.range n) board count

/-- Source `dfs_blind(n, solution_count)`, the value it leaves in `solution_count`: the board
is `n` entries `-1`, the counter starts at 0. -/
def dfs_blind (n : Nat) : Option Int :=
  (solve_all (n + 1) (List.replicate n (-1)) 0 n 0).map Prod.snd

/-- A queen in column `col` of the row after the rows of `qs` shares no column and no
diagonal with a queen of `qs`. -/
def safeExt (qs : List Nat) (col : Nat) : Bool :=
  (List.range qs.length).all (fun r =>
    match qs[r]? with
    | none => true
    | some c => (c != col) && (((c : Int) - (col : Int)).natAbs != qs.length - r))

/-- The placements of `qs.length + k` rows that begin with `qs` and in which no queen after
`qs` attacks an earlier one, columns taken below `n`. -/
def extensions (n : Nat) : Nat → List Nat → List (List Nat)
  | 0, qs => [qs]
  | k + 1, qs =>
    (List.range n).flatMap (fun col =>
      if safeExt qs col then extensions n k (qs ++ [col]) else [])

/-- The board holds the columns `qs` in its first rows. -/
def Agrees (board : List Int) (qs : List Nat) : Prop :=
  ∀ r c : Nat, qs[r]? = some c → board[r]? = some (c : Int)

/-- The check of `safeExt` on the rows read from the last one back: `placed` holds the
columns of the earlier rows, the nearest row first, and `d` is the distance of its first row;
only natural-number arithmetic is used. -/
def safeFast : List Nat → Nat → Nat → Bool
  | [], _, _ => true
  | c :: rest, d, col =>
    (c != col) && (c + d != col) && (col + d != c) && safeFast rest (d + 1) col

/-- The number of placements `extensions` lists, counted without building them; `placed`
holds the columns of the rows placed so far, the last row first. -/
def countFast (n : Nat) : Nat → List Nat → Nat
  | 0, _ => 1
  | k + 1, placed =>
    ((List.range n).map (fun col =>
      if safeFast placed 1 col then countFast n k (col :: placed) else 0)).sum

/-- The placement of `p` queens with the queen of row `i` in column `(a * i + b) % p`. -/
def linearPlacement (p a b : Nat) : List Nat :=
  (List.range p).map (fun i => (a * i + b) % p)

end DFS

/-! ## Backtracking constraint solver (`csp.cpp`)

An `unordered_set<int>` is the list of its elements, each once, in iteration order.  The
functions below use a domain only through the set of its elements (tests on each element,
erasure, emptiness, size), so their results do not depend on that order.  Rows are natural
numbers, columns and the entries of `assignment` are integers (`-1` marks an unassigned
row).  The loops of `forward_check` and the recursion of `solve` are bounded by fuel;
running out of fuel and an index outside a vector are the result `none`. -/

/-- Source `struct CSPState`. -/
structure CSPState where
  n : Nat
  assignment : List Int
  domains : List (List Int)
deriving DecidableEq, Repr

namespace CSP

/-- The test `c1 == col || abs(c1 - col) == abs(r1 - row)` of `csp.cpp`. -/
def conflicts (c1 col : Int) (r1 row : Nat) : Bool :=
  c1 == col || (c1 - col).natAbs == ((r1 : Int) - (row : Int)).natAbs

/-- The loop `for (int c : to_remove) domain.erase(c);`. -/
def eraseAll (domain to_remove : List Int) : List Int :=
  to_remove.foldl (fun d c => d.erase c) domain

/-- The rows `first, first + 1, ...` below `n`, as a `for (r = first; r < n; ++r)` visits
them. -/
def rowsFrom (first n : Nat) : List Nat :=
  List.range' first (n - first)

/-- The first loop of `forward_check`, over the rows `r1` still to be visited: the values
that conflict with the queen at `(row, col)` are erased from the domain of `r1`.  The result
is `false` with the domains at that moment when a domain became empty, else `true` with the
domains and the queue of rows whose domain changed. -/
def firstLoop (row : Nat) (col : Int) :
    List Nat → List (List Int) → List Nat → Option (Bool × List (List Int) × List Nat)
  | [], domains, queue => some (true, domains, queue)
  | r1 :: rest, domains, queue =>
    match domains[r1]? with
    | none => none
    | some domain1 =>
      let to_remove := domain1.filter (fun c1 => conflicts c1 col r1 row)
      let domain1 := eraseAll domain1 to_remove
      let domains := domains.set r1 domain1
      if domain1.isEmpty then some (false, domains, queue)
      else firstLoop row col rest domains (if to_remove.isEmpty then queue else queue ++ [r1])

/-- The inner loop of the `while` of `forward_check` for the row `r1` taken from the queue,
over the rows `r2` still to be visited: a value `c2` is erased from the domain of `r2` when
some value `c1` of the domain of `r1` conflicts with it. -/
def innerLoop (r1 : Nat) :
    List Nat → List (List Int) → List Nat → Option (Bool × List (List Int) × List Nat)
  | [], domains, queue => some (true, domains, queue)
  | r2 :: rest, domains, queue =>
    match domains[r2]?, domains[r1]? with
    | some domain2, some domainR1 =>
      let to_remove := domain2.filter (fun c2 => domainR1.any (fun c1 => conflicts c2 c1 r2 r1))
      let domain2 := eraseAll domain2 to_remove
      let domains := domains.set r2 domain2
      if domain2.isEmpty then some (false, domains, queue)
      else innerLoop r1 rest domains (if to_remove.isEmpty then queue else queue ++ [r2])
    | _, _ => none

/-- The loop `while (!queue.empty())` of `forward_check`; the queue is used as a stack. -/
def whileLoop (n : Nat) : Nat → List (List Int) → List Nat → Option (Bool × List (List Int))
  | 0, _, _ => none
  | fuel + 1, domains, queue =>
    match queue.getLast? with
    | none => some (true, domains)
    | some r1 =>
      match innerLoop r1 (rowsFrom (r1 + 1) n) domains queue.dropLast with
      | none => none
      | some (false, domains, _) => some (false, domains)
      | some (true, domains, queue) => whileLoop n fuel domains queue

/-- Source `forward_check(state, row, col)`: the value returned and the state it leaves.
Every pass of the `while` loop takes one row from the queue, and a row enters the queue only
after a value was erased, so the number of passes is at most the length of the queue plus the
number of values in the domains; that number is the fuel. -/
def forward_check (state : CSPState) (row : Nat) (col : Int) : Option (Bool × CSPState) :=
  match firstLoop row col (rowsFrom (row + 1) state.n) state.domains [] with
  | none => none
  | some (false, domains, _) => some (false, { state with domains := domains })
  | some (true, domains, queue) =>
    match whileLoop state.n (queue.length + (domains.map List.length).sum + 1) domains queue with
    | none => none
    | some (b, domains) => some (b, { state with domains := domains })

/-- The counter `count` of `sorted_lcv` for the value `col` of `row`, over the rows still to
be visited. -/
def countConflicts (state : CSPState) (row : Nat) (col : Int) : List Nat → Int → Option Int
  | [], count => some count
  | r :: rest, count =>
    match state.domains[r]? with
    | none => none
    | some domain =>
      countConflicts state row col rest
        (count + ((domain.filter (fun c => conflicts c col r row)).length : Int))

/-- The pairs `{count, col}` that `sorted_lcv` collects, over the values still to be
visited. -/
def colConstraints (state : CSPState) (row : Nat) : List Int → Option (List (Int × Int))
  | [] => some []
  | col :: rest =>
    match countConflicts state row col (rowsFrom (row + 1) state.n) 0,
        colConstraints state row rest with
    | some count, some pairs => some ((count, col) :: pairs)
    | _, _ => none

/-- The order of `std::pair<int, int>` that `std::sort` uses. -/
def pairLe (a b : Int × Int) : Prop :=
  a.1 < b.1 ∨ (a.1 = b.1 ∧ a.2 ≤ b.2)

instance pairLeDecidable : DecidableRel pairLe :=
  fun a b => inferInstanceAs (Decidable (a.1 < b.1 ∨ (a.1 = b.1 ∧ a.2 ≤ b.2)))

/-- Source `sorted_lcv(state, row)`. -/
def sorted_lcv (state : CSPState) (row : Nat) : Option (List Int) :=
  match state.domains[row]? with
  | none => none
  | some domain =>
    match colConstraints state row domain with
    | none => none
    | some col_constraints => some ((col_constraints.insertionSort pairLe).map Prod.snd)

/-- The sum `constraints` of `select_variable` for `row`, over the rows `other` still to be
visited. -/
def sumConstraints (state : CSPState) (row : Nat) : List Nat → Int → Option Int
  | [], constraints => some constraints
  | other :: rest, constraints =>
    match state.assignment[other]?, state.domains[other]? with
    | some a, some domain =>
      if other ≠ row ∧ a = -1 then
        sumConstraints state row rest (constraints + (domain.length : Int))
      else sumConstraints state row rest constraints
    | _, _ => none

/-- The loop of `select_variable` over the rows still to be visited, on the variables
`(min_domain_size, best_row, max_constraints)`. -/
def selectLoop (state : CSPState) : List Nat → Int × Int × Int → Option (Int × Int × Int)
  | [], vars => some vars
  | row :: rest, (min_domain_size, best_row, max_constraints) =>
    match state.assignment[row]?, state.domains[row]? with
    | some a, some domain =>
      if a ≠ -1 then selectLoop state rest (min_domain_size, best_row, max_constraints)
      else
        let domain_size : Int := (domain.length : Int)
        if domain_size < min_domain_size then
          selectLoop state rest (domain_size, (row : Int), max_constraints)
        else if domain_size = min_domain_size then
          match sumConstraints state row (List.range state.n) 0 with
          | none => none
          | some constraints =>
            if constraints > max_constraints then
              selectLoop state rest (min_domain_size, (row : Int), constraints)
            else selectLoop state rest (min_domain_size, best_row, max_constraints)
        else selectLoop state rest (min_domain_size, best_row, max_constraints)
    | _, _ => none

/-- Source `select_variable(state)`. -/
def select_variable (state : CSPState) : Option Int :=
  (selectLoop state (List.range state.n) ((state.n : Int) + 1, -1, -1)).map (fun v => v.2.1)

/-- The first loop of `solve`: `done` is true when no entry of `assignment` is `-1`. -/
def allAssigned (state : CSPState) : Option Bool :=
  if state.n ≤ state.assignment.length then
    some ((state.assignment.take state.n).all (fun a => a != -1))
  else none

/-- The loop of `solve` over the values still to be tried for `row`; `recurse` is the call
`solve(new_state)`. -/
def tryValues (recurse : CSPState → Option (Bool × CSPState)) (state : CSPState) (row : Nat) :
    List Int → Option (Bool × CSPState)
  | [] => some (false, state)
  | col :: rest =>
    if row < state.assignment.length then
      let new_state := { state with assignment := state.assignment.set row col }
      match forward_check new_state row col with
      | none => none
      | some (false, _) => tryValues recurse state row rest
      | some (true, new_state) =>
        match recurse new_state with
        | none => none
        | some (true, new_state) => some (true, new_state)
        | some (false, _) => tryValues recurse state row rest
    else none

/-- Source `solve(state)`: the value returned and the state it leaves in `state`. -/
def solveFuel : Nat → CSPState → Option (Bool × CSPState)
  | 0, _ => none
  | fuel + 1, state =>
    match allAssigned state with
    | none => none
    | some true => some (true, state)
    | some false =>
      match select_variable state with
      | none => none
      | some row =>
        if row < 0 then none
        else
          match sorted_lcv state row.toNat with
          | none => none
          | some values => tryValues (solveFuel fuel) state row.toNat values

/-- Source `solve(state)` with fuel for its recursion: every call below the first runs on a
state with one more assigned row, a state with no unassigned row returns at once, so the
depth is at most `n + 1`. -/
def solve (state : CSPState) : Option (Bool × CSPState) :=
  solveFuel (state.n + 1) state

/-- The state `dfs_csp(n)` builds: every row unassigned, every domain `{0, ..., n - 1}`. -/
def initial (n : Nat) : CSPState :=
  { n := n, assignment := List.replicate n (-1),
    domains := List.replicate n ((List.range n).map (fun j => (j : Int))) }

/-- The queens of `ext`, placed one after the other in the rows after those of `qs`, each
share no column and no diagonal with the queens before them. -/
def extendsSafely (qs : List Nat) : List Nat → Bool
  | [] => true
  | col :: rest => DFS.safeExt qs col && extendsSafely (qs ++ [col]) rest

end CSP

end NQueens

/-! # Proofs -/

namespace NQueens
namespace ArenaAllocator

theorem word_pos : 0 < word := by unfold word; omega

theorem padding_zero (alignment : Nat) : padding 0 alignment = 0 := by
  simp [padding]

theorem padding_lt (offset alignment : Nat) (h : 0 < alignment) :
    padding offset alignment < alignment := by
  unfold padding
  exact Nat.mod_lt _ h

theorem padding_dvd (offset alignment : Nat) (h : 0 < alignment) :
    alignment ∣ offset + padding offset alignment := by
  unfold padding
  · have h1 : offset % alignment < alignment := Nat.mod_lt _ h
    rw [Nat.dvd_iff_mod_eq_zero, Nat.add_mod, Nat.mod_mod]
    by_cases h0 : offset % alignment = 0
    · simp [h0]
    · have h2 : alignment - offset % alignment < alignment := by omega
      rw [Nat.mod_eq_of_lt h2]
      have : offset % alignment + (alignment - offset % alignment) = alignment := by omega
      rw [this]; simp

theorem storageAt_bound (base newSize : Nat) (h : newSize < word) :
    storageAt base newSize + newSize < word := by
  have := Nat.min_le_right base (word - 1 - newSize)
  unfold storageAt
  omega

theorem storageAt_eq (base newSize : Nat) (h : base + newSize < word) :
    storageAt base newSize = base := by
  unfold storageAt
  exact Nat.min_eq_left (by omega)

/-- One pass of `allocate` on the current slab: the retry on a new slab or the served
request. -/
theorem allocateFuel_succ (fuel : Nat) (a : ArenaAllocator) (heap : Nat → Nat)
    (size alignment : Nat) (hs : size ≠ 0) (hal : alignment ≠ 0) (block : ArenaBlock)
    (hcur : a.blocks[a.currentBlock]? = some block) :
    allocateFuel (fuel + 1) a heap size alignment =
      if (block.used + padding block.used alignment + size) % word > block.size then
        allocateFuel fuel
          (allocateNewBlock a (heap a.blocks.length)
            ((size + padding block.used alignment) % word)) heap size alignment
      else
        some (⟨a.blockSize, a.currentBlock, a.blocks.set a.currentBlock
                ⟨block.memory, block.size,
                  (block.used + padding block.used alignment + size) % word⟩⟩,
              (block.memory + block.used + padding block.used alignment) % word) := by
  unfold padding
  simp only [allocateFuel, hs, hal, hcur, if_false]

theorem allocateFuel_fit (fuel : Nat) (a : ArenaAllocator) (heap : Nat → Nat)
    (size alignment : Nat) (hs : size ≠ 0) (hal : alignment ≠ 0) (block : ArenaBlock)
    (hcur : a.blocks[a.currentBlock]? = some block)
    (hroom : ¬ (block.used + padding block.used alignment + size) % word > block.size) :
    allocateFuel (fuel + 1) a heap size alignment =
      some (⟨a.blockSize, a.currentBlock, a.blocks.set a.currentBlock
                ⟨block.memory, block.size,
                  (block.used + padding block.used alignment + size) % word⟩⟩,
              (block.memory + block.used + padding block.used alignment) % word) := by
  rw [allocateFuel_succ fuel a heap size alignment hs hal block hcur, if_neg hroom]

theorem allocateFuel_retry (fuel : Nat) (a : ArenaAllocator) (heap : Nat → Nat)
    (size alignment : Nat) (hs : size ≠ 0) (hal : alignment ≠ 0) (block : ArenaBlock)
    (hcur : a.blocks[a.currentBlock]? = some block)
    (hroom : (block.used + padding block.used alignment + size) % word > block.size) :
    allocateFuel (fuel + 1) a heap size alignment =
      allocateFuel fuel
        (allocateNewBlock a (heap a.blocks.length)
          ((size + padding block.used alignment) % word)) heap size alignment := by
  rw [allocateFuel_succ fuel a heap size alignment hs hal block hcur, if_pos hroom]

theorem current_allocateNewBlock (a : ArenaAllocator) (base minSize : Nat) :
    (allocateNewBlock a base minSize).blocks[(allocateNewBlock a base minSize).currentBlock]? =
      some ⟨storageAt base (max a.blockSize minSize), max a.blockSize minSize, 0⟩ := by
  simp [allocateNewBlock]

/-- The request served at the start of a new slab that has room for it. -/
theorem allocateFuel_newBlock (fuel : Nat) (a : ArenaAllocator) (base minSize : Nat)
    (heap : Nat → Nat) (size alignment : Nat) (hs : size ≠ 0) (hal : alignment ≠ 0)
    (hroom : size % word ≤ max a.blockSize minSize)
    (hb : a.blockSize < word) (hm : minSize < word) :
    allocateFuel (fuel + 1) (allocateNewBlock a base minSize) heap size alignment =
      some ({ blockSize := (max a.blockSize minSize * 2) % word,
              currentBlock := a.blocks.length,
              blocks := a.blocks ++ [⟨storageAt base (max a.blockSize minSize),
                                      max a.blockSize minSize, size % word⟩] },
            storageAt base (max a.blockSize minSize)) := by
  have hcur := current_allocateNewBlock a base minSize
  have hlt : max a.blockSize minSize < word := max_lt hb hm
  have hst := storageAt_bound base _ hlt
  have htest : ¬ ((0 : Nat) + padding 0 alignment + size) % word > max a.blockSize minSize := by
    rw [padding_zero, Nat.add_zero, Nat.zero_add]
    omega
  rw [allocateFuel_fit fuel _ heap size alignment hs hal _ hcur htest]
  simp only [padding_zero, Nat.add_zero, Nat.zero_add]
  rw [Nat.mod_eq_of_lt (show storageAt base (max a.blockSize minSize) < word by omega)]
  simp [allocateNewBlock, List.set_append]

theorem wellFormed_allocateNewBlock (a : ArenaAllocator) (base minSize : Nat)
    (hb : a.blockSize < word) (hm : minSize < word)
    (h : ∀ block ∈ a.blocks, block.used ≤ block.size ∧ block.memory + block.size < word) :
    WellFormed (allocateNewBlock a base minSize) := by
  have hlt : max a.blockSize minSize < word := max_lt hb hm
  refine ⟨?_, ?_, ?_, ?_⟩
  · simp [allocateNewBlock]
  · simp only [allocateNewBlock]
    exact Nat.mod_lt _ word_pos
  · intro block hblk
    simp only [allocateNewBlock, List.mem_append, List.mem_singleton] at hblk
    rcases hblk with hblk | hblk
    · exact h block hblk
    · subst hblk
      exact ⟨Nat.zero_le _, storageAt_bound base _ hlt⟩
  · refine ⟨⟨storageAt base (max a.blockSize minSize), max a.blockSize minSize, 0⟩, ?_, ?_⟩
    · simp [allocateNewBlock]
    · simp [allocateNewBlock, Nat.mul_comm]

theorem wellFormed_new (initialBlockSize : Nat) (heap : Nat → Nat) :
    WellFormed (new initialBlockSize heap) :=
  wellFormed_allocateNewBlock _ _ _ (Nat.mod_lt _ word_pos) (by unfold defaultMinSize; exact word_pos)
    (by simp)

theorem wellFormed_clear (a : ArenaAllocator) (heap : Nat → Nat) :
    WellFormed (clear a heap) :=
  wellFormed_allocateNewBlock _ _ _ (show (65536 : Nat) < word by unfold word; omega)
    (by unfold defaultMinSize; exact word_pos) (by simp)

theorem wellFormed_reset (a : ArenaAllocator) (h : WellFormed a) : WellFormed (reset a) := by
  obtain ⟨h1, hb, h2, last, h3, h4⟩ := h
  refine ⟨?_, hb, ?_, ?_⟩
  · simp only [reset, List.length_map]; omega
  · intro block hblk
    simp only [reset, List.mem_map] at hblk
    obtain ⟨b, hmem, rfl⟩ := hblk
    exact ⟨Nat.zero_le _, (h2 b hmem).2⟩
  · refine ⟨{ last with used := 0 }, ?_, ?_⟩
    · simp [reset, List.getLast?_map, h3]
    · simpa [reset] using h4

theorem wellFormed_set (a : ArenaAllocator) (h : WellFormed a) (block : ArenaBlock)
    (hcur : a.blocks[a.currentBlock]? = some block) (used : Nat) (hu : used ≤ block.size) :
    WellFormed ⟨a.blockSize, a.currentBlock,
      a.blocks.set a.currentBlock ⟨block.memory, block.size, used⟩⟩ := by
  obtain ⟨h1, hb, h2, last, h3, h4⟩ := h
  have hmem : block ∈ a.blocks := List.getElem?_mem hcur
  refine ⟨?_, hb, ?_, ?_⟩
  · simpa using h1
  · intro b hblk
    rcases List.mem_or_eq_of_mem_set hblk with hblk | hblk
    · exact h2 b hblk
    · subst hblk
      exact ⟨hu, (h2 block hmem).2⟩
  · rw [List.getLast?_eq_getElem?] at h3
    by_cases hi : a.currentBlock = a.blocks.length - 1
    · refine ⟨{ block with used := used }, ?_, ?_⟩
      · rw [List.getLast?_eq_getElem?]
        simp only [List.length_set]
        rw [← hi]
        exact List.getElem?_set_self h1
      · rw [← hi, hcur] at h3
        cases h3
        simpa using h4
    · refine ⟨last, ?_, by simpa using h4⟩
      rw [List.getLast?_eq_getElem?]
      simp only [List.length_set]
      rw [List.getElem?_set_ne hi]
      exact h3

theorem wellFormed_current (a : ArenaAllocator) (h : WellFormed a) :
    ∃ block, a.blocks[a.currentBlock]? = some block := by
  have h1 := h.1
  exact ⟨a.blocks[a.currentBlock], List.getElem?_eq_getElem h1⟩

theorem wellFormed_allocateFuel (heap : Nat → Nat) (size alignment : Nat) :
    ∀ (fuel : Nat) (a b : ArenaAllocator) (p : Nat), WellFormed a →
      allocateFuel fuel a heap size alignment = some (b, p) → WellFormed b := by
  intro fuel
  induction fuel with
  | zero => intro a b p _ hr; simp [allocateFuel] at hr
  | succ fuel ih =>
    intro a b p h hr
    by_cases hs : size = 0
    · simp only [allocateFuel, hs, if_true, Option.some.injEq, Prod.mk.injEq] at hr
      rw [← hr.1]; exact h
    by_cases hal : alignment = 0
    · simp [allocateFuel, hs, hal] at hr
    obtain ⟨block, hcur⟩ := wellFormed_current a h
    rw [allocateFuel_succ fuel a heap size alignment hs hal block hcur] at hr
    by_cases hroom : (block.used + padding block.used alignment + size) % word > block.size
    · rw [if_pos hroom] at hr
      exact ih _ b p (wellFormed_allocateNewBlock a _ _ h.2.1 (Nat.mod_lt _ word_pos) h.2.2.1) hr
    · rw [if_neg hroom] at hr
      simp only [Option.some.injEq, Prod.mk.injEq] at hr
      rw [← hr.1]
      exact wellFormed_set a h block hcur _ (by omega)

theorem Reachable.wellFormed {a : ArenaAllocator} (h : Reachable a) : WellFormed a := by
  induction h with
  | new initialBlockSize heap => exact wellFormed_new _ _
  | allocate heap size alignment _ hr ih =>
    exact wellFormed_allocateFuel heap size alignment 3 _ _ _ ih hr
  | reset _ ih => exact wellFormed_reset _ ih
  | clear heap _ _ => exact wellFormed_clear _ _

/-- The three ways an `allocate` with positive size and alignment ends: served in the
current slab, served at the start of one new slab, or retried on a second new slab after the
first proved too small. -/
theorem allocateFuel_cases (fuel : Nat) (a : ArenaAllocator) (heap : Nat → Nat)
    (size alignment : Nat) (hs : size ≠ 0) (hal : alignment ≠ 0) (h : WellFormed a)
    (block : ArenaBlock) (hcur : a.blocks[a.currentBlock]? = some block) :
    (¬ (block.used + padding block.used alignment + size) % word > block.size ∧
      allocateFuel (fuel + 2) a heap size alignment =
        some (⟨a.blockSize, a.currentBlock, a.blocks.set a.currentBlock
                ⟨block.memory, block.size,
                  (block.used + padding block.used alignment + size) % word⟩⟩,
              (block.memory + block.used + padding block.used alignment) % word)) ∨
    ((block.used + padding block.used alignment + size) % word > block.size ∧
      size % word ≤ max a.blockSize ((size + padding block.used alignment) % word) ∧
      allocateFuel (fuel + 2) a heap size alignment =
        some (⟨(max a.blockSize ((size + padding block.used alignment) % word) * 2) % word,
                a.blocks.length,
                a.blocks ++
                  [⟨storageAt (heap a.blocks.length)
                      (max a.blockSize ((size + padding block.used alignment) % word)),
                    max a.blockSize ((size + padding block.used alignment) % word),
                    size % word⟩]⟩,
              storageAt (heap a.blocks.length)
                (max a.blockSize ((size + padding block.used alignment) % word)))) ∨
    ((block.used + padding block.used alignment + size) % word > block.size ∧
      ¬ size % word ≤ max a.blockSize ((size + padding block.used alignment) % word) ∧
      allocateFuel (fuel + 2) a heap size alignment =
        allocateFuel fuel
          (allocateNewBlock
            (allocateNewBlock a (heap a.blocks.length)
              ((size + padding block.used alignment) % word))
            (heap (a.blocks.length + 1)) (size % word)) heap size alignment) := by
  by_cases hroom : (block.used + padding block.used alignment + size) % word > block.size
  · right
    have h1 := allocateFuel_retry (fuel + 1) a heap size alignment hs hal block hcur hroom
    by_cases h2 : size % word ≤ max a.blockSize ((size + padding block.used alignment) % word)
    · left
      refine ⟨hroom, h2, ?_⟩
      rw [h1]
      exact allocateFuel_newBlock fuel a _ _ heap size alignment hs hal h2 h.2.1
        (Nat.mod_lt _ word_pos)
    · right
      refine ⟨hroom, h2, ?_⟩
      rw [h1]
      have hcur1 := current_allocateNewBlock a (heap a.blocks.length)
        ((size + padding block.used alignment) % word)
      have htest : ((0 : Nat) + padding 0 alignment + size) % word >
          max a.blockSize ((size + padding block.used alignment) % word) := by
        rw [padding_zero, Nat.add_zero, Nat.zero_add]
        omega
      rw [allocateFuel_retry fuel _ heap size alignment hs hal _ hcur1 htest]
      simp [padding_zero, allocateNewBlock]
  · left
    exact ⟨hroom, allocateFuel_fit (fuel + 1) a heap size alignment hs hal block hcur hroom⟩

/-- The second retry: the slab it runs on has at least `size` bytes. -/
theorem allocateFuel_second (fuel : Nat) (a : ArenaAllocator) (heap : Nat → Nat)
    (size alignment minSize : Nat) (hs : size ≠ 0) (hal : alignment ≠ 0) :
    allocateFuel (fuel + 1)
        (allocateNewBlock (allocateNewBlock a (heap a.blocks.length) minSize)
          (heap (a.blocks.length + 1)) (size % word)) heap size alignment =
      some (⟨(max ((max a.blockSize minSize * 2) % word) (size % word) * 2) % word,
              a.blocks.length + 1,
              a.blocks ++ [⟨storageAt (heap a.blocks.length) (max a.blockSize minSize),
                            max a.blockSize minSize, 0⟩] ++
                [⟨storageAt (heap (a.blocks.length + 1))
                    (max ((max a.blockSize minSize * 2) % word) (size % word)),
                  max ((max a.blockSize minSize * 2) % word) (size % word), size % word⟩]⟩,
            storageAt (heap (a.blocks.length + 1))
              (max ((max a.blockSize minSize * 2) % word) (size % word))) := by
  have h := allocateFuel_newBlock fuel (allocateNewBlock a (heap a.blocks.length) minSize)
    (heap (a.blocks.length + 1)) (size % word) heap size alignment hs hal
    (le_max_right _ _) (by simp only [allocateNewBlock]; exact Nat.mod_lt _ word_pos)
    (Nat.mod_lt _ word_pos)
  rw [h]
  simp [allocateNewBlock]

/-- Every `allocate` with a positive size and alignment returns, after at most two retries,
and any larger recursion bound gives the same result. -/
theorem allocate_returns (a : ArenaAllocator) (heap : Nat → Nat) (size alignment : Nat)
    (h : WellFormed a) (hs : 0 < size) (hal : 0 < alignment) :
    ∃ b p, allocate a heap size alignment = some (b, p) ∧ WellFormed b ∧
      ∀ fuel, allocateFuel (fuel + 3) a heap size alignment = some (b, p) := by
  obtain ⟨block, hcur⟩ := wellFormed_current a h
  have hs0 : size ≠ 0 := by omega
  have ha0 : alignment ≠ 0 := by omega
  have stable : ∀ fuel, allocateFuel (fuel + 3) a heap size alignment =
      allocateFuel 3 a heap size alignment := by
    intro fuel
    have c3 := allocateFuel_cases 1 a heap size alignment hs0 ha0 h block hcur
    have cf := allocateFuel_cases (fuel + 1) a heap size alignment hs0 ha0 h block hcur
    change _ ∨ _ ∨ (_ ∧ _ ∧ allocateFuel 3 a heap size alignment = _) at c3
    change _ ∨ _ ∨ (_ ∧ _ ∧ allocateFuel (fuel + 3) a heap size alignment = _) at cf
    rcases cf with ⟨f1, f2⟩ | ⟨f1, f2, f3⟩ | ⟨f1, f2, f3⟩ <;>
      rcases c3 with ⟨g1, g2⟩ | ⟨g1, g2, g3⟩ | ⟨g1, g2, g3⟩
    · exact f2.trans g2.symm
    · omega
    · omega
    · omega
    · exact f3.trans g3.symm
    · omega
    · omega
    · omega
    · rw [f3, g3, allocateFuel_second fuel a heap size alignment _ hs0 ha0,
        allocateFuel_second 0 a heap size alignment _ hs0 ha0]
  have some3 : ∃ r, allocateFuel 3 a heap size alignment = some r := by
    have c3 := allocateFuel_cases 1 a heap size alignment hs0 ha0 h block hcur
    change _ ∨ _ ∨ (_ ∧ _ ∧ allocateFuel 3 a heap size alignment = _) at c3
    rcases c3 with ⟨_, g2⟩ | ⟨_, _, g3⟩ | ⟨_, _, g3⟩
    · exact ⟨_, g2⟩
    · exact ⟨_, g3⟩
    · rw [g3, allocateFuel_second 0 a heap size alignment _ hs0 ha0]
      exact ⟨_, rfl⟩
  obtain ⟨⟨b, p⟩, hr⟩ := some3
  refine ⟨b, p, hr, ?_, fun fuel => (stable fuel).trans hr⟩
  exact wellFormed_allocateFuel heap size alignment 3 a b p h hr

theorem allocateFuel_stable (fuel : Nat) (a : ArenaAllocator) (heap : Nat → Nat)
    (size alignment : Nat) (hs : 0 < size) (hal : 0 < alignment) (h : WellFormed a) :
    allocateFuel (fuel + 3) a heap size alignment = allocate a heap size alignment := by
  obtain ⟨b, p, h1, _, h3⟩ := allocate_returns a heap size alignment h hs hal
  rw [h1, h3]

theorem noWrap_iff (a : ArenaAllocator) (size alignment : Nat) (block : ArenaBlock)
    (hcur : a.blocks[a.currentBlock]? = some block) :
    noWrap a size alignment = true ↔
      block.used + padding block.used alignment + size < word := by
  unfold noWrap current
  rw [hcur]
  simp

/-- A request that fits the current slab, as numbers: served behind the cursor. -/
theorem allocate_fit_exact (fuel : Nat) (a : ArenaAllocator) (heap : Nat → Nat)
    (size alignment : Nat) (hs : 0 < size) (hal : 0 < alignment) (h : WellFormed a)
    (block : ArenaBlock) (hcur : a.blocks[a.currentBlock]? = some block)
    (hroom : block.used + padding block.used alignment + size ≤ block.size) :
    allocateFuel (fuel + 1) a heap size alignment =
      some (⟨a.blockSize, a.currentBlock, a.blocks.set a.currentBlock
              ⟨block.memory, block.size, block.used + padding block.used alignment + size⟩⟩,
            block.memory + block.used + padding block.used alignment) := by
  have hmem := (h.2.2.1 block (List.getElem?_mem hcur)).2
  have e1 : (block.used + padding block.used alignment + size) % word =
      block.used + padding block.used alignment + size := Nat.mod_eq_of_lt (by omega)
  have e2 : (block.memory + block.used + padding block.used alignment) % word =
      block.memory + block.used + padding block.used alignment := Nat.mod_eq_of_lt (by omega)
  rw [allocateFuel_fit fuel a heap size alignment (by omega) (by omega) block hcur
    (by rw [e1]; omega), e1, e2]

/-- A request that does not fit the current slab and whose sum does not wrap: served at the
start of one new slab. -/
theorem allocate_grow_exact (fuel : Nat) (a : ArenaAllocator) (heap : Nat → Nat)
    (size alignment : Nat) (hs : 0 < size) (hal : 0 < alignment) (h : WellFormed a)
    (block : ArenaBlock) (hcur : a.blocks[a.currentBlock]? = some block)
    (hnw : block.used + padding block.used alignment + size < word)
    (hroom : block.used + padding block.used alignment + size > block.size) :
    allocateFuel (fuel + 2) a heap size alignment =
      some (⟨(max a.blockSize (size + padding block.used alignment) * 2) % word,
              a.blocks.length,
              a.blocks ++
                [⟨storageAt (heap a.blocks.length)
                    (max a.blockSize (size + padding block.used alignment)),
                  max a.blockSize (size + padding block.used alignment), size⟩]⟩,
            storageAt (heap a.blocks.length)
              (max a.blockSize (size + padding block.used alignment))) := by
  have e1 : (block.used + padding block.used alignment + size) % word =
      block.used + padding block.used alignment + size := Nat.mod_eq_of_lt hnw
  have e2 : (size + padding block.used alignment) % word = size + padding block.used alignment :=
    Nat.mod_eq_of_lt (by omega)
  have e3 : size % word = size := Nat.mod_eq_of_lt (by omega)
  have hle : size ≤ max a.blockSize (size + padding block.used alignment) :=
    le_trans (Nat.le_add_right _ _) (le_max_right _ _)
  rcases allocateFuel_cases fuel a heap size alignment (by omega) (by omega) h block hcur with
    ⟨c, _⟩ | ⟨_, _, c⟩ | ⟨_, c, _⟩
  · rw [e1] at c; omega
  · rw [e2, e3] at c; exact c
  · rw [e2, e3] at c; omega

/-- Every `allocate` with a positive size and alignment whose sum does not wrap is served by
the slab that is current at return, at an offset that is a multiple of the alignment. -/
theorem allocate_served (a : ArenaAllocator) (heap : Nat → Nat) (size alignment : Nat)
    (h : WellFormed a) (hs : 0 < size) (hal : 0 < alignment)
    (hnw : noWrap a size alignment = true) :
    ∃ b p block off, allocate a heap size alignment = some (b, p) ∧
      b.current = some block ∧ p = block.memory + off ∧ alignment ∣ off ∧
      off + size = block.used ∧ WellFormed b := by
  obtain ⟨block, hcur⟩ := wellFormed_current a h
  rw [noWrap_iff a size alignment block hcur] at hnw
  by_cases hroom : block.used + padding block.used alignment + size > block.size
  · have hr := allocate_grow_exact 1 a heap size alignment hs hal h block hcur hnw hroom
    refine ⟨_, _, ⟨storageAt (heap a.blocks.length)
        (max a.blockSize (size + padding block.used alignment)),
      max a.blockSize (size + padding block.used alignment), size⟩,
      0, hr, ?_, rfl, dvd_zero _, by simp, wellFormed_allocateFuel heap size alignment 3 a _ _ h hr⟩
    simp [current]
  · have hr := allocate_fit_exact 2 a heap size alignment hs hal h block hcur (by omega)
    refine ⟨_, _, ⟨block.memory, block.size, block.used + padding block.used alignment + size⟩,
      block.used + padding block.used alignment, hr, ?_, by simp [Nat.add_assoc],
      padding_dvd _ _ hal, rfl, wellFormed_allocateFuel heap size alignment 3 a _ _ h hr⟩
    simp only [current]
    exact List.getElem?_set_self h.1


/-- C2, as amended: for every reachable arena state and every `allocate(size, alignment)`
with `size > 0` and `alignment > 0` in which the `size_t` sum `used + padding + size` of the
current slab does not wrap, the call returns `p = base + off` where `base` is the base
address of the slab that served the request and `off` is a multiple of `alignment`; hence
`p` is a multiple of `alignment` exactly when that base address is. -/
theorem arena_allocate_offset_aligned (a : ArenaAllocator) (heap : Nat → Nat)
    (size alignment : Nat) (hr : Reachable a) (hs : 0 < size) (hal : 0 < alignment)
    (hnw : noWrap a size alignment = true) :
    ∃ b p block off, allocate a heap size alignment = some (b, p) ∧
      b.current = some block ∧ p = block.memory + off ∧ alignment ∣ off ∧
      (alignment ∣ p ↔ alignment ∣ block.memory) := by
  obtain ⟨b, p, block, off, h1, h2, h3, h4, _, _⟩ :=
    allocate_served a heap size alignment hr.wellFormed hs hal hnw
  refine ⟨b, p, block, off, h1, h2, h3, h4, ?_⟩
  rw [h3]
  exact (Nat.dvd_add_iff_left h4).symm

/-- The amended C2 on a fresh 128-byte arena, `allocate(8, 4)`. -/
theorem arena_allocate_offset_aligned_witness :
    Reachable (new 128 heap16) ∧ 0 < 8 ∧ 0 < 4 ∧ noWrap (new 128 heap16) 8 4 = true ∧
    ∃ b p block off, allocate (new 128 heap16) heap16 8 4 = some (b, p) ∧
      b.current = some block ∧ p = block.memory + off ∧ 4 ∣ off ∧
      (4 ∣ p ↔ 4 ∣ block.memory) :=
  ⟨Reachable.new 128 heap16, by decide, by decide, by decide,
    arena_allocate_offset_aligned (new 128 heap16) heap16 8 4 (Reachable.new 128 heap16)
      (by decide) (by decide) (by decide)⟩

/-- C2, as stated, fails: on a fresh arena whose slab the heap placed at address 16,
`allocate(8, 32)` returns 16, which is not a multiple of 32. -/
theorem arena_allocate_address_unaligned :
    Reachable (new 128 heap16) ∧ 0 < 8 ∧ 0 < 32 ∧
    (allocate (new 128 heap16) heap16 8 32).map Prod.snd = some 16 ∧ ¬ (32 ∣ 16) :=
  ⟨Reachable.new 128 heap16, by decide, by decide, by decide, by decide⟩

/-- C4, as amended: in every reachable arena state, an `allocate(size, alignment)` with
`size > 0`, `alignment > 0` whose current slab lacks room and whose `size_t` sum
`used + padding + size` does not wrap appends exactly one slab, of size
`max (2 * size of the slab allocated last, as a size_t) (size + padding)`, and the retry is
served at the start of that slab: the first attempt alone does not return, one retry does,
and a larger recursion bound changes nothing.  In Scenario B (`Arena(128)`,
`allocate(100, 8)` twice) the first call is served from the first slab, the second appends
one slab of 256 bytes, and `getTotalMemory()` is 384, which is at least 328. -/
theorem arena_allocate_grows_once :
    (∀ (a : ArenaAllocator) (heap : Nat → Nat) (size alignment : Nat),
      Reachable a → 0 < size → 0 < alignment → lacksRoom a size alignment →
      noWrap a size alignment = true →
      ∃ cur last b, a.current = some cur ∧ a.blocks.getLast? = some last ∧
        allocate a heap size alignment =
          some (b, storageAt (heap a.blocks.length)
            (max ((2 * last.size) % word) (size + padding cur.used alignment))) ∧
        b.blocks = a.blocks ++
          [⟨storageAt (heap a.blocks.length)
              (max ((2 * last.size) % word) (size + padding cur.used alignment)),
            max ((2 * last.size) % word) (size + padding cur.used alignment), size⟩] ∧
        b.currentBlock = a.blocks.length ∧
        allocateFuel 1 a heap size alignment = none ∧
        ∀ fuel, allocateFuel (fuel + 2) a heap size alignment = allocate a heap size alignment) ∧
    (∃ a1 a2, allocate (new 128 scenarioHeap) scenarioHeap 100 8 = some (a1, 65536) ∧
        a1.blocks.length = 1 ∧ a1.currentBlock = 0 ∧
        allocate a1 scenarioHeap 100 8 = some (a2, 131072) ∧
        a2.blocks.length = 2 ∧ a2.currentBlock = 1 ∧
        getTotalMemory a2 = 384 ∧ getTotalMemory a2 ≥ 328) := by
  constructor
  · intro a heap size alignment hr hs hal hlack hnw
    obtain ⟨cur, hcur, hroom⟩ := hlack
    have hwf := hr.wellFormed
    obtain ⟨last, hlast, hbs⟩ := hwf.2.2.2
    have hcur2 : a.blocks[a.currentBlock]? = some cur := hcur
    rw [noWrap_iff a size alignment cur hcur2] at hnw
    have hg := fun fuel =>
      allocate_grow_exact fuel a heap size alignment hs hal hwf cur hcur2 hnw hroom
    rw [hbs] at hg
    refine ⟨cur, last, _, hcur, hlast, hg 1, rfl, rfl, ?_, ?_⟩
    · have e1 : (cur.used + padding cur.used alignment + size) % word =
          cur.used + padding cur.used alignment + size := Nat.mod_eq_of_lt hnw
      rw [allocateFuel_retry 0 a heap size alignment (by omega) (by omega) cur hcur2
        (by rw [e1]; exact hroom)]
      rfl
    · intro fuel
      rw [hg fuel]
      exact (hg 1).symm
  · refine ⟨⟨256, 0, [⟨65536, 128, 100⟩]⟩,
      ⟨512, 1, [⟨65536, 128, 100⟩, ⟨131072, 256, 100⟩]⟩, by decide, rfl, rfl, by decide, rfl,
      rfl, by decide, by decide⟩

/-- The amended C4 on a fresh 128-byte arena, `allocate(200, 8)`, which does not fit. -/
theorem arena_allocate_grows_once_witness :
    Reachable (new 128 scenarioHeap) ∧ 0 < 200 ∧ 0 < 8 ∧
    lacksRoom (new 128 scenarioHeap) 200 8 ∧ noWrap (new 128 scenarioHeap) 200 8 = true ∧
    ∃ cur last b, (new 128 scenarioHeap).current = some cur ∧
      (new 128 scenarioHeap).blocks.getLast? = some last ∧
      allocate (new 128 scenarioHeap) scenarioHeap 200 8 =
        some (b, storageAt (scenarioHeap (new 128 scenarioHeap).blocks.length)
          (max ((2 * last.size) % word) (200 + padding cur.used 8))) ∧
      b.blocks = (new 128 scenarioHeap).blocks ++
        [⟨storageAt (scenarioHeap (new 128 scenarioHeap).blocks.length)
            (max ((2 * last.size) % word) (200 + padding cur.used 8)),
          max ((2 * last.size) % word) (200 + padding cur.used 8), 200⟩] ∧
      b.currentBlock = (new 128 scenarioHeap).blocks.length ∧
      allocateFuel 1 (new 128 scenarioHeap) scenarioHeap 200 8 = none ∧
      ∀ fuel, allocateFuel (fuel + 2) (new 128 scenarioHeap) scenarioHeap 200 8 =
        allocate (new 128 scenarioHeap) scenarioHeap 200 8 :=
  ⟨Reachable.new 128 scenarioHeap, by decide, by decide,
    ⟨⟨65536, 128, 0⟩, by decide, by decide⟩, by decide,
    arena_allocate_grows_once.1 (new 128 scenarioHeap) scenarioHeap 200 8
      (Reachable.new 128 scenarioHeap) (by decide) (by decide)
      ⟨⟨65536, 128, 0⟩, by decide, by decide⟩ (by decide)⟩

/-- C4, as stated, fails: `Arena(128)`, `allocate(100, 1)`, then `allocate(300, 2^64 - 1)`.
The current slab lacks room, the sum `size + padding = 300 + (2^64 - 101)` wraps to 199, the
new slab gets `max(256, 199) = 256` bytes, the retry does not fit it, and a second slab of
512 bytes is appended: two slabs, recursion depth two, the request served from the second. -/
theorem arena_allocate_grows_twice :
    Reachable ⟨256, 0, [⟨65536, 128, 100⟩]⟩ ∧
    lacksRoom ⟨256, 0, [⟨65536, 128, 100⟩]⟩ 300 18446744073709551615 ∧
    (300 + padding 100 18446744073709551615) % word = 199 ∧
    allocate ⟨256, 0, [⟨65536, 128, 100⟩]⟩ scenarioHeap 300 18446744073709551615 =
      some (⟨1024, 2, [⟨65536, 128, 100⟩, ⟨131072, 256, 0⟩, ⟨196608, 512, 300⟩]⟩, 196608) ∧
    allocateFuel 2 ⟨256, 0, [⟨65536, 128, 100⟩]⟩ scenarioHeap 300 18446744073709551615 =
      none := by
  refine ⟨?_, ⟨⟨65536, 128, 100⟩, by decide, by decide⟩, by decide, by decide, by decide⟩
  have h : allocate (new 128 scenarioHeap) scenarioHeap 100 1 =
      some (⟨256, 0, [⟨65536, 128, 100⟩]⟩, 65536) := by decide
  exact Reachable.allocate scenarioHeap 100 1 (Reachable.new 128 scenarioHeap) h


theorem firstServed_append_ne (log : List (Nat × Nat)) (i p : Nat) (hi : i ≠ 0) :
    firstServed (log ++ [(i, p)]) = firstServed log := by
  unfold firstServed
  rw [List.find?_append]
  simp [hi]

theorem firstServed_append_zero (log : List (Nat × Nat)) (p : Nat) :
    firstServed (log ++ [(0, p)]) = (firstServed log).or (some (0, p)) := by
  unfold firstServed
  rw [List.find?_append]
  simp

/-- An `allocate` that does not fit the current slab keeps the first slab as it is and ends
on a slab other than the first, whether it appends one slab or two. -/
theorem allocate_grow_shape (a b : ArenaAllocator) (heap : Nat → Nat) (size alignment p : Nat)
    (hs : size ≠ 0) (hal : alignment ≠ 0) (h : WellFormed a) (block : ArenaBlock)
    (hcur : a.blocks[a.currentBlock]? = some block)
    (hroom : (block.used + padding block.used alignment + size) % word > block.size)
    (hr : allocate a heap size alignment = some (b, p)) :
    b.blocks.head? = a.blocks.head? ∧ b.currentBlock ≠ 0 := by
  have hlen : 0 < a.blocks.length := Nat.lt_of_le_of_lt (Nat.zero_le _) h.1
  have hne : a.blocks ≠ [] := by
    intro h0; rw [h0] at hlen; simp at hlen
  have hhead : ∀ extra : List ArenaBlock, (a.blocks ++ extra).head? = a.blocks.head? := by
    intro extra
    cases hbl : a.blocks with
    | nil => exact absurd hbl hne
    | cons x xs => simp
  have c3 := allocateFuel_cases 1 a heap size alignment hs hal h block hcur
  change _ ∨ _ ∨ (_ ∧ _ ∧ allocateFuel 3 a heap size alignment = _) at c3
  unfold allocate at hr
  rcases c3 with ⟨h1, _⟩ | ⟨_, _, h2⟩ | ⟨_, _, h3⟩
  · exact absurd hroom h1
  · rw [h2] at hr
    simp only [Option.some.injEq, Prod.mk.injEq] at hr
    rw [← hr.1]
    exact ⟨hhead _, by simp only; omega⟩
  · rw [h3, allocateFuel_second 0 a heap size alignment _ hs hal] at hr
    simp only [Option.some.injEq, Prod.mk.injEq] at hr
    rw [← hr.1]
    refine ⟨?_, by simp only; omega⟩
    simp only [List.append_assoc]
    exact hhead _

theorem traceInv_allocate (a b : ArenaAllocator) (heap : Nat → Nat) (log : List (Nat × Nat))
    (size alignment p : Nat) (h : TraceInv a log)
    (hr : allocate a heap size alignment = some (b, p)) :
    TraceInv b (if size = 0 then log else log ++ [(b.currentBlock, p)]) := by
  obtain ⟨hreach, first, hfirst, hused, hlog⟩ := h
  have hreach2 : Reachable b := Reachable.allocate heap size alignment hreach hr
  have hwf := hreach.wellFormed
  by_cases hs : size = 0
  · simp only [allocate, allocateFuel, hs, if_true, Option.some.injEq, Prod.mk.injEq] at hr
    simp only [hs, if_true]
    rw [← hr.1]
    exact ⟨hreach, first, hfirst, hused, hlog⟩
  simp only [hs, if_false]
  by_cases hal : alignment = 0
  · simp [allocate, allocateFuel, hs, hal] at hr
  obtain ⟨block, hcur⟩ := wellFormed_current a hwf
  have hne : a.blocks ≠ [] := by
    intro h0; rw [h0] at hfirst; simp at hfirst
  by_cases hroom : (block.used + padding block.used alignment + size) % word > block.size
  · obtain ⟨hhead, hi⟩ :=
      allocate_grow_shape a b heap size alignment p hs hal hwf block hcur hroom hr
    refine ⟨hreach2, first, by rw [hhead]; exact hfirst, ?_, ?_⟩
    · intro h0; rw [firstServed_append_ne _ _ _ hi] at h0; exact hused h0
    · intro e h0; rw [firstServed_append_ne _ _ _ hi] at h0; exact hlog e h0
  · unfold allocate at hr
    rw [allocateFuel_fit 2 a heap size alignment hs hal block hcur hroom] at hr
    simp only [Option.some.injEq, Prod.mk.injEq] at hr
    obtain ⟨hb, hp⟩ := hr
    subst hb
    by_cases hi : a.currentBlock = 0
    · have hbf : block = first := by
        rw [hi] at hcur
        rw [List.head?_eq_getElem?] at hfirst
        rw [hfirst] at hcur
        exact (Option.some.inj hcur).symm
      subst hbf
      have hmem := (hwf.2.2.1 block (List.getElem?_mem hcur)).2
      refine ⟨hreach2,
        ⟨block.memory, block.size, (block.used + padding block.used alignment + size) % word⟩,
        ?_, ?_, ?_⟩
      · simp only [hi]
        cases hbl : a.blocks with
        | nil => exact absurd hbl hne
        | cons x xs => simp
      · intro h0
        simp only [hi, firstServed_append_zero] at h0
        cases hfs : firstServed log <;> simp [hfs] at h0
      · intro e h0
        simp only [hi, firstServed_append_zero] at h0
        cases hfs : firstServed log with
        | none =>
          simp only [hfs, Option.none_or, Option.some.injEq] at h0
          rw [← h0, ← hp, hused hfs, padding_zero]
          exact Nat.mod_eq_of_lt (by omega)
        | some e1 =>
          simp only [hfs, Option.or, Option.some.injEq] at h0
          rw [← h0]
          exact hlog e1 hfs
    · refine ⟨hreach2, first, ?_, ?_, ?_⟩
      · simp only
        cases hbl : a.blocks with
        | nil => exact absurd hbl hne
        | cons x xs =>
          rw [hbl] at hfirst
          obtain ⟨k, hk⟩ := Nat.exists_eq_succ_of_ne_zero hi
          simpa [hk] using hfirst
      · intro h0; rw [firstServed_append_ne _ _ _ hi] at h0; exact hused h0
      · intro e h0; rw [firstServed_append_ne _ _ _ hi] at h0; exact hlog e h0

theorem traceInv_reset (a : ArenaAllocator) (log : List (Nat × Nat)) (h : TraceInv a log) :
    TraceInv (reset a) log := by
  obtain ⟨hreach, first, hfirst, _, hlog⟩ := h
  refine ⟨Reachable.reset hreach, { first with used := 0 }, ?_, fun _ => rfl, hlog⟩
  simp [reset, List.head?_map, hfirst]

theorem traceInv_clear (a : ArenaAllocator) (heap : Nat → Nat) (log : List (Nat × Nat))
    (h : TraceInv a log) : TraceInv (clear a heap) [] :=
  ⟨Reachable.clear heap h.1, ⟨storageAt (heap 0) (max 65536 defaultMinSize),
      max 65536 defaultMinSize, 0⟩, by simp [clear, allocateNewBlock],
    fun _ => rfl, by simp [firstServed]⟩

theorem traceInv_new (initialBlockSize : Nat) (heap : Nat → Nat) :
    TraceInv (new initialBlockSize heap) [] :=
  ⟨Reachable.new _ _, ⟨storageAt (heap 0) (max (initialBlockSize % word) defaultMinSize),
      max (initialBlockSize % word) defaultMinSize, 0⟩, by simp [new, allocateNewBlock],
    fun _ => rfl, by simp [firstServed]⟩

theorem traceInv_runTrace (heap : Nat → Nat) (ops : List ArenaOp) :
    ∀ (a b : ArenaAllocator) (log log2 : List (Nat × Nat)), TraceInv a log →
      runTrace a heap log ops = some (b, log2) → TraceInv b log2 := by
  induction ops with
  | nil =>
    intro a b log log2 h hr
    simp only [runTrace, Option.some.injEq, Prod.mk.injEq] at hr
    rw [← hr.1, ← hr.2]; exact h
  | cons op ops ih =>
    intro a b log log2 h hr
    cases op with
    | allocate size alignment =>
      simp only [runTrace] at hr
      cases hal : allocate a heap size alignment with
      | none => simp [hal] at hr
      | some r =>
        obtain ⟨c, p⟩ := r
        simp only [hal] at hr
        exact ih _ _ _ _ (traceInv_allocate a c heap log size alignment p h hal) hr
    | reset =>
      simp only [runTrace] at hr
      exact ih _ _ _ _ (traceInv_reset a log h) hr
    | clear =>
      simp only [runTrace] at hr
      exact ih _ _ _ _ (traceInv_clear a heap log h) hr

theorem foldl_add_eq_sum {α : Type} (f : α → Nat) (l : List α) (init : Nat) :
    l.foldl (fun acc x => acc + f x) init = init + (l.map f).sum := by
  induction l generalizing init with
  | nil => simp
  | cons x xs ih => simp [ih, Nat.add_assoc]

theorem getTotalMemory_eq_sum (a : ArenaAllocator) :
    getTotalMemory a = (a.blocks.map ArenaBlock.size).sum := by
  unfold getTotalMemory
  rw [foldl_add_eq_sum ArenaBlock.size]; simp

theorem getUsedMemory_eq_sum (a : ArenaAllocator) :
    getUsedMemory a = (a.blocks.map ArenaBlock.used).sum := by
  unfold getUsedMemory
  rw [foldl_add_eq_sum ArenaBlock.used]; simp

theorem getUsedMemory_reset (a : ArenaAllocator) : getUsedMemory (reset a) = 0 := by
  rw [getUsedMemory_eq_sum]
  simp [reset, Function.comp_def]

theorem getTotalMemory_reset (a : ArenaAllocator) :
    getTotalMemory (reset a) = getTotalMemory a := by
  rw [getTotalMemory_eq_sum, getTotalMemory_eq_sum]
  simp [reset, Function.comp_def]

/-- C7: in every reachable arena state `reset()` leaves `getUsedMemory() = 0` and keeps the
slabs (their addresses and sizes) and `getTotalMemory()`; the first `allocate(size,
alignment)` after it, for `0 < size <= ` the first slab's size, returns the base address of
the first slab and appends no slab.  That address was issued before: in every run from
construction, the first allocation served from the first slab returned it. -/
theorem arena_reset_reuses_first_slab :
    (∀ a : ArenaAllocator, Reachable a →
      getUsedMemory (reset a) = 0 ∧
      (reset a).blocks.map (fun b => (b.memory, b.size)) =
        a.blocks.map (fun b => (b.memory, b.size)) ∧
      getTotalMemory (reset a) = getTotalMemory a ∧
      ∃ first, a.blocks.head? = some first ∧
        ∀ (heap : Nat → Nat) (size alignment : Nat), 0 < size → size ≤ first.size →
          0 < alignment →
          ∃ b, allocate (reset a) heap size alignment = some (b, first.memory) ∧
            b.blocks.length = a.blocks.length) ∧
    (∀ (initialBlockSize : Nat) (heap : Nat → Nat) (ops : List ArenaOp) (a : ArenaAllocator)
      (log : List (Nat × Nat)),
      runTrace (new initialBlockSize heap) heap [] ops = some (a, log) →
      Reachable a ∧ ∃ first, a.blocks.head? = some first ∧
        ∀ e, firstServed log = some e → e.2 = first.memory) := by
  constructor
  · intro a hr
    refine ⟨getUsedMemory_reset a, by simp [reset, Function.comp_def], getTotalMemory_reset a, ?_⟩
    have hwf := hr.wellFormed
    cases hbl : a.blocks with
    | nil => have := hwf.1; rw [hbl] at this; simp at this
    | cons first rest =>
      refine ⟨first, rfl, ?_⟩
      intro heap size alignment hs hle hal
      have hcur : (reset a).blocks[(reset a).currentBlock]? = some ⟨first.memory, first.size, 0⟩ := by
        simp [reset, hbl]
      have hroom : (0 : Nat) + padding 0 alignment + size ≤ first.size := by
        rw [padding_zero]; omega
      have hfit := allocate_fit_exact 2 (reset a) heap size alignment hs hal
        (wellFormed_reset a hwf) ⟨first.memory, first.size, 0⟩ hcur hroom
      refine ⟨⟨(reset a).blockSize, (reset a).currentBlock,
        (reset a).blocks.set (reset a).currentBlock
          ⟨first.memory, first.size, 0 + padding 0 alignment + size⟩⟩, ?_, ?_⟩
      · unfold allocate
        rw [hfit]
        simp [padding_zero]
      · simp [reset, hbl]
  · intro initialBlockSize heap ops a log h
    obtain ⟨h1, first, h2, _, h4⟩ :=
      traceInv_runTrace heap ops _ _ _ _ (traceInv_new initialBlockSize heap) h
    exact ⟨h1, first, h2, h4⟩

/-- C7 after Scenario B: `reset()` clears the usage and `allocate(100, 8)` returns 65536 again. -/
theorem arena_reset_reuses_first_slab_witness :
    runTrace (new 128 scenarioHeap) scenarioHeap []
      [ArenaOp.allocate 100 8, ArenaOp.allocate 100 8] =
      some (⟨512, 1, [⟨65536, 128, 100⟩, ⟨131072, 256, 100⟩]⟩, [(0, 65536), (1, 131072)]) ∧
    getUsedMemory (reset ⟨512, 1, [⟨65536, 128, 100⟩, ⟨131072, 256, 100⟩]⟩) = 0 ∧
    (∃ b, allocate (reset ⟨512, 1, [⟨65536, 128, 100⟩, ⟨131072, 256, 100⟩]⟩) scenarioHeap 100 8
      = some (b, 65536)) ∧
    firstServed [(0, 65536), (1, 131072)] = some (0, 65536) := by
  have hrun : runTrace (new 128 scenarioHeap) scenarioHeap []
      [ArenaOp.allocate 100 8, ArenaOp.allocate 100 8] =
      some (⟨512, 1, [⟨65536, 128, 100⟩, ⟨131072, 256, 100⟩]⟩, [(0, 65536), (1, 131072)]) := by
    decide
  have h2 := arena_reset_reuses_first_slab.2 128 scenarioHeap _ _ _ hrun
  have h1 := arena_reset_reuses_first_slab.1 _ h2.1
  obtain ⟨first, hf, hall⟩ := h1.2.2.2
  have hfirst : first = ⟨65536, 128, 100⟩ := by
    simp at hf; exact hf.symm
  subst hfirst
  obtain ⟨b, hb, _⟩ := hall scenarioHeap 100 8 (by decide) (by decide) (by decide)
  exact ⟨hrun, h1.1, ⟨b, hb⟩, by decide⟩


/-- C8, the code at the failing input: `Arena(128)`, `allocate(100, 8)` twice gives two
slabs and 384 bytes; after `reset()` the same two calls are not served from the two slabs
the arena owns: the second call appends a third slab of 512 bytes at a new address while the
retained 256-byte slab stays empty, and `getTotalMemory()` becomes 896. -/
theorem arena_replay_after_reset_appends_slab :
    runTrace (new 128 scenarioHeap) scenarioHeap []
      [ArenaOp.allocate 100 8, ArenaOp.allocate 100 8] =
      some (⟨512, 1, [⟨65536, 128, 100⟩, ⟨131072, 256, 100⟩]⟩, [(0, 65536), (1, 131072)]) ∧
    getTotalMemory ⟨512, 1, [⟨65536, 128, 100⟩, ⟨131072, 256, 100⟩]⟩ = 384 ∧
    runTrace (reset ⟨512, 1, [⟨65536, 128, 100⟩, ⟨131072, 256, 100⟩]⟩) scenarioHeap []
      [ArenaOp.allocate 100 8, ArenaOp.allocate 100 8] =
      some (⟨1024, 2, [⟨65536, 128, 100⟩, ⟨131072, 256, 0⟩, ⟨196608, 512, 100⟩]⟩,
        [(0, 65536), (2, 196608)]) ∧
    getTotalMemory ⟨1024, 2, [⟨65536, 128, 100⟩, ⟨131072, 256, 0⟩, ⟨196608, 512, 100⟩]⟩ = 896 := by
  decide

theorem sum_used_le_sum_size (l : List ArenaBlock) (h : ∀ block ∈ l, block.used ≤ block.size) :
    (l.map ArenaBlock.used).sum ≤ (l.map ArenaBlock.size).sum ∧
    (l.map (fun block => block.size - block.used)).sum + (l.map ArenaBlock.used).sum =
      (l.map ArenaBlock.size).sum := by
  induction l with
  | nil => simp
  | cons x xs ih =>
    have hx := h x (List.mem_cons_self _ _)
    have ih2 := ih (fun block hb => h block (List.mem_cons_of_mem _ hb))
    simp only [List.map_cons, List.sum_cons]
    omega

theorem sum_map_set {α : Type} (f : α → Nat) (l : List α) (i : Nat) (x y : α)
    (h : l[i]? = some x) :
    ((l.set i y).map f).sum + f x = (l.map f).sum + f y := by
  induction l generalizing i with
  | nil => simp at h
  | cons z zs ih =>
    cases i with
    | zero =>
      simp only [List.getElem?_cons_zero, Option.some.injEq] at h
      subst h
      simp only [List.set_cons_zero, List.map_cons, List.sum_cons]
      omega
    | succ k =>
      simp only [List.getElem?_cons_succ] at h
      have := ih k h
      simp only [List.set_cons_succ, List.map_cons, List.sum_cons]
      omega

/-- C9, as amended: in every reachable arena state `getUsedMemory() <= getTotalMemory()`, so
`getWastedMemory() = getTotalMemory() - getUsedMemory()` does not underflow, and the wasted
figure is the unused tail space of the slabs, the sum of `size - used`.  Alignment padding is
counted as used: an `allocate` served in the current slab keeps `getTotalMemory()`, raises
`getUsedMemory()` by `padding + size` and lowers `getWastedMemory()` by the same amount. -/
theorem arena_wasted_is_tail_space (a : ArenaAllocator) (hr : Reachable a) :
    getUsedMemory a ≤ getTotalMemory a ∧
    getWastedMemory a + getUsedMemory a = getTotalMemory a ∧
    getWastedMemory a = (a.blocks.map (fun block => block.size - block.used)).sum ∧
    ∀ (heap : Nat → Nat) (size alignment : Nat) (cur : ArenaBlock),
      0 < size → 0 < alignment → a.current = some cur →
      cur.used + padding cur.used alignment + size ≤ cur.size →
      ∃ b p, allocate a heap size alignment = some (b, p) ∧
        p = cur.memory + cur.used + padding cur.used alignment ∧
        getTotalMemory b = getTotalMemory a ∧
        getUsedMemory b = getUsedMemory a + (padding cur.used alignment + size) ∧
        getWastedMemory b + (padding cur.used alignment + size) = getWastedMemory a := by
  have hwf := hr.wellFormed
  have hsum := sum_used_le_sum_size a.blocks (fun block hb => (hwf.2.2.1 block hb).1)
  have hw : getWastedMemory a = getTotalMemory a - getUsedMemory a := rfl
  rw [hw, getTotalMemory_eq_sum, getUsedMemory_eq_sum]
  refine ⟨hsum.1, by omega, by omega, ?_⟩
  intro heap size alignment cur hs hal hcur hroom
  have hfit : allocate a heap size alignment = _ :=
    allocate_fit_exact 2 a heap size alignment hs hal hwf cur hcur hroom
  refine ⟨_, _, hfit, rfl, ?_⟩
  have hb := wellFormed_allocateFuel heap size alignment 3 a _ _ hwf hfit
  have hsum2 := sum_used_le_sum_size _ (fun block hblk => (hb.2.2.1 block hblk).1)
  have hw2 : ∀ b : ArenaAllocator, getWastedMemory b = getTotalMemory b - getUsedMemory b :=
    fun _ => rfl
  rw [hw2, getTotalMemory_eq_sum, getUsedMemory_eq_sum]
  have e1 := sum_map_set ArenaBlock.size a.blocks a.currentBlock cur
    ⟨cur.memory, cur.size, cur.used + padding cur.used alignment + size⟩ hcur
  have e2 := sum_map_set ArenaBlock.used a.blocks a.currentBlock cur
    ⟨cur.memory, cur.size, cur.used + padding cur.used alignment + size⟩ hcur
  simp only at e1 e2 hsum2 ⊢
  omega

/-- The amended C9 on a fresh 128-byte arena: nothing used, 128 bytes wasted; and on
`Arena(16)` after `allocate(1, 1)`: `allocate(8, 8)` is served in the slab behind 7 bytes of
padding, `getTotalMemory()` stays 16, `getUsedMemory()` rises from 1 by 7 + 8 and
`getWastedMemory()` falls from 15 by the same amount. -/
theorem arena_wasted_is_tail_space_witness :
    Reachable (new 128 scenarioHeap) ∧
    getUsedMemory (new 128 scenarioHeap) ≤ getTotalMemory (new 128 scenarioHeap) ∧
    getWastedMemory (new 128 scenarioHeap) = 128 ∧
    Reachable ⟨32, 0, [⟨65536, 16, 1⟩]⟩ ∧
    ∃ b p, allocate ⟨32, 0, [⟨65536, 16, 1⟩]⟩ scenarioHeap 8 8 = some (b, p) ∧
      p = 65536 + 1 + 7 ∧ getTotalMemory b = 16 ∧ getUsedMemory b = 1 + (7 + 8) ∧
      getWastedMemory b + (7 + 8) = 15 := by
  have hr2 : Reachable ⟨32, 0, [⟨65536, 16, 1⟩]⟩ := by
    have h : allocate (new 16 scenarioHeap) scenarioHeap 1 1 =
        some (⟨32, 0, [⟨65536, 16, 1⟩]⟩, 65536) := by decide
    exact Reachable.allocate scenarioHeap 1 1 (Reachable.new 16 scenarioHeap) h
  obtain ⟨b, p, h1, h2, h3, h4, h5⟩ :=
    (arena_wasted_is_tail_space ⟨32, 0, [⟨65536, 16, 1⟩]⟩ hr2).2.2.2 scenarioHeap 8 8
      ⟨65536, 16, 1⟩ (by decide) (by decide) rfl (by decide)
  have hp : padding 1 8 = 7 := by decide
  have ht : getTotalMemory ⟨32, 0, [⟨65536, 16, 1⟩]⟩ = 16 := by decide
  have hu : getUsedMemory ⟨32, 0, [⟨65536, 16, 1⟩]⟩ = 1 := by decide
  have hw : getWastedMemory ⟨32, 0, [⟨65536, 16, 1⟩]⟩ = 15 := by decide
  simp only [hp, ht, hu, hw] at h2 h3 h4 h5
  exact ⟨Reachable.new 128 scenarioHeap,
    (arena_wasted_is_tail_space (new 128 scenarioHeap) (Reachable.new 128 scenarioHeap)).1,
    by decide, hr2, b, p, h1, h2, h3, h4, h5⟩

/-- C9, as stated, fails: `Arena(16)`, `allocate(1, 1)`, `allocate(8, 8)`; the second call
is served in the first slab behind 7 bytes of padding (at offset 8), the slab is then full,
and `getWastedMemory()` is 0: it is not at least the padding, and not positive. -/
theorem arena_wasted_misses_padding :
    runTrace (new 16 scenarioHeap) scenarioHeap []
      [ArenaOp.allocate 1 1, ArenaOp.allocate 8 8] =
      some (⟨32, 0, [⟨65536, 16, 16⟩]⟩, [(0, 65536), (0, 65536 + 1 + 7)]) ∧
    padding 1 8 = 7 ∧
    getWastedMemory ⟨32, 0, [⟨65536, 16, 16⟩]⟩ = 0 ∧
    ¬ (7 ≤ getWastedMemory ⟨32, 0, [⟨65536, 16, 16⟩]⟩) := by
  decide

end ArenaAllocator

namespace MemoryTracker

theorem mem_keys_erase (m : List (Nat × AllocationInfo)) (q p : Nat) :
    p ∈ (erase m q).map Prod.fst ↔ p ∈ m.map Prod.fst ∧ p ≠ q := by
  simp only [erase, List.mem_map, List.mem_filter, bne_iff_ne, ne_eq]
  constructor
  · rintro ⟨e, ⟨he, hne⟩, rfl⟩
    exact ⟨⟨e, he, rfl⟩, hne⟩
  · rintro ⟨⟨e, he, rfl⟩, hne⟩
    exact ⟨e, ⟨he, hne⟩, rfl⟩

theorem find_eq_none_iff (m : List (Nat × AllocationInfo)) (q : Nat) :
    find m q = none ↔ q ∉ m.map Prod.fst := by
  simp only [find, Option.map_eq_none', List.find?_eq_none, beq_iff_eq, List.mem_map, not_exists,
    not_and]

theorem keys_enable (t : MemoryTracker) : keys (enable t) = keys t := rfl

theorem keys_disable (t : MemoryTracker) : keys (disable t) = keys t := rfl

theorem keys_trackAlloc (t : MemoryTracker) (c : AllocCall) :
    keys (trackAlloc t c.size c.file c.line c.env).1 =
      if t.enabled = true ∧ c.env.mallocResult ≠ 0
      then c.env.mallocResult :: (erase t.allocations c.env.mallocResult).map Prod.fst
      else keys t := by
  unfold trackAlloc keys
  cases hen : t.enabled
  · simp
  · by_cases hr : c.env.mallocResult = 0
    · simp [hr]
    · simp only [Bool.not_true, Bool.false_eq_true, if_false, hr, true_and, ne_eq,
        not_false_eq_true, if_true]
      split <;> rfl

theorem keys_trackFree (t : MemoryTracker) (q : Nat) :
    keys (trackFree t q) =
      if q ≠ 0 ∧ t.enabled = true then (erase t.allocations q).map Prod.fst else keys t := by
  unfold trackFree keys
  by_cases hq : q = 0
  · simp [hq]
  cases hen : t.enabled
  · simp
  · simp only [hq, Bool.not_true, Bool.false_eq_true, or_self, if_false, ne_eq,
      not_false_eq_true, and_self, if_true]
    cases hf : find t.allocations q with
    | none =>
      simp only
      have hnot := (find_eq_none_iff _ _).mp hf
      congr 1
      simp only [erase]
      symm
      rw [List.filter_eq_self]
      intro e he
      simp only [bne_iff_ne, ne_eq]
      intro heq
      exact hnot (List.mem_map.mpr ⟨e, he, heq⟩)
    | some info => simp

/-- One call changes the key set as the event says. -/
theorem mem_keys_step (t : MemoryTracker) (op : TrackerOp) (p : Nat) (h0 : 0 ∉ keys t) :
    (p ∈ keys (step t op) ↔
      issues (op, t.enabled) p = true ∨ (p ∈ keys t ∧ frees true (op, t.enabled) p = false)) ∧
    0 ∉ keys (step t op) := by
  cases op with
  | enable => simp [step, keys_enable, issues, frees, h0]
  | disable => simp [step, keys_disable, issues, frees, h0]
  | trackAlloc c =>
    simp only [step, issues, frees]
    by_cases hc : t.enabled = true ∧ c.env.mallocResult ≠ 0
    · rw [keys_trackAlloc, if_pos hc]
      obtain ⟨hen, hr⟩ := hc
      simp only [List.mem_cons, mem_keys_erase]
      refine ⟨?_, ?_⟩
      · by_cases hp : p = c.env.mallocResult
        · subst hp; simp [hen, hr]
        · have hp2 : ¬ c.env.mallocResult = p := fun h => hp h.symm
          simp [hp, hp2, keys]
      · simp only [not_or, not_and, ne_eq]
        exact ⟨fun h => hr h.symm, fun h => absurd h h0⟩
    · rw [keys_trackAlloc, if_neg hc]
      refine ⟨?_, h0⟩
      rw [not_and_or] at hc
      rcases hc with hc | hc
      · simp [hc]
      · have hc2 : c.env.mallocResult = 0 := by simpa using hc
        by_cases hp : p = 0
        · subst hp; simp [h0]
        · have : ¬ (0 = p) := fun h => hp h.symm
          simp [hc2, hp, this]
  | trackFree q =>
    simp only [step, issues, frees]
    by_cases hc : q ≠ 0 ∧ t.enabled = true
    · rw [keys_trackFree, if_pos hc]
      obtain ⟨hq, hen⟩ := hc
      simp only [mem_keys_erase]
      refine ⟨?_, fun h => h0 h.1⟩
      by_cases hp : q = p
      · subst hp; simp [hen]
      · have : ¬ p = q := fun h => hp h.symm
        simp [hp, this, keys]
    · rw [keys_trackFree, if_neg hc]
      refine ⟨?_, h0⟩
      rw [not_and_or] at hc
      rcases hc with hc | hc
      · have hq : q = 0 := by simpa using hc
        subst hq
        by_cases hp : p = 0
        · subst hp; simp [h0]
        · have : ¬ (0 = p) := fun h => hp h.symm
          simp [this]
      · simp [hc]

theorem mem_keys_run (ops : List TrackerOp) :
    ∀ (t : MemoryTracker) (p : Nat), 0 ∉ keys t →
      (p ∈ keys (run t ops) ↔
        liveTracked true (annotate t ops) p = true ∨
          (p ∈ keys t ∧ (annotate t ops).all (fun f => !frees true f p) = true)) := by
  induction ops with
  | nil => intro t p _; simp [run, annotate, liveTracked]
  | cons op ops ih =>
    intro t p h0
    obtain ⟨hstep, h0s⟩ := mem_keys_step t op p h0
    have hrun : run t (op :: ops) = run (step t op) ops := rfl
    rw [hrun, ih (step t op) p h0s, hstep]
    simp only [annotate, liveTracked, List.all_cons, Bool.or_eq_true, Bool.and_eq_true,
      Bool.not_eq_true']
    tauto


/-- C6, as amended: in every state reachable from the initial state by `enable`, `disable`,
`trackAlloc` and `trackFree` calls, an address is a key of the ledger iff it was returned by
a `trackAlloc` made while tracking was enabled and has not since been passed to a
`trackFree` made while tracking was enabled. -/
theorem ledger_keys_live_tracked (ops : List TrackerOp) (p : Nat) :
    p ∈ keys (run init ops) ↔ liveTracked true (annotate init ops) p = true := by
  have h := mem_keys_run ops init p (by simp [keys, init])
  rw [h]
  simp [keys, init]

/-- C6, as stated, fails: after `enable`, a `trackAlloc` that returns 4096, `disable` and
`trackFree(4096)`, the block is back on the heap but 4096 is still a key of the ledger,
although it has been passed to `trackFree`. -/
theorem ledger_keeps_key_freed_while_disabled :
    keys (run init [TrackerOp.enable, TrackerOp.trackAlloc scenarioCall, TrackerOp.disable,
      TrackerOp.trackFree 4096]) = [4096] ∧
    (run init [TrackerOp.enable, TrackerOp.trackAlloc scenarioCall, TrackerOp.disable,
      TrackerOp.trackFree 4096]).heap = [] ∧
    liveTracked false (annotate init [TrackerOp.enable, TrackerOp.trackAlloc scenarioCall,
      TrackerOp.disable, TrackerOp.trackFree 4096]) 4096 = false := by
  decide

theorem heapBlocks_cover (blocks : List (Nat × Nat)) (h : HeapBlocks blocks) :
    ∃ cover : Finset Nat, cover.card = (blocks.map Prod.snd).sum ∧
      (∀ x ∈ cover, 1 ≤ x ∧ x < 2 ^ 64) ∧
      (∀ x ∈ cover, ∃ b ∈ blocks, b.1 ≤ x ∧ x < b.1 + b.2) := by
  induction blocks with
  | nil => exact ⟨∅, by simp⟩
  | cons b bs ih =>
    obtain ⟨hin, hpw⟩ := h
    rw [List.pairwise_cons] at hpw
    obtain ⟨cover, hc1, hc2, hc3⟩ :=
      ih ⟨fun c hc => hin c (List.mem_cons_of_mem _ hc), hpw.2⟩
    have hb := hin b (List.mem_cons_self _ _)
    have hdisj : Disjoint (Finset.Ico b.1 (b.1 + b.2)) cover := by
      rw [Finset.disjoint_left]
      intro x hx hxc
      obtain ⟨c, hcm, hcl, hcr⟩ := hc3 x hxc
      have := (hpw.1 c hcm).2
      rw [Finset.mem_Ico] at hx
      omega
    refine ⟨Finset.Ico b.1 (b.1 + b.2) ∪ cover, ?_, ?_, ?_⟩
    · rw [Finset.card_union_of_disjoint hdisj, Nat.card_Ico, hc1]
      simp
    · intro x hx
      rw [Finset.mem_union] at hx
      rcases hx with hx | hx
      · rw [Finset.mem_Ico] at hx; omega
      · exact hc2 x hx
    · intro x hx
      rw [Finset.mem_union] at hx
      rcases hx with hx | hx
      · rw [Finset.mem_Ico] at hx
        exact ⟨b, List.mem_cons_self _ _, hx.1, hx.2⟩
      · obtain ⟨c, hcm, hc⟩ := hc3 x hx
        exact ⟨c, List.mem_cons_of_mem _ hcm, hc⟩

theorem card_le_of_range (s : Finset Nat) (h : ∀ x ∈ s, 1 ≤ x ∧ x < 2 ^ 64) :
    s.card < 2 ^ 64 := by
  have hsub : s ⊆ Finset.Ico 1 (2 ^ 64) := by
    intro x hx
    rw [Finset.mem_Ico]
    exact h x hx
  have := Finset.card_le_card hsub
  rw [Nat.card_Ico] at this
  omega

theorem heapBlocks_sum_lt (blocks : List (Nat × Nat)) (h : HeapBlocks blocks) :
    (blocks.map Prod.snd).sum < 2 ^ 64 := by
  obtain ⟨cover, h1, h2, _⟩ := heapBlocks_cover blocks h
  rw [← h1]
  exact card_le_of_range cover h2

theorem heapBlocks_nodup (blocks : List (Nat × Nat)) (h : HeapBlocks blocks) :
    (blocks.map Prod.fst).Nodup := by
  rw [List.Nodup, List.pairwise_map]
  exact h.2.imp (fun hbc => hbc.1)

theorem heapBlocks_length_lt (blocks : List (Nat × Nat)) (h : HeapBlocks blocks) :
    blocks.length < 2 ^ 64 := by
  have hn := heapBlocks_nodup blocks h
  have hcard := List.toFinset_card_of_nodup hn
  rw [List.length_map] at hcard
  rw [← hcard]
  apply card_le_of_range
  intro x hx
  rw [List.mem_toFinset, List.mem_map] at hx
  obtain ⟨b, hb, rfl⟩ := hx
  have := h.1 b hb
  omega

theorem heapBlocks_sublist (blocks sub : List (Nat × Nat)) (h : HeapBlocks blocks)
    (hs : sub.Sublist blocks) : HeapBlocks sub :=
  ⟨fun b hb => h.1 b (hs.subset hb), h.2.sublist hs⟩


theorem erase_of_not_mem (m : List (Nat × AllocationInfo)) (q : Nat)
    (h : q ∉ m.map Prod.fst) : erase m q = m := by
  unfold erase
  rw [List.filter_eq_self]
  intro e he
  simp only [bne_iff_ne, ne_eq]
  intro heq
  exact h (List.mem_map.mpr ⟨e, he, heq⟩)

/-- The size `trackFree` reads from the ledger: that of the entry found, else 0. -/
theorem sum_sizes_erase (m : List (Nat × AllocationInfo)) (q : Nat)
    (hnd : (m.map Prod.fst).Nodup) :
    (m.map (fun e => e.2.size)).sum =
      (match find m q with
        | some info => info.size
        | none => 0) + ((erase m q).map (fun e => e.2.size)).sum := by
  induction m with
  | nil => simp [find, erase]
  | cons e m ih =>
    rw [List.map_cons, List.nodup_cons] at hnd
    by_cases heq : e.1 = q
    · have hnot : q ∉ m.map Prod.fst := by rw [← heq]; exact hnd.1
      have h1 : find (e :: m) q = some e.2 := by simp [find, heq]
      have h2 : erase (e :: m) q = m := by
        have := erase_of_not_mem m q hnot
        simp only [erase] at this ⊢
        rw [List.filter_cons]
        simp [heq, this]
      rw [h1, h2]
      simp
    · have h1 : find (e :: m) q = find m q := by simp [find, List.find?_cons, heq]
      have h2 : erase (e :: m) q = e :: erase m q := by
        simp only [erase]
        rw [List.filter_cons]
        simp [heq]
      rw [h1, h2, List.map_cons, List.sum_cons, List.map_cons, List.sum_cons, ih hnd.2]
      omega

theorem ledgerSizes_erase (t : MemoryTracker) (q : Nat) :
    (erase t.allocations q).map (fun e => (e.1, e.2.size)) =
      (ledgerSizes t).filter (fun e => e.1 != q) := by
  simp only [erase, ledgerSizes, List.filter_map]
  rfl

theorem nodup_keys_erase (m : List (Nat × AllocationInfo)) (q : Nat)
    (h : (m.map Prod.fst).Nodup) : ((erase m q).map Prod.fst).Nodup := by
  unfold erase
  exact h.sublist ((List.filter_sublist m).map Prod.fst)

theorem trackFree_allocations (t : MemoryTracker) (q : Nat) (hen : t.enabled = true)
    (h0 : 0 ∉ keys t) :
    (trackFree t q).allocations = erase t.allocations q ∧
    (trackFree t q).enabled = true ∧
    (trackFree t q).allocationCount = t.allocationCount := by
  unfold trackFree
  by_cases hq : q = 0
  · subst hq
    simp only [true_or, if_true]
    exact ⟨(erase_of_not_mem _ _ h0).symm, hen, trivial⟩
  · simp only [hq, hen, Bool.not_true, Bool.false_eq_true, or_self, if_false]
    cases hf : find t.allocations q with
    | none =>
      refine ⟨?_, hen, rfl⟩
      exact (erase_of_not_mem _ _ ((find_eq_none_iff _ _).mp hf)).symm
    | some info => exact ⟨rfl, rfl, rfl⟩

theorem trackFree_currentUsage (t : MemoryTracker) (q : Nat) (hen : t.enabled = true)
    (h0 : 0 ∉ keys t) (hlt : t.currentUsage < u64) :
    (trackFree t q).currentUsage =
      (t.currentUsage + u64 - (match find t.allocations q with
        | some info => info.size
        | none => 0) % u64) % u64 := by
  unfold trackFree
  by_cases hq : q = 0
  · subst hq
    have hf : find t.allocations 0 = none := (find_eq_none_iff _ _).mpr h0
    simp only [true_or, if_true, hf]
    simp only [Nat.zero_mod, Nat.sub_zero, Nat.add_mod_right]
    exact (Nat.mod_eq_of_lt hlt).symm
  · simp only [hq, hen, Bool.not_true, Bool.false_eq_true, or_self, if_false]
    cases hf : find t.allocations q <;> rfl

/-- The accounting invariant of the tracker in a run without address reuse. -/
theorem sum_ledgerSizes (t : MemoryTracker) :
    ((ledgerSizes t).map Prod.snd).sum = (t.allocations.map (fun e => e.2.size)).sum := by
  simp [ledgerSizes, List.map_map, Function.comp_def]

theorem usage_trackFree (t : MemoryTracker) (q : Nat) (hen : t.enabled = true)
    (h : UsageInv t) : UsageInv (trackFree t q) := by
  obtain ⟨hlt, hmod, hnd, h0⟩ := h
  rw [sum_ledgerSizes] at hmod
  obtain ⟨ha, _, _⟩ := trackFree_allocations t q hen h0
  have hc := trackFree_currentUsage t q hen h0 hlt
  have hsum := sum_sizes_erase t.allocations q hnd
  have hpos : 0 < u64 := by decide
  refine ⟨?_, ?_, ?_, ?_⟩
  · rw [hc]; exact Nat.mod_lt _ hpos
  · rw [sum_ledgerSizes, hc, ha]
    generalize (match find t.allocations q with
        | some info => info.size
        | none => 0) = s at hsum ⊢
    rw [hsum] at hmod
    have hs : s % u64 < u64 := Nat.mod_lt _ hpos
    have h1 : Nat.ModEq u64 (t.currentUsage + u64 - s % u64 + s % u64)
        (((erase t.allocations q).map (fun e => e.2.size)).sum + s % u64) := by
      have e1 : t.currentUsage + u64 - s % u64 + s % u64 = t.currentUsage + u64 := by omega
      rw [e1]
      have h2 : Nat.ModEq u64 (t.currentUsage + u64) t.currentUsage := by
        simp [Nat.ModEq]
      refine h2.trans (hmod.trans ?_)
      rw [Nat.add_comm]
      exact Nat.ModEq.add_left _ (Nat.mod_modEq s u64).symm
    exact (Nat.mod_modEq _ _).trans (Nat.ModEq.add_right_cancel' _ h1)
  · unfold keys; rw [ha]; exact nodup_keys_erase _ _ hnd
  · unfold keys; rw [ha, mem_keys_erase]; exact fun h => h0 h.1

theorem trackAlloc_fresh (t : MemoryTracker) (c : AllocCall) (hen : t.enabled = true)
    (hr : c.env.mallocResult ≠ 0) (hfresh : c.env.mallocResult ∉ keys t) :
    (trackAlloc t c.size c.file c.line c.env).1.enabled = true ∧
    ledgerSizes (trackAlloc t c.size c.file c.line c.env).1 =
      (c.env.mallocResult, c.size) :: ledgerSizes t ∧
    keys (trackAlloc t c.size c.file c.line c.env).1 = c.env.mallocResult :: keys t ∧
    (trackAlloc t c.size c.file c.line c.env).1.allocationCount =
      (t.allocationCount + 1) % u64 ∧
    (trackAlloc t c.size c.file c.line c.env).1.currentUsage =
      (t.currentUsage + c.size) % u64 := by
  have he := erase_of_not_mem t.allocations _ hfresh
  unfold trackAlloc ledgerSizes keys
  simp only [hen, Bool.not_true, Bool.false_eq_true, if_false, hr]
  split <;> simp [assign, he, hen]

theorem usage_trackAlloc (t : MemoryTracker) (c : AllocCall) (hen : t.enabled = true)
    (hr : c.env.mallocResult ≠ 0) (hfresh : c.env.mallocResult ∉ keys t)
    (h : UsageInv t) : UsageInv (trackAlloc t c.size c.file c.line c.env).1 := by
  obtain ⟨hlt, hmod, hnd, h0⟩ := h
  obtain ⟨_, hl, hk, _, hc⟩ := trackAlloc_fresh t c hen hr hfresh
  have hpos : 0 < u64 := by decide
  refine ⟨?_, ?_, ?_, ?_⟩
  · rw [hc]; exact Nat.mod_lt _ hpos
  · rw [hc, hl]
    simp only [List.map_cons, List.sum_cons]
    refine (Nat.mod_modEq _ _).trans ?_
    rw [Nat.add_comm]
    exact Nat.ModEq.add_left _ hmod
  · rw [hk, List.nodup_cons]; exact ⟨hfresh, hnd⟩
  · rw [hk, List.mem_cons, not_or]; exact ⟨fun h => hr h.symm, h0⟩


theorem run_cons (t : MemoryTracker) (op : TrackerOp) (ops : List TrackerOp) :
    run t (op :: ops) = run (step t op) ops := rfl

theorem run_append (t : MemoryTracker) (ops1 ops2 : List TrackerOp) :
    run t (ops1 ++ ops2) = run (run t ops1) ops2 := by
  simp [run, List.foldl_append]

theorem run_allocs (cs : List AllocCall) :
    ∀ t : MemoryTracker, t.enabled = true → UsageInv t → t.allocationCount < u64 →
      (∀ c ∈ cs, c.env.mallocResult ≠ 0 ∧ c.env.mallocResult ∉ keys t) →
      (cs.map (fun c => c.env.mallocResult)).Nodup →
      (run t (cs.map TrackerOp.trackAlloc)).enabled = true ∧
      UsageInv (run t (cs.map TrackerOp.trackAlloc)) ∧
      ledgerSizes (run t (cs.map TrackerOp.trackAlloc)) =
        (cs.map (fun c => (c.env.mallocResult, c.size))).reverse ++ ledgerSizes t ∧
      (run t (cs.map TrackerOp.trackAlloc)).allocationCount =
        (t.allocationCount + cs.length) % u64 := by
  induction cs with
  | nil =>
    intro t hen hinv hcnt _ _
    refine ⟨hen, hinv, by simp [run], ?_⟩
    simp only [List.map_nil, run, List.foldl_nil, List.length_nil, Nat.add_zero]
    exact (Nat.mod_eq_of_lt hcnt).symm
  | cons c cs ih =>
    intro t hen hinv hcnt hall hnd
    rw [List.map_cons, List.nodup_cons] at hnd
    obtain ⟨hr, hfresh⟩ := hall c (List.mem_cons_self _ _)
    obtain ⟨hen1, hl1, hk1, hc1, _⟩ := trackAlloc_fresh t c hen hr hfresh
    have hinv1 := usage_trackAlloc t c hen hr hfresh hinv
    have hall1 : ∀ d ∈ cs, d.env.mallocResult ≠ 0 ∧
        d.env.mallocResult ∉ keys (trackAlloc t c.size c.file c.line c.env).1 := by
      intro d hd
      obtain ⟨hd0, hdk⟩ := hall d (List.mem_cons_of_mem _ hd)
      refine ⟨hd0, ?_⟩
      rw [hk1, List.mem_cons, not_or]
      refine ⟨?_, hdk⟩
      intro heq
      exact hnd.1 (List.mem_map.mpr ⟨d, hd, heq⟩)
    have hcnt1 : (trackAlloc t c.size c.file c.line c.env).1.allocationCount < u64 := by
      rw [hc1]; exact Nat.mod_lt _ (by decide)
    obtain ⟨g1, g2, g3, g4⟩ := ih _ hen1 hinv1 hcnt1 hall1 hnd.2
    rw [List.map_cons, run_cons]
    have hstep : step t (TrackerOp.trackAlloc c) = (trackAlloc t c.size c.file c.line c.env).1 :=
      rfl
    rw [hstep]
    have hcount : (run (trackAlloc t c.size c.file c.line c.env).1
        (cs.map TrackerOp.trackAlloc)).allocationCount =
        (t.allocationCount + (c :: cs).length) % u64 := by
      rw [g4, hc1, List.length_cons]
      simp only [u64]
      omega
    refine ⟨g1, g2, ?_, hcount⟩
    rw [g3, hl1]
    simp

theorem run_frees (fs : List Nat) :
    ∀ t : MemoryTracker, t.enabled = true → UsageInv t →
      (run t (fs.map TrackerOp.trackFree)).enabled = true ∧
      UsageInv (run t (fs.map TrackerOp.trackFree)) ∧
      ledgerSizes (run t (fs.map TrackerOp.trackFree)) =
        (ledgerSizes t).filter (fun e => decide (e.1 ∉ fs)) ∧
      (run t (fs.map TrackerOp.trackFree)).allocationCount = t.allocationCount := by
  induction fs with
  | nil => intro t hen hinv; exact ⟨hen, hinv, by simp [run], rfl⟩
  | cons q fs ih =>
    intro t hen hinv
    obtain ⟨ha, hen1, hc1⟩ := trackFree_allocations t q hen hinv.2.2.2
    have hinv1 := usage_trackFree t q hen hinv
    obtain ⟨g1, g2, g3, g4⟩ := ih _ hen1 hinv1
    rw [List.map_cons, run_cons]
    have hstep : step t (TrackerOp.trackFree q) = trackFree t q := rfl
    rw [hstep]
    refine ⟨g1, g2, ?_, by rw [g4, hc1]⟩
    rw [g3]
    have hl : ledgerSizes (trackFree t q) = (ledgerSizes t).filter (fun e => e.1 != q) := by
      unfold ledgerSizes
      rw [ha]
      exact ledgerSizes_erase t q
    rw [hl, List.filter_filter]
    apply List.filter_congr
    intro e _
    simp only [List.mem_cons, not_or, bne_iff_ne, ne_eq, Bool.decide_and, decide_not]
    rw [Bool.and_comm]
    rfl

theorem usage_reset_enable (t : MemoryTracker) : UsageInv (reset (enable t)) := by
  refine ⟨?_, ?_, ?_, ?_⟩ <;> simp [reset, enable, ledgerSizes, keys, Nat.ModEq, u64]


theorem length_filter_split {α : Type} (p : α → Bool) (l : List α) :
    (l.filter p).length + (l.filter (fun x => !p x)).length = l.length := by
  induction l with
  | nil => rfl
  | cons x xs ih =>
    cases hp : p x <;> simp [List.filter_cons, hp] <;> omega

theorem length_freed (allocs : List AllocCall) (frees : List Nat)
    (hnd : (allocs.map (fun c => c.env.mallocResult)).Nodup) (hdistinct : frees.Nodup)
    (hmatch : ∀ p ∈ frees, p ∈ allocs.map (fun c => c.env.mallocResult)) :
    (allocs.filter (fun c => decide (c.env.mallocResult ∈ frees))).length = frees.length := by
  have hsub : ((allocs.filter (fun c => decide (c.env.mallocResult ∈ frees))).map
      (fun c => c.env.mallocResult)).Nodup :=
    hnd.sublist ((List.filter_sublist allocs).map _)
  have hperm : ((allocs.filter (fun c => decide (c.env.mallocResult ∈ frees))).map
      (fun c => c.env.mallocResult)).Perm frees := by
    rw [List.perm_ext_iff_of_nodup hsub hdistinct]
    intro p
    simp only [List.mem_map, List.mem_filter, decide_eq_true_eq]
    constructor
    · rintro ⟨c, ⟨_, hc⟩, rfl⟩; exact hc
    · intro hp
      obtain ⟨c, hc, rfl⟩ := List.mem_map.mp (hmatch p hp)
      exact ⟨c, ⟨hc, hp⟩, rfl⟩
  have := hperm.length_eq
  rwa [List.length_map] at this

end MemoryTracker

namespace MemoryPool

theorem chain_store (memory : Nat → Nat) (addr value : Nat) (chain : List Nat) :
    ∀ head, addr ∉ chain → Chain memory head chain → Chain (store memory addr value) head chain := by
  induction chain with
  | nil => intro head _ h; exact h
  | cons x xs ih =>
    intro head hn h
    rw [List.mem_cons, not_or] at hn
    obtain ⟨h1, h2, h3⟩ := h
    refine ⟨h1, h2, ?_⟩
    have hx : store memory addr value x = memory x := by
      unfold store
      rw [if_neg (fun h => hn.1 h.symm)]
    rw [hx]
    exact ih _ hn.2 h3

theorem chain_zeroFill (memory : Nat → Nat) (start len : Nat) (chain : List Nat) :
    ∀ head, (∀ x ∈ chain, ¬ (start ≤ x ∧ x < start + len)) → Chain memory head chain →
      Chain (zeroFill memory start len) head chain := by
  induction chain with
  | nil => intro head _ h; exact h
  | cons x xs ih =>
    intro head hn h
    obtain ⟨h1, h2, h3⟩ := h
    refine ⟨h1, h2, ?_⟩
    have hx : zeroFill memory start len x = memory x := by
      unfold zeroFill
      rw [if_neg (hn x (List.mem_cons_self _ _))]
    rw [hx]
    exact ih _ (fun y hy => hn y (List.mem_cons_of_mem _ hy)) h3

theorem chain_nil_iff (memory : Nat → Nat) (head : Nat) (chain : List Nat)
    (h : Chain memory head chain) : head = 0 ↔ chain = [] := by
  cases chain with
  | nil => simpa [Chain] using h
  | cons x xs =>
    obtain ⟨h1, h2, _⟩ := h
    simp only [reduceCtorEq, iff_false]
    rw [h1]; exact h2

/-- The loop of `allocatePool` pushes the blocks `0 .. n - 1` of the slab onto the list. -/
theorem chain_link (base blockSize : Nat) (hb : base ≠ 0) (hbs : 0 < blockSize)
    (memory : Nat → Nat) (freeList : Nat) (chain : List Nat)
    (hc : Chain memory freeList chain) (n : Nat)
    (hnew : ∀ i, base + i * blockSize ∉ chain) :
    Chain ((List.range n).foldl (linkBlock base blockSize) (memory, freeList)).1
      ((List.range n).foldl (linkBlock base blockSize) (memory, freeList)).2
      ((slabBlocks base blockSize n).reverse ++ chain) := by
  induction n with
  | zero => simpa [slabBlocks] using hc
  | succ n ih =>
    rw [List.range_succ, List.foldl_concat]
    have hsl : slabBlocks base blockSize (n + 1) =
        slabBlocks base blockSize n ++ [base + n * blockSize] := by
      simp [slabBlocks, List.range_succ]
    rw [hsl, List.reverse_append, List.reverse_singleton, List.singleton_append,
      List.cons_append]
    refine ⟨rfl, by omega, ?_⟩
    have hval : (linkBlock base blockSize
        ((List.range n).foldl (linkBlock base blockSize) (memory, freeList)) n).1
        (base + n * blockSize) =
        ((List.range n).foldl (linkBlock base blockSize) (memory, freeList)).2 := by
      simp [linkBlock, store]
    rw [hval]
    apply chain_store _ _ _ _ _ _ ih
    rw [List.mem_append, not_or]
    refine ⟨?_, hnew n⟩
    rw [List.mem_reverse]
    simp only [slabBlocks, List.mem_map, List.mem_range, not_exists, not_and]
    intro i hi heq
    have : i * blockSize < n * blockSize := Nat.mul_lt_mul_of_pos_right hi hbs
    omega

theorem mem_slabBlocks (base blockSize poolSize x : Nat) :
    x ∈ slabBlocks base blockSize poolSize ↔ ∃ i, i < poolSize ∧ x = base + i * blockSize := by
  simp only [slabBlocks, List.mem_map, List.mem_range]
  constructor
  · rintro ⟨i, hi, rfl⟩; exact ⟨i, hi, rfl⟩
  · rintro ⟨i, hi, rfl⟩; exact ⟨i, hi, rfl⟩

theorem slabBlocks_range (base blockSize poolSize x : Nat)
    (h : x ∈ slabBlocks base blockSize poolSize) :
    base ≤ x ∧ x + blockSize ≤ base + blockSize * poolSize := by
  obtain ⟨i, hi, rfl⟩ := (mem_slabBlocks _ _ _ _).mp h
  have h1 : (i + 1) * blockSize ≤ poolSize * blockSize := Nat.mul_le_mul_right _ hi
  rw [Nat.add_mul, Nat.one_mul, Nat.mul_comm poolSize] at h1
  omega

theorem slabBlocks_apart (base blockSize poolSize : Nat) :
    (slabBlocks base blockSize poolSize).Pairwise (Apart blockSize) := by
  unfold slabBlocks
  rw [List.pairwise_map]
  refine (List.pairwise_lt_range poolSize).imp ?_
  intro i j hij
  left
  have h1 : (i + 1) * blockSize ≤ j * blockSize := Nat.mul_le_mul_right _ hij
  rw [Nat.add_mul, Nat.one_mul] at h1
  omega

theorem apart_symm (blockSize : Nat) {x y : Nat} (h : Apart blockSize x y) :
    Apart blockSize y x := h.symm

/-- Blocks of slabs that the heap keeps apart do not overlap. -/
theorem allBlocks_apart (heap : Nat → Nat) (p : MemoryPool)
    (hheap : SlabsApart heap (p.blockSize * p.poolSize))
    (hpools : p.pools = (List.range p.pools.length).map heap) :
    (allBlocks p).Pairwise (Apart p.blockSize) := by
  unfold allBlocks
  rw [List.pairwise_flatMap]
  refine ⟨fun base _ => slabBlocks_apart _ _ _, ?_⟩
  rw [hpools, List.pairwise_map]
  refine (List.pairwise_lt_range _).imp ?_
  intro i j hij x hx y hy
  have hx2 := slabBlocks_range _ _ _ _ hx
  have hy2 := slabBlocks_range _ _ _ _ hy
  have := hheap.2 i j (by omega)
  unfold Apart
  omega

theorem allBlocks_ne_zero (heap : Nat → Nat) (p : MemoryPool)
    (hheap : SlabsApart heap (p.blockSize * p.poolSize))
    (hpools : p.pools = (List.range p.pools.length).map heap) :
    ∀ x ∈ allBlocks p, x ≠ 0 := by
  intro x hx
  unfold allBlocks at hx
  rw [List.mem_flatMap] at hx
  obtain ⟨base, hb, hxb⟩ := hx
  rw [hpools, List.mem_map] at hb
  obtain ⟨i, _, rfl⟩ := hb
  have := hheap.1 i
  have := (slabBlocks_range _ _ _ _ hxb).1
  omega

theorem apart_nodup (blockSize : Nat) (hbs : 0 < blockSize) (l : List Nat)
    (h : l.Pairwise (Apart blockSize)) : l.Nodup := by
  refine h.imp ?_
  intro x y hxy heq
  unfold Apart at hxy
  omega


theorem sizeofBlock_pos : 0 < sizeofBlock := by decide

theorem inv_apart (heap : Nat → Nat) (p : MemoryPool) (chain live : List Nat)
    (hheap : SlabsApart heap (p.blockSize * p.poolSize))
    (hpools : p.pools = (List.range p.pools.length).map heap)
    (hperm : (chain ++ live).Perm (allBlocks p)) :
    (chain ++ live).Pairwise (Apart p.blockSize) :=
  (hperm.pairwise_iff (fun h => apart_symm _ h)).mpr (allBlocks_apart heap p hheap hpools)

/-- Popping the head of a non-empty free list and clearing the block. -/
theorem pop_inv (heap : Nat → Nat) (p : MemoryPool) (live : List Nat) (x : Nat)
    (rest : List Nat) (hbs : sizeofBlock ≤ p.blockSize) (hn : 0 < p.poolSize)
    (hheap : SlabsApart heap (p.blockSize * p.poolSize))
    (hpools : p.pools = (List.range p.pools.length).map heap)
    (hchain : Chain p.memory p.freeList (x :: rest))
    (hperm : ((x :: rest) ++ live).Perm (allBlocks p)) :
    p.freeList = x ∧
    Chain (zeroFill p.memory p.freeList p.blockSize) (p.memory p.freeList) rest ∧
    PoolInv heap
      { p with freeList := p.memory p.freeList, memory := zeroFill p.memory p.freeList p.blockSize }
      (x :: live) := by
  obtain ⟨h1, _, h3⟩ := hchain
  have hap := inv_apart heap p (x :: rest) live hheap hpools hperm
  rw [List.cons_append, List.pairwise_cons] at hap
  have hbpos : 0 < p.blockSize := Nat.lt_of_lt_of_le sizeofBlock_pos hbs
  have hch : Chain (zeroFill p.memory p.freeList p.blockSize) (p.memory p.freeList) rest := by
    rw [h1]
    apply chain_zeroFill _ _ _ _ _ _ h3
    intro y hy
    have := hap.1 y (List.mem_append_left _ hy)
    unfold Apart at this
    omega
  refine ⟨h1, hch, hbs, hn, hpools, rest, hch, ?_⟩
  exact List.perm_middle.trans hperm

theorem allocatePool_inv (heap : Nat → Nat) (p : MemoryPool) (live : List Nat)
    (hheap : SlabsApart heap (p.blockSize * p.poolSize))
    (hinv : PoolInv heap p live) (hempty : p.freeList = 0) :
    (allocatePool p (heap p.pools.length)).blockSize = p.blockSize ∧
    (allocatePool p (heap p.pools.length)).poolSize = p.poolSize ∧
    (allocatePool p (heap p.pools.length)).pools = p.pools ++ [heap p.pools.length] ∧
    (allocatePool p (heap p.pools.length)).pools =
      (List.range (allocatePool p (heap p.pools.length)).pools.length).map heap ∧
    Chain (allocatePool p (heap p.pools.length)).memory
      (allocatePool p (heap p.pools.length)).freeList
      (slabBlocks (heap p.pools.length) p.blockSize p.poolSize).reverse ∧
    ((slabBlocks (heap p.pools.length) p.blockSize p.poolSize).reverse ++ live).Perm
      (allBlocks (allocatePool p (heap p.pools.length))) := by
  obtain ⟨hbs, hn, hpools, chain, hchain, hperm⟩ := hinv
  have hnil : chain = [] := (chain_nil_iff _ _ _ hchain).mp hempty
  subst hnil
  have hbpos : 0 < p.blockSize := Nat.lt_of_lt_of_le sizeofBlock_pos hbs
  have hpools2 : p.pools ++ [heap p.pools.length] =
      (List.range (p.pools ++ [heap p.pools.length]).length).map heap := by
    rw [List.length_append, List.length_singleton, List.range_succ, List.map_append, ← hpools]
    rfl
  refine ⟨rfl, rfl, rfl, hpools2, ?_, ?_⟩
  · have hc0 : Chain (zeroFill p.memory (heap p.pools.length) (p.blockSize * p.poolSize))
        p.freeList [] := hempty
    have := chain_link (heap p.pools.length) p.blockSize (hheap.1 _) hbpos _ _ [] hc0 p.poolSize
      (by intro i; simp)
    rw [List.append_nil] at this
    exact this
  · have hall : allBlocks (allocatePool p (heap p.pools.length)) =
        allBlocks p ++ slabBlocks (heap p.pools.length) p.blockSize p.poolSize := by
      simp [allBlocks, allocatePool, List.flatMap_append]
    rw [hall]
    rw [List.nil_append] at hperm
    exact (List.perm_append_comm.trans
      ((hperm.append_right _).trans (List.Perm.append_left _ (List.reverse_perm _))))

/-- Each `allocate` keeps the invariant, returns, and the block it returns is a block of the
pool that is neither null nor live. -/
theorem allocate_inv (heap : Nat → Nat) (p : MemoryPool) (live : List Nat)
    (hheap : SlabsApart heap (p.blockSize * p.poolSize)) (hinv : PoolInv heap p live) :
    ∃ q ptr, allocate p heap = some (q, ptr) ∧ PoolInv heap q (ptr :: live) ∧
      q.blockSize = p.blockSize ∧ q.poolSize = p.poolSize ∧
      q.pools = (if p.freeList = 0 then p.pools ++ [heap p.pools.length] else p.pools) ∧
      (p.freeList ≠ 0 → ptr = p.freeList) ∧
      (p.freeList = 0 → ∃ chain, Chain q.memory q.freeList chain ∧
        ptr :: chain = (slabBlocks (heap p.pools.length) p.blockSize p.poolSize).reverse) := by
  by_cases hempty : p.freeList = 0
  · obtain ⟨e1, e2, e3, e4, e5, e6⟩ := allocatePool_inv heap p live hheap hinv hempty
    obtain ⟨hbs, hn, _, _⟩ := hinv
    generalize hp1 : allocatePool p (heap p.pools.length) = p1 at e1 e2 e3 e4 e5 e6
    have hne : (slabBlocks (heap p.pools.length) p.blockSize p.poolSize).reverse ≠ [] := by
      intro h0
      have := congrArg List.length h0
      simp [slabBlocks] at this
      omega
    obtain ⟨x, rest, hxr⟩ := List.exists_cons_of_ne_nil hne
    rw [hxr] at e5 e6
    rw [← e1, ← e2] at hheap
    obtain ⟨g1, g2, g3⟩ := pop_inv heap p1 live x rest (by rw [e1]; exact hbs)
      (by rw [e2]; exact hn) hheap e4 e5 e6
    have hx0 : p1.freeList ≠ 0 := by rw [g1]; exact e5.2.1
    refine ⟨_, x, ?_, g3, e1, e2,
      ?_, fun h => absurd hempty h, fun _ => ⟨rest, g2, hxr.symm⟩⟩
    · unfold allocate
      simp only [hempty, if_true, hp1, hx0, if_false]
      rw [g1]
    · simp only [hempty, if_true]; exact e3
  · obtain ⟨hbs, hn, hpools, chain, hchain, hperm⟩ := hinv
    have hne : chain ≠ [] := fun h => hempty ((chain_nil_iff _ _ _ hchain).mpr h)
    obtain ⟨x, rest, hxr⟩ := List.exists_cons_of_ne_nil hne
    subst hxr
    obtain ⟨g1, _, g3⟩ := pop_inv heap p live x rest hbs hn hheap hpools hchain hperm
    refine ⟨_, x, ?_, g3, rfl, rfl,
      ?_, fun _ => g1.symm, fun h => absurd h hempty⟩
    · unfold allocate
      simp only [hempty, if_false]
      rw [g1]
    · simp only [hempty, if_false]

theorem deallocate_inv (heap : Nat → Nat) (p : MemoryPool) (live : List Nat) (ptr : Nat)
    (hheap : SlabsApart heap (p.blockSize * p.poolSize)) (hinv : PoolInv heap p live)
    (hlive : ptr ∈ live) : PoolInv heap (deallocate p ptr) (live.erase ptr) := by
  obtain ⟨hbs, hn, hpools, chain, hchain, hperm⟩ := hinv
  have hbpos : 0 < p.blockSize := Nat.lt_of_lt_of_le sizeofBlock_pos hbs
  have hnd : (chain ++ live).Nodup :=
    apart_nodup _ hbpos _ (inv_apart heap p chain live hheap hpools hperm)
  have hne : ptr ≠ 0 :=
    allBlocks_ne_zero heap p hheap hpools ptr (hperm.subset (List.mem_append_right _ hlive))
  have hnot : ptr ∉ chain := by
    intro hc
    exact (List.nodup_append.mp hnd).2.2 hc hlive
  unfold deallocate
  rw [if_neg hne]
  refine ⟨hbs, hn, hpools, ptr :: chain, ⟨rfl, hne, ?_⟩, ?_⟩
  · have hval : store p.memory ptr p.freeList ptr = p.freeList := by simp [store]
    simp only [hval]
    exact chain_store _ _ _ _ _ hnot hchain
  · have hall : allBlocks { p with memory := store p.memory ptr p.freeList, freeList := ptr } =
        allBlocks p := rfl
    rw [hall]
    refine List.Perm.trans ?_ hperm
    rw [List.cons_append]
    refine (List.perm_middle.symm).trans ?_
    exact List.Perm.append_left _ (List.perm_cons_erase hlive).symm

theorem new_inv (blockSize initialBlocks : Nat) (heap : Nat → Nat) (memory : Nat → Nat)
    (hpos : 0 < initialBlocks)
    (hheap : SlabsApart heap (max blockSize sizeofBlock * initialBlocks)) :
    PoolInv heap (new blockSize initialBlocks heap memory) [] ∧
    (new blockSize initialBlocks heap memory).blockSize = max blockSize sizeofBlock ∧
    (new blockSize initialBlocks heap memory).poolSize = initialBlocks ∧
    (new blockSize initialBlocks heap memory).pools = [heap 0] ∧
    Chain (new blockSize initialBlocks heap memory).memory
      (new blockSize initialBlocks heap memory).freeList
      (slabBlocks (heap 0) (max blockSize sizeofBlock) initialBlocks).reverse := by
  have h0 : PoolInv heap ⟨max blockSize sizeofBlock, initialBlocks, [], 0, memory⟩ [] :=
    ⟨le_max_right _ _, hpos, rfl, [], rfl, by simp [allBlocks]⟩
  obtain ⟨_, _, _, e4, e5, e6⟩ := allocatePool_inv heap _ [] hheap h0 rfl
  refine ⟨⟨le_max_right _ _, hpos, e4, _, e5, e6⟩, rfl, rfl, rfl, e5⟩


theorem inv_live (heap : Nat → Nat) (p : MemoryPool) (live : List Nat)
    (hheap : SlabsApart heap (p.blockSize * p.poolSize)) (hinv : PoolInv heap p live) :
    live.Pairwise (Apart p.blockSize) ∧ live.Nodup ∧ ∀ x ∈ live, x ≠ 0 ∧ x ∈ allBlocks p := by
  obtain ⟨hbs, _, hpools, chain, _, hperm⟩ := hinv
  have hbpos : 0 < p.blockSize := Nat.lt_of_lt_of_le sizeofBlock_pos hbs
  have hap := (List.pairwise_append.mp (inv_apart heap p chain live hheap hpools hperm)).2.1
  refine ⟨hap, apart_nodup _ hbpos _ hap, ?_⟩
  intro x hx
  have hmem : x ∈ allBlocks p := hperm.subset (List.mem_append_right _ hx)
  exact ⟨allBlocks_ne_zero heap p hheap hpools x hmem, hmem⟩

theorem runPool_append (heap : Nat → Nat) (ops1 ops2 : List PoolOp) :
    ∀ s s1, runPool s heap ops1 = some s1 →
      runPool s heap (ops1 ++ ops2) = runPool s1 heap ops2 := by
  induction ops1 with
  | nil => intro s s1 h; simp only [runPool, Option.some.injEq] at h; rw [← h]; rfl
  | cons op ops ih =>
    intro s s1 h
    simp only [List.cons_append, runPool] at h ⊢
    cases hstep : stepPool s heap op with
    | none => simp [hstep] at h
    | some s2 =>
      simp only [hstep] at h ⊢
      exact ih s2 s1 h

/-- A disciplined run returns from every call and keeps the invariant and the counts. -/
theorem runPool_inv (heap : Nat → Nat) (blockSize poolSize : Nat)
    (hheap : SlabsApart heap (blockSize * poolSize)) (ops : List PoolOp) :
    ∀ s : PoolRun, s.pool.blockSize = blockSize → s.pool.poolSize = poolSize →
      PoolInv heap s.pool s.live → s.live.length + s.deallocations = s.allocations →
      disciplined s heap ops = true →
      ∃ s2, runPool s heap ops = some s2 ∧
        s2.pool.blockSize = blockSize ∧ s2.pool.poolSize = poolSize ∧
        PoolInv heap s2.pool s2.live ∧
        s2.live.length + s2.deallocations = s2.allocations ∧
        s2.allocations = s.allocations + ops.countP isAllocate ∧
        s2.deallocations = s.deallocations + ops.countP (fun op => !isAllocate op) := by
  induction ops with
  | nil =>
    intro s h1 h2 h3 h4 _
    exact ⟨s, rfl, h1, h2, h3, h4, by simp, by simp⟩
  | cons op ops ih =>
    intro s h1 h2 h3 h4 hd
    simp only [disciplined, Bool.and_eq_true] at hd
    obtain ⟨hd1, hd2⟩ := hd
    cases op with
    | allocate =>
      have hheap2 : SlabsApart heap (s.pool.blockSize * s.pool.poolSize) := by
        rw [h1, h2]; exact hheap
      obtain ⟨q, ptr, ha, hq, hq1, hq2, _⟩ := allocate_inv heap s.pool s.live hheap2 h3
      have hstep : stepPool s heap PoolOp.allocate =
          some { pool := q, live := ptr :: s.live, returned := ptr :: s.returned,
                 allocations := s.allocations + 1, deallocations := s.deallocations } := by
        simp [stepPool, ha]
      rw [hstep] at hd2
      obtain ⟨s2, g1, g2, g3, g4, g5, g6, g7⟩ := ih _ (by rw [← h1]; exact hq1)
        (by rw [← h2]; exact hq2) hq (by simp only [List.length_cons]; omega) hd2
      refine ⟨s2, ?_, g2, g3, g4, g5, ?_, ?_⟩
      · simp only [runPool, hstep]; exact g1
      · rw [g6]; simp [isAllocate, List.countP_cons]; omega
      · rw [g7]; simp [isAllocate, List.countP_cons]
    | deallocate ptr =>
      have hheap2 : SlabsApart heap (s.pool.blockSize * s.pool.poolSize) := by
        rw [h1, h2]; exact hheap
      have hlive : ptr ∈ s.live := by simpa using hd1
      have hq := deallocate_inv heap s.pool s.live ptr hheap2 h3 hlive
      have hne : ptr ≠ 0 := ((inv_live heap s.pool s.live hheap2 h3).2.2 ptr hlive).1
      have hstep : stepPool s heap (PoolOp.deallocate ptr) =
          some { pool := deallocate s.pool ptr, live := s.live.erase ptr, returned := s.returned,
                 allocations := s.allocations, deallocations := s.deallocations + 1 } := rfl
      rw [hstep] at hd2
      have hlen : (s.live.erase ptr).length + 1 = s.live.length := by
        rw [List.length_erase_of_mem hlive]
        have := List.length_pos_of_mem hlive
        omega
      obtain ⟨s2, g1, g2, g3, g4, g5, g6, g7⟩ := ih _
        (by simp only [deallocate, hne, if_false]; exact h1)
        (by simp only [deallocate, hne, if_false]; exact h2) hq
        (by simp only; omega) hd2
      refine ⟨s2, ?_, g2, g3, g4, g5, ?_, ?_⟩
      · simp only [runPool, hstep]; exact g1
      · rw [g6]; simp [isAllocate, List.countP_cons]
      · rw [g7]; simp [isAllocate, List.countP_cons]; omega

/-- C1: for every pool constructed with `initialBlocks >= 1`, on a heap whose slabs do not
overlap, and every sequence of `allocate`/`deallocate` calls in which each `deallocate` is
passed a block that is live: every call returns, the number of live blocks is the number of
`allocate` calls minus the number of `deallocate` calls, and the ranges
`[p, p + blockSize)` of the live blocks, `blockSize = max(requested, sizeof(Block))`, are
pairwise disjoint. -/
theorem pool_live_blocks_disjoint (blockSize initialBlocks : Nat) (heap : Nat → Nat)
    (memory : Nat → Nat) (ops : List PoolOp) (hpos : 1 ≤ initialBlocks)
    (hheap : SlabsApart heap (max blockSize sizeofBlock * initialBlocks))
    (hdisc : disciplined (freshRun blockSize initialBlocks heap memory) heap ops = true) :
    ∃ s, runPool (freshRun blockSize initialBlocks heap memory) heap ops = some s ∧
      s.allocations = ops.countP isAllocate ∧
      s.deallocations = ops.countP (fun op => !isAllocate op) ∧
      s.deallocations ≤ s.allocations ∧
      s.live.length = s.allocations - s.deallocations ∧
      s.pool.blockSize = max blockSize sizeofBlock ∧
      s.live.Pairwise (fun x y => x + s.pool.blockSize ≤ y ∨ y + s.pool.blockSize ≤ x) := by
  obtain ⟨hinv, hb, hn, _, _⟩ := new_inv blockSize initialBlocks heap memory hpos hheap
  obtain ⟨s, g1, g2, g3, g4, g5, g6, g7⟩ :=
    runPool_inv heap (max blockSize sizeofBlock) initialBlocks hheap ops
      (freshRun blockSize initialBlocks heap memory) hb hn hinv rfl hdisc
  have hheap2 : SlabsApart heap (s.pool.blockSize * s.pool.poolSize) := by
    rw [g2, g3]; exact hheap
  have hlive := (inv_live heap s.pool s.live hheap2 g4).1
  have e6 : s.allocations = ops.countP isAllocate := by
    rw [g6]; simp [freshRun]
  have e7 : s.deallocations = ops.countP (fun op => !isAllocate op) := by
    rw [g7]; simp [freshRun]
  exact ⟨s, g1, e6, e7, by omega, by omega, g2, hlive⟩


theorem slabsApart_poolHeap (len : Nat) (h : len ≤ 4096) : SlabsApart poolHeap len := by
  refine ⟨fun i => by unfold poolHeap; omega, ?_⟩
  intro i j hij
  unfold poolHeap
  omega

/-- C1 on Scenario A continued: five allocations, two releases, one more allocation. -/
theorem pool_live_blocks_disjoint_witness :
    1 ≤ 4 ∧ SlabsApart poolHeap (max 64 sizeofBlock * 4) ∧
    disciplined (freshRun 64 4 poolHeap zeroMemory) poolHeap
      [PoolOp.allocate, PoolOp.allocate, PoolOp.allocate, PoolOp.allocate, PoolOp.allocate,
        PoolOp.deallocate 4288, PoolOp.deallocate 8384, PoolOp.allocate] = true ∧
    ∃ s, runPool (freshRun 64 4 poolHeap zeroMemory) poolHeap
        [PoolOp.allocate, PoolOp.allocate, PoolOp.allocate, PoolOp.allocate, PoolOp.allocate,
          PoolOp.deallocate 4288, PoolOp.deallocate 8384, PoolOp.allocate] = some s ∧
      s.allocations = 6 ∧ s.deallocations = 2 ∧ s.live.length = 6 - 2 ∧
      s.live.Pairwise (fun x y => x + s.pool.blockSize ≤ y ∨ y + s.pool.blockSize ≤ x) := by
  have hheap : SlabsApart poolHeap (max 64 sizeofBlock * 4) :=
    slabsApart_poolHeap _ (by decide)
  have hdisc : disciplined (freshRun 64 4 poolHeap zeroMemory) poolHeap
      [PoolOp.allocate, PoolOp.allocate, PoolOp.allocate, PoolOp.allocate, PoolOp.allocate,
        PoolOp.deallocate 4288, PoolOp.deallocate 8384, PoolOp.allocate] = true := by decide
  obtain ⟨s, h1, h2, h3, _, h5, _, h7⟩ :=
    pool_live_blocks_disjoint 64 4 poolHeap zeroMemory _ (by decide) hheap hdisc
  refine ⟨by decide, hheap, hdisc, s, h1, ?_, ?_, ?_, h7⟩
  · rw [h2]; decide
  · rw [h3]; decide
  · rw [h5, h2, h3]; decide

/-- After `k <= c` allocations a fresh pool still has its one slab, and the blocks returned
are the live ones. -/
theorem fresh_allocations (blockSize c : Nat) (heap : Nat → Nat) (memory : Nat → Nat)
    (hc : 1 ≤ c) (hheap : SlabsApart heap (max blockSize sizeofBlock * c)) (k : Nat)
    (hk : k ≤ c) :
    ∃ s, runPool (freshRun blockSize c heap memory) heap (List.replicate k PoolOp.allocate) =
        some s ∧
      s.pool.blockSize = max blockSize sizeofBlock ∧ s.pool.poolSize = c ∧
      PoolInv heap s.pool s.live ∧ s.pool.pools = [heap 0] ∧ s.returned = s.live ∧
      s.live.length = k := by
  induction k with
  | zero =>
    obtain ⟨hinv, hb, hn, hp, _⟩ := new_inv blockSize c heap memory hc hheap
    exact ⟨freshRun blockSize c heap memory, rfl, hb, hn, hinv, hp, rfl, rfl⟩
  | succ k ih =>
    obtain ⟨s, g1, g2, g3, g4, g5, g6, g7⟩ := ih (by omega)
    have hheap2 : SlabsApart heap (s.pool.blockSize * s.pool.poolSize) := by
      rw [g2, g3]; exact hheap
    obtain ⟨q, ptr, ha, hq, hq1, hq2, hq3, _, _⟩ := allocate_inv heap s.pool s.live hheap2 g4
    obtain ⟨_, _, _, chain, hchain, hperm⟩ := g4
    have hlen := hperm.length_eq
    have hall : (allBlocks s.pool).length = c := by
      simp [allBlocks, g5, slabBlocks, g3]
    rw [List.length_append, hall, g7] at hlen
    have hne : s.pool.freeList ≠ 0 := by
      intro h0
      have := (chain_nil_iff _ _ _ hchain).mp h0
      rw [this] at hlen
      simp at hlen
      omega
    rw [if_neg hne] at hq3
    refine ⟨{ pool := q, live := ptr :: s.live, returned := ptr :: s.returned,
              allocations := s.allocations + 1, deallocations := s.deallocations }, ?_,
      by rw [hq1, g2], by rw [hq2, g3], hq, by rw [hq3, g5], by rw [g6],
      by simp only [List.length_cons, g7]⟩
    rw [List.replicate_succ', runPool_append heap _ _ _ s g1]
    simp [runPool, stepPool, ha]


theorem allocate_pools (p q : MemoryPool) (heap : Nat → Nat) (ptr : Nat)
    (h : allocate p heap = some (q, ptr)) :
    q.pools = (if p.freeList = 0 then p.pools ++ [heap p.pools.length] else p.pools) := by
  unfold allocate at h
  by_cases h0 : p.freeList = 0
  · simp only [h0, if_true] at h ⊢
    split at h
    · exact absurd h (by simp)
    · simp only [Option.some.injEq, Prod.mk.injEq] at h
      rw [← h.1]
      rfl
  · simp only [h0, if_false, Option.some.injEq, Prod.mk.injEq] at h ⊢
    rw [← h.1]

/-- C10: for every pool with capacity `c >= 1` on a heap whose slabs do not overlap:
`allocate()` appends a slab exactly when the free list is empty at the call, and then the
free list read after the call, together with the returned block, is the `c` blocks of the
new slab; `allocate` and `deallocate` never remove a slab.  On a fresh pool the first `c`
allocations return pairwise distinct non-null blocks of the first slab and leave the free
list empty, and the next allocation appends exactly one slab and returns a non-null block of
it, distinct from the first `c`. -/
theorem pool_grows_when_free_list_empty (blockSize c : Nat) (heap : Nat → Nat)
    (memory : Nat → Nat) (hc : 1 ≤ c)
    (hheap : SlabsApart heap (max blockSize sizeofBlock * c)) :
    (∀ (p q : MemoryPool) (ptr : Nat), allocate p heap = some (q, ptr) →
      q.pools = (if p.freeList = 0 then p.pools ++ [heap p.pools.length] else p.pools) ∧
      p.pools.length ≤ q.pools.length) ∧
    (∀ (p : MemoryPool) (x : Nat), (deallocate p x).pools = p.pools) ∧
    (∀ (ops : List PoolOp) (s : PoolRun),
      disciplined (freshRun blockSize c heap memory) heap ops = true →
      runPool (freshRun blockSize c heap memory) heap ops = some s →
      ∃ q ptr, allocate s.pool heap = some (q, ptr) ∧ ptr ≠ 0 ∧
        (s.pool.freeList = 0 → ∃ chain, Chain q.memory q.freeList chain ∧
          ptr :: chain =
            (slabBlocks (heap s.pool.pools.length) (max blockSize sizeofBlock) c).reverse ∧
          (ptr :: chain).length = c)) ∧
    (∃ s, runPool (freshRun blockSize c heap memory) heap (List.replicate c PoolOp.allocate) =
        some s ∧
      s.pool.pools = [heap 0] ∧ s.returned.length = c ∧ s.returned.Nodup ∧
      (∀ x ∈ s.returned, x ≠ 0 ∧ x ∈ slabBlocks (heap 0) (max blockSize sizeofBlock) c) ∧
      s.pool.freeList = 0 ∧
      ∃ q ptr, allocate s.pool heap = some (q, ptr) ∧ q.pools = [heap 0, heap 1] ∧
        ptr ≠ 0 ∧ ptr ∉ s.returned ∧
        ptr ∈ slabBlocks (heap 1) (max blockSize sizeofBlock) c) := by
  refine ⟨?_, ?_, ?_, ?_⟩
  · intro p q ptr h
    have hp := allocate_pools p q heap ptr h
    refine ⟨hp, ?_⟩
    rw [hp]
    split <;> simp
  · intro p x
    unfold deallocate
    split <;> rfl
  · intro ops s hdisc hrun
    obtain ⟨hinv, hb, hn, _, _⟩ := new_inv blockSize c heap memory hc hheap
    obtain ⟨s2, g1, g2, g3, g4, _⟩ :=
      runPool_inv heap (max blockSize sizeofBlock) c hheap ops
        (freshRun blockSize c heap memory) hb hn hinv rfl hdisc
    rw [hrun] at g1
    cases g1
    have hheap2 : SlabsApart heap (s.pool.blockSize * s.pool.poolSize) := by
      rw [g2, g3]; exact hheap
    obtain ⟨q, ptr, ha, hq, hq1, hq2, _, _, hq5⟩ := allocate_inv heap s.pool s.live hheap2 g4
    have hheap3 : SlabsApart heap (q.blockSize * q.poolSize) := by
      rw [hq1, hq2]; exact hheap2
    have hne := ((inv_live heap q _ hheap3 hq).2.2 ptr (List.mem_cons_self _ _)).1
    refine ⟨q, ptr, ha, hne, ?_⟩
    intro h0
    obtain ⟨chain, hch, heq⟩ := hq5 h0
    rw [g2, g3] at heq
    refine ⟨chain, hch, heq, ?_⟩
    rw [heq]
    simp [slabBlocks]
  · obtain ⟨s, g1, g2, g3, g4, g5, g6, g7⟩ :=
      fresh_allocations blockSize c heap memory hc hheap c (Nat.le_refl c)
    have hheap2 : SlabsApart heap (s.pool.blockSize * s.pool.poolSize) := by
      rw [g2, g3]; exact hheap
    obtain ⟨_, hnd, hmem⟩ := inv_live heap s.pool s.live hheap2 g4
    have hall : allBlocks s.pool = slabBlocks (heap 0) (max blockSize sizeofBlock) c := by
      simp [allBlocks, g5, g2, g3]
    have hempty : s.pool.freeList = 0 := by
      obtain ⟨_, _, _, chain, hchain, hperm⟩ := g4
      have hlen := hperm.length_eq
      rw [List.length_append, hall, g7] at hlen
      simp only [slabBlocks, List.length_map, List.length_range] at hlen
      have hnil : chain = [] := List.length_eq_zero.mp (by omega)
      exact (chain_nil_iff _ _ _ hchain).mpr hnil
    obtain ⟨q, ptr, ha, hq, hq1, hq2, hq3, _, hq5⟩ := allocate_inv heap s.pool s.live hheap2 g4
    have hheap3 : SlabsApart heap (q.blockSize * q.poolSize) := by
      rw [hq1, hq2]; exact hheap2
    obtain ⟨_, hnd2, hmem2⟩ := inv_live heap q _ hheap3 hq
    rw [if_pos hempty, g5] at hq3
    obtain ⟨chain, _, heq⟩ := hq5 hempty
    have hin : ptr ∈ slabBlocks (heap 1) (max blockSize sizeofBlock) c := by
      have : ptr ∈ (slabBlocks (heap s.pool.pools.length) s.pool.blockSize
          s.pool.poolSize).reverse := by
        rw [← heq]; exact List.mem_cons_self _ _
      rw [List.mem_reverse, g5, g2, g3] at this
      exact this
    refine ⟨s, g1, g5, by rw [g6, g7], by rw [g6]; exact hnd, ?_, hempty, q, ptr, ha, hq3,
      (hmem2 ptr (List.mem_cons_self _ _)).1, ?_, hin⟩
    · intro x hx
      rw [g6] at hx
      have := hmem x hx
      rw [hall] at this
      exact this
    · rw [g6]
      exact (List.nodup_cons.mp hnd2).1

/-- C10 on Scenario A: four blocks of the first slab, then block 8384 of a second slab. -/
theorem pool_grows_when_free_list_empty_witness :
    1 ≤ 4 ∧ SlabsApart poolHeap (max 64 sizeofBlock * 4) ∧
    (∃ s, runPool (freshRun 64 4 poolHeap zeroMemory) poolHeap
        (List.replicate 4 PoolOp.allocate) = some s ∧
      s.returned = [4096, 4160, 4224, 4288] ∧ s.pool.pools = [4096] ∧ s.pool.freeList = 0 ∧
      ∃ q ptr, allocate s.pool poolHeap = some (q, ptr) ∧ q.pools = [4096, 8192] ∧
        ptr = 8384) := by
  have hheap : SlabsApart poolHeap (max 64 sizeofBlock * 4) :=
    slabsApart_poolHeap _ (by decide)
  obtain ⟨s, h1, h2, _, _, _, h6, q, ptr, h7, h8, _⟩ :=
    (pool_grows_when_free_list_empty 64 4 poolHeap zeroMemory (by decide) hheap).2.2.2
  have hrun : (runPool (freshRun 64 4 poolHeap zeroMemory) poolHeap
      (List.replicate 4 PoolOp.allocate)).map (fun s => s.returned) =
      some [4096, 4160, 4224, 4288] := by decide
  have hnext : ((runPool (freshRun 64 4 poolHeap zeroMemory) poolHeap
      (List.replicate 4 PoolOp.allocate)).bind (fun s => allocate s.pool poolHeap)).map
      Prod.snd = some 8384 := by decide
  rw [h1] at hrun hnext
  simp only [Option.map_some', Option.some.injEq, Option.some_bind] at hrun hnext
  rw [h7] at hnext
  simp only [Option.map_some', Option.some.injEq] at hnext
  exact ⟨by decide, hheap, s, h1, hrun, h2, h6, q, ptr, h7, h8, hnext⟩

end MemoryPool

namespace MemoryTracker

/-- C12: with tracking enabled, `trackFree(p)` for a non-null `p` that has no ledger entry
changes no accounting: the ledger, `getCurrentUsage()`, `getTotalFreed()`,
`getTotalAllocated()`, `getPeakUsage()` and `getAllocationCount()` are unchanged; the only
effect is that of `free(p)` on the heap, and the call returns. -/
theorem trackFree_untracked_is_silent (t : MemoryTracker) (p : Nat) (hen : t.enabled = true)
    (hp : p ≠ 0) (hmiss : find t.allocations p = none) (h64 : Counters64 t) :
    trackFree t p = { t with heap := free t.heap p } ∧
    (trackFree t p).allocations = t.allocations ∧
    getCurrentUsage (trackFree t p) = getCurrentUsage t ∧
    getTotalFreed (trackFree t p) = getTotalFreed t ∧
    getTotalAllocated (trackFree t p) = getTotalAllocated t ∧
    getPeakUsage (trackFree t p) = getPeakUsage t ∧
    getAllocationCount (trackFree t p) = getAllocationCount t ∧
    (trackFree t p).heap = free t.heap p := by
  obtain ⟨_, h2, _, h4, _, _⟩ := h64
  have hmain : trackFree t p = { t with heap := free t.heap p } := by
    unfold trackFree
    simp only [hp, hen, Bool.not_true, Bool.false_eq_true, or_self, if_false, hmiss,
      Nat.zero_mod, Nat.sub_zero, Nat.add_zero, Nat.add_mod_right, Nat.mod_eq_of_lt h2,
      Nat.mod_eq_of_lt h4]
  rw [hmain]
  exact ⟨rfl, rfl, rfl, rfl, rfl, rfl, rfl, rfl⟩

/-- C12 on Scenario C: `trackAlloc(256)` returned 4096, then `trackFree(8192)`. -/
theorem trackFree_untracked_is_silent_witness :
    scenarioC.enabled = true ∧ (8192 : Nat) ≠ 0 ∧ find scenarioC.allocations 8192 = none ∧
    Counters64 scenarioC ∧
    getCurrentUsage (trackFree scenarioC 8192) = 256 ∧
    getAllocationCount (trackFree scenarioC 8192) = 1 ∧
    (trackFree scenarioC 8192).allocations = scenarioC.allocations := by
  have h64 : Counters64 scenarioC := by
    unfold Counters64; decide
  have h := trackFree_untracked_is_silent scenarioC 8192 (by decide) (by decide) (by decide) h64
  refine ⟨by decide, by decide, by decide, h64, ?_, ?_, h.2.1⟩
  · rw [h.2.2.1]; decide
  · rw [h.2.2.2.2.2.2.1]; decide

/-- C14: the tracker starts disabled; `enable()` and `disable()` change the `enabled` flag
and nothing else; while the tracker is disabled `trackAlloc` is `malloc` and `trackFree` is
`free`: the ledger and every counter are unchanged by the call. -/
theorem tracker_disabled_is_plain_heap :
    init.enabled = false ∧
    (∀ t : MemoryTracker, enable t = { t with enabled := true } ∧
      disable t = { t with enabled := false }) ∧
    (∀ (t : MemoryTracker) (size : Nat) (file : String) (line : Int) (env : AllocEnv),
      t.enabled = false →
      trackAlloc t size file line env =
        ({ t with heap := malloc t.heap env.mallocResult }, env.mallocResult)) ∧
    (∀ (t : MemoryTracker) (p : Nat), t.enabled = false →
      trackFree t p = { t with heap := free t.heap p }) := by
  refine ⟨rfl, fun t => ⟨rfl, rfl⟩, ?_, ?_⟩
  · intro t size file line env hen
    unfold trackAlloc
    simp [hen]
  · intro t p hen
    unfold trackFree
    simp [hen]

/-- C14 on the initial state: a disabled `trackAlloc` of 10 bytes and the matching
`trackFree` leave the ledger empty and the counters at zero. -/
theorem tracker_disabled_is_plain_heap_witness :
    init.enabled = false ∧
    trackAlloc init 10 "main_unified.cpp" 12 ⟨4096, 0, ""⟩ =
      ({ init with heap := malloc init.heap 4096 }, 4096) ∧
    trackFree init 4096 = { init with heap := free init.heap 4096 } :=
  ⟨tracker_disabled_is_plain_heap.1,
    tracker_disabled_is_plain_heap.2.2.1 init 10 "main_unified.cpp" 12 ⟨4096, 0, ""⟩ rfl,
    tracker_disabled_is_plain_heap.2.2.2 init 4096 rfl⟩


theorem gapStep_shift (a : AllocationInfo) (l : List AllocationInfo) (g k : Nat)
    (hk : 1 ≤ k) : gapStep (a :: l) g (k + 1) = gapStep l g k := by
  obtain ⟨j, rfl⟩ : ∃ j, k = j + 1 := ⟨k - 1, by omega⟩
  simp [gapStep]

theorem foldl_gapStep_shift (a : AllocationInfo) (l : List AllocationInfo) (n : Nat) :
    ∀ (g k : Nat), 1 ≤ k →
      (List.range' (k + 1) n).foldl (gapStep (a :: l)) g =
        (List.range' k n).foldl (gapStep l) g := by
  induction n with
  | zero => intro g k _; rfl
  | succ n ih =>
    intro g k hk
    rw [List.range'_succ, List.range'_succ, List.foldl_cons, List.foldl_cons,
      gapStep_shift a l g k hk]
    exact ih _ (k + 1) (by omega)

/-- In ascending order the gaps lie between the first and the last address. -/
theorem gapSum_bound (bound : Nat) (s : List AllocationInfo) :
    ∀ a, (a :: s).Sorted addressLe → (∀ r ∈ a :: s, r.ptr < bound) →
      a.ptr + gapSum (a :: s) < bound := by
  induction s with
  | nil => intro a _ h; simpa [gapSum] using h a (List.mem_cons_self _ _)
  | cons b rest ih =>
    intro a hs hb
    rw [List.sorted_cons] at hs
    have hab : a.ptr ≤ b.ptr := hs.1 b (List.mem_cons_self _ _)
    have := ih b hs.2 (fun r hr => hb r (List.mem_cons_of_mem _ hr))
    simp only [gapSum] at this ⊢
    omega

/-- Without wrap-around the loop adds up the gaps. -/
theorem foldl_gapStep_eq (s : List AllocationInfo) :
    ∀ g, (∀ r ∈ s, r.ptr + r.size < u64) → g + gapSum s < u64 →
      (List.range' 1 (s.length - 1)).foldl (gapStep s) g = g + gapSum s := by
  induction s with
  | nil => intro g _ _; simp [gapSum]
  | cons a rest ih =>
    intro g hfit hlt
    cases rest with
    | nil => simp [gapSum]
    | cons b rest =>
      have hlen : (a :: b :: rest).length - 1 = rest.length + 1 := by simp
      have hlen2 : (b :: rest).length - 1 = rest.length := by simp
      rw [hlen, List.range'_succ, List.foldl_cons, foldl_gapStep_shift a (b :: rest) _ _ 1
        (Nat.le_refl 1)]
      have ha := hfit a (List.mem_cons_self _ _)
      have hstep : gapStep (a :: b :: rest) g 1 = g + (b.ptr - (a.ptr + a.size)) := by
        simp only [gapStep, Nat.sub_self, List.getElem?_cons_zero, List.getElem?_cons_succ]
        rw [Nat.mod_eq_of_lt ha]
        simp only [gapSum] at hlt
        by_cases hgt : b.ptr > a.ptr + a.size
        · rw [if_pos hgt, Nat.mod_eq_of_lt (by omega)]
        · rw [if_neg hgt]; omega
      rw [hstep]
      have := ih (g + (b.ptr - (a.ptr + a.size)))
        (fun r hr => hfit r (List.mem_cons_of_mem _ hr))
        (by simp only [gapSum] at hlt ⊢; omega)
      rw [hlen2] at this
      rw [this]
      simp only [gapSum]
      omega

theorem gapLoop_eq_gapSum (s : List AllocationInfo) (hs : s.Sorted addressLe)
    (hfit : ∀ r ∈ s, r.ptr + r.size < u64) : gapLoop s = gapSum s := by
  unfold gapLoop
  have hlt : 0 + gapSum s < u64 := by
    cases s with
    | nil => simp [gapSum, u64]
    | cons a rest =>
      have := gapSum_bound u64 rest a hs (fun r hr => by have := hfit r hr; omega)
      omega
  rw [foldl_gapStep_eq s 0 hfit hlt, Nat.zero_add]

/-- Records at distinct addresses have one ascending order. -/
theorem sorted_unique (l1 l2 : List AllocationInfo) (hp : l1.Perm l2)
    (hnd : (l1.map AllocationInfo.ptr).Nodup) (h1 : l1.Sorted addressLe)
    (h2 : l2.Sorted addressLe) : l1 = l2 := by
  haveI : IsAntisymm AllocationInfo (fun a b => a.ptr < b.ptr) :=
    ⟨fun a b hab hba => absurd hab (Nat.lt_asymm hba)⟩
  have hnd2 : (l2.map AllocationInfo.ptr).Nodup := (hp.map _).nodup_iff.mp hnd
  have strict : ∀ l : List AllocationInfo, (l.map AllocationInfo.ptr).Nodup →
      l.Sorted addressLe → l.Sorted (fun a b => a.ptr < b.ptr) := by
    intro l hn hs
    rw [List.Nodup, List.pairwise_map] at hn
    exact (List.Pairwise.and hs hn).imp (fun h => Nat.lt_of_le_of_ne h.1 h.2)
  exact List.eq_of_perm_of_sorted hp (strict l1 hnd h1) (strict l2 hnd2 h2)

theorem sorted_sortByAddress (records : List AllocationInfo) :
    (sortByAddress records).Sorted addressLe := by
  haveI : IsTotal AllocationInfo addressLe := ⟨fun a b => Nat.le_total a.ptr b.ptr⟩
  haveI : IsTrans AllocationInfo addressLe := ⟨fun _ _ _ hab hbc => Nat.le_trans hab hbc⟩
  exact List.sorted_insertionSort addressLe records

theorem perm_sortByAddress (records : List AllocationInfo) :
    (sortByAddress records).Perm records :=
  List.perm_insertionSort addressLe records

theorem fragmentation_eq (t : MemoryTracker) :
    (analyzeFragmentation t).fragmentation =
      gapLoop (sortByAddress (t.allocations.map Prod.snd)) ∧
    analyzeFragmentation t =
      { t with fragmentation := gapLoop (sortByAddress (t.allocations.map Prod.snd)) } := by
  unfold analyzeFragmentation
  cases h : t.allocations with
  | nil => simp [sortByAddress, gapLoop]
  | cons e es => simp


/-- The figure `analyzeFragmentation` leaves when it returns, for a ledger whose records
are heap blocks at distinct addresses inside the address space: the sum, over the records in
ascending address order, of the positive gaps between the end `ptr + size` of one record and
the start of the next; 0 for an empty or single-record ledger, the same for every iteration
order of the ledger, the other fields as they were. -/
theorem analyzeFragmentation_gapSum (t : MemoryTracker)
    (hfit : RecordsFit (t.allocations.map Prod.snd)) :
    (∀ sorted : List AllocationInfo, sorted.Perm (t.allocations.map Prod.snd) →
      sorted.Sorted addressLe → (analyzeFragmentation t).fragmentation = gapSum sorted) ∧
    (t.allocations.length ≤ 1 → (analyzeFragmentation t).fragmentation = 0) ∧
    (∀ t2 : MemoryTracker, t2.allocations.Perm t.allocations →
      (analyzeFragmentation t2).fragmentation = (analyzeFragmentation t).fragmentation) ∧
    analyzeFragmentation t =
      { t with fragmentation := (analyzeFragmentation t).fragmentation } := by
  obtain ⟨hnd, hsize⟩ := hfit
  have hsorted := sorted_sortByAddress (t.allocations.map Prod.snd)
  have hperm := perm_sortByAddress (t.allocations.map Prod.snd)
  have hnd2 : ((sortByAddress (t.allocations.map Prod.snd)).map AllocationInfo.ptr).Nodup :=
    (hperm.map _).nodup_iff.mpr hnd
  refine ⟨?_, ?_, ?_, ?_⟩
  · intro sorted hp hs
    rw [(fragmentation_eq t).1]
    have heq := sorted_unique _ _ (hperm.trans hp.symm) hnd2 hsorted hs
    rw [heq]
    exact gapLoop_eq_gapSum sorted hs (fun r hr => hsize r (hp.subset hr))
  · intro hlen
    rw [(fragmentation_eq t).1]
    have hl : (sortByAddress (t.allocations.map Prod.snd)).length ≤ 1 := by
      rw [hperm.length_eq, List.length_map]; exact hlen
    unfold gapLoop
    have : (sortByAddress (t.allocations.map Prod.snd)).length - 1 = 0 := by omega
    rw [this]
    rfl
  · intro t2 hp2
    rw [(fragmentation_eq t).1, (fragmentation_eq t2).1]
    have hp3 : (t2.allocations.map Prod.snd).Perm (t.allocations.map Prod.snd) := hp2.map _
    have hperm2 := perm_sortByAddress (t2.allocations.map Prod.snd)
    have heq := sorted_unique _ _ ((hperm.trans hp3.symm).trans hperm2.symm) hnd2 hsorted
      (sorted_sortByAddress _)
    rw [heq]
  · rw [(fragmentation_eq t).1]
    exact (fragmentation_eq t).2

end MemoryTracker

namespace MemoryPool

theorem chain_unique (memory : Nat → Nat) (c1 : List Nat) :
    ∀ (head : Nat) (c2 : List Nat), Chain memory head c1 → Chain memory head c2 → c1 = c2 := by
  induction c1 with
  | nil =>
    intro head c2 h1 h2
    cases c2 with
    | nil => rfl
    | cons y ys =>
      obtain ⟨e, hy, _⟩ := h2
      exact absurd (e.symm.trans h1) hy
  | cons x xs ih =>
    intro head c2 h1 h2
    obtain ⟨e1, hx, h1r⟩ := h1
    cases c2 with
    | nil => exact absurd (e1.symm.trans h2) hx
    | cons y ys =>
      obtain ⟨e2, _, h2r⟩ := h2
      have hxy : x = y := e1.symm.trans e2
      subst hxy
      rw [ih _ ys h1r h2r]

/-- Releasing a block and allocating at once: the state reached. -/
theorem allocate_deallocate (p : MemoryPool) (heap : Nat → Nat) (ptr : Nat) (hptr : ptr ≠ 0) :
    allocate (deallocate p ptr) heap =
      some ({ p with memory := zeroFill (store p.memory ptr p.freeList) ptr p.blockSize }, ptr) := by
  simp [allocate, deallocate, hptr, store]

/-- C11: for every pool state and every non-null block `ptr`, `deallocate(ptr)` directly
followed by `allocate()` returns `ptr`, appends no slab and restores the free-list head; when
`ptr` is a live block of a disciplined run, the free list read from that head is the list it
was before the `deallocate`.  In Scenario A, after the five issued blocks are released, the
next `allocate()` returns the block released last, 8384. -/
theorem pool_reuse_is_lifo :
    (∀ (heap : Nat → Nat) (p : MemoryPool) (ptr : Nat), ptr ≠ 0 →
      ∃ q, allocate (deallocate p ptr) heap = some (q, ptr) ∧ q.pools = p.pools ∧
        q.freeList = p.freeList ∧
        ∀ live chain, SlabsApart heap (p.blockSize * p.poolSize) → PoolInv heap p live →
          ptr ∈ live → Chain p.memory p.freeList chain → Chain q.memory q.freeList chain) ∧
    (∃ s q, runPool (freshRun 64 4 poolHeap zeroMemory) poolHeap scenarioA = some s ∧
      s.returned = [8384, 4096, 4160, 4224, 4288] ∧ s.live = [] ∧
      allocate s.pool poolHeap = some (q, 8384) ∧ q.pools = s.pool.pools) := by
  constructor
  · intro heap p ptr hptr
    refine ⟨_, allocate_deallocate p heap ptr hptr, rfl, rfl, ?_⟩
    intro live chain hheap hinv hlive hchain
    obtain ⟨hbs, _, hpools, chain2, hchain2, hperm⟩ := hinv
    have hc : chain2 = chain := chain_unique _ _ _ _ hchain2 hchain
    subst hc
    have hap := inv_apart heap p chain2 live hheap hpools hperm
    have hcross := (List.pairwise_append.mp hap).2.2
    have hbpos : 0 < p.blockSize := Nat.lt_of_lt_of_le sizeofBlock_pos hbs
    show Chain (zeroFill (store p.memory ptr p.freeList) ptr p.blockSize) p.freeList chain2
    apply chain_zeroFill
    · intro x hx
      have := hcross x hx ptr hlive
      unfold Apart at this
      omega
    · apply chain_store _ _ _ _ _ _ hchain
      intro hx
      have := hcross ptr hx ptr hlive
      unfold Apart at this
      omega
  · have hrun : (runPool (freshRun 64 4 poolHeap zeroMemory) poolHeap scenarioA).map
        (fun s => (s.returned, s.live)) = some ([8384, 4096, 4160, 4224, 4288], []) := by
      decide
    have hnext : ((runPool (freshRun 64 4 poolHeap zeroMemory) poolHeap scenarioA).bind
        (fun s => (allocate s.pool poolHeap).map
          (fun r => (r.2, decide (r.1.pools = s.pool.pools))))) = some (8384, true) := by
      decide
    cases hs : runPool (freshRun 64 4 poolHeap zeroMemory) poolHeap scenarioA with
    | none => rw [hs] at hrun; simp at hrun
    | some s =>
      rw [hs] at hrun hnext
      simp only [Option.map_some', Option.some.injEq, Prod.mk.injEq, Option.some_bind] at hrun hnext
      cases ha : allocate s.pool poolHeap with
      | none => rw [ha] at hnext; simp at hnext
      | some r =>
        obtain ⟨q, ptr⟩ := r
        rw [ha] at hnext
        simp only [Option.map_some', Option.some.injEq, Prod.mk.injEq, decide_eq_true_eq] at hnext
        obtain ⟨h1, h2⟩ := hnext
        subst h1
        exact ⟨s, q, rfl, hrun.1, hrun.2, ha, h2⟩

/-- C11 on the pool of Scenario A after its first allocation: release 4288, allocate again. -/
theorem pool_reuse_is_lifo_witness :
    (4288 : Nat) ≠ 0 ∧
    ∃ p0, allocate (new 64 4 poolHeap zeroMemory) poolHeap = some (p0, 4288) ∧
      ∃ q, allocate (deallocate p0 4288) poolHeap = some (q, 4288) ∧
        q.pools = p0.pools ∧ q.freeList = p0.freeList := by
  have hfirst : (allocate (new 64 4 poolHeap zeroMemory) poolHeap).map Prod.snd = some 4288 := by
    decide
  cases ha : allocate (new 64 4 poolHeap zeroMemory) poolHeap with
  | none => rw [ha] at hfirst; simp at hfirst
  | some r =>
    obtain ⟨p0, ptr⟩ := r
    rw [ha] at hfirst
    simp only [Option.map_some', Option.some.injEq] at hfirst
    subst hfirst
    obtain ⟨q, h1, h2, h3, _⟩ := pool_reuse_is_lifo.1 poolHeap p0 4288 (by decide)
    exact ⟨by decide, p0, rfl, q, h1, h2, h3⟩

end MemoryPool

namespace MemoryPoolAllocator

/-- C17: for an adapter bound to pool `P`, `allocate(1)` is `P.allocate()` (same block, same
pool state, no heap call) and `deallocate(p, 1)` is `P.deallocate(p)`; for every `n > 1`,
`allocate(n)` returns what `::operator new(n * sizeof(T))` returns and `deallocate(p, n)`
calls `::operator delete(p)`, and both leave `P`, its free list and slabs included, as it
was. -/
theorem adapter_delegates_single_unit (pool : MemoryPool) (heap : Nat → Nat)
    (sizeofT newResult ptr : Nat) :
    allocate pool heap sizeofT 1 newResult =
      (MemoryPool.allocate pool heap).map (fun r => (r.1, r.2, [])) ∧
    deallocate pool ptr 1 = (MemoryPool.deallocate pool ptr, []) ∧
    ∀ n, 1 < n →
      allocate pool heap sizeofT n newResult =
        some (pool, newResult, [HeapCall.operatorNew (n * sizeofT)]) ∧
      deallocate pool ptr n = (pool, [HeapCall.operatorDelete ptr]) := by
  refine ⟨?_, ?_, ?_⟩
  · unfold allocate
    cases h : MemoryPool.allocate pool heap with
    | none => simp
    | some r => simp
  · simp [deallocate]
  · intro n hn
    have hne : n ≠ 1 := by omega
    simp [allocate, deallocate, hne]

/-- C17 for a request of three `int`s on the pool of Scenario A. -/
theorem adapter_delegates_single_unit_witness :
    1 < 3 ∧
    allocate (MemoryPool.new 64 4 MemoryPool.poolHeap MemoryPool.zeroMemory)
      MemoryPool.poolHeap 4 3 20480 =
      some (MemoryPool.new 64 4 MemoryPool.poolHeap MemoryPool.zeroMemory, 20480,
        [HeapCall.operatorNew (3 * 4)]) ∧
    deallocate (MemoryPool.new 64 4 MemoryPool.poolHeap MemoryPool.zeroMemory) 20480 3 =
      (MemoryPool.new 64 4 MemoryPool.poolHeap MemoryPool.zeroMemory,
        [HeapCall.operatorDelete 20480]) :=
  ⟨by decide,
    ((adapter_delegates_single_unit
      (MemoryPool.new 64 4 MemoryPool.poolHeap MemoryPool.zeroMemory) MemoryPool.poolHeap 4
      20480 20480).2.2 3 (by decide)).1,
    ((adapter_delegates_single_unit
      (MemoryPool.new 64 4 MemoryPool.poolHeap MemoryPool.zeroMemory) MemoryPool.poolHeap 4
      20480 20480).2.2 3 (by decide)).2⟩

end MemoryPoolAllocator

namespace ArenaAllocator

/-- One `allocate` without a wrap: where the returned range lies, and what stays of the
slabs. -/
theorem allocate_step (a : ArenaAllocator) (heap : Nat → Nat) (size alignment : Nat)
    (h : WellFormed a) (hs : 0 < size) (hal : 0 < alignment)
    (hnw : noWrap a size alignment = true) :
    ∃ b p i blk off, allocate a heap size alignment = some (b, p) ∧ WellFormed b ∧
      b.blocks[i]? = some blk ∧ p = blk.memory + off ∧ usedAt a i ≤ off ∧
      off + size = blk.used ∧ blk.used ≤ blk.size ∧
      (∃ ext, layout b = layout a ++ ext) ∧ ∀ j, usedAt a j ≤ usedAt b j := by
  obtain ⟨block, hcur⟩ := wellFormed_current a h
  rw [noWrap_iff a size alignment block hcur] at hnw
  by_cases hroom : block.used + padding block.used alignment + size > block.size
  · have hr : allocate a heap size alignment = _ :=
      allocate_grow_exact 1 a heap size alignment hs hal h block hcur hnw hroom
    have hwf := wellFormed_allocateFuel heap size alignment 3 a _ _ h hr
    refine ⟨_, _, a.blocks.length,
      ⟨storageAt (heap a.blocks.length) (max a.blockSize (size + padding block.used alignment)),
        max a.blockSize (size + padding block.used alignment), size⟩, 0,
      hr, hwf, by simp, rfl, ?_, by simp, ?_,
      ⟨[(storageAt (heap a.blocks.length)
            (max a.blockSize (size + padding block.used alignment)),
          max a.blockSize (size + padding block.used alignment))],
        by simp [layout]⟩, ?_⟩
    · unfold usedAt
      rw [List.getElem?_eq_none (Nat.le_refl _)]
    · have := le_max_right a.blockSize (size + padding block.used alignment)
      simp only; omega
    · intro j
      unfold usedAt
      by_cases hj : j < a.blocks.length
      · simp only [List.getElem?_append_left hj]
        exact Nat.le_refl _
      · rw [List.getElem?_eq_none (by omega)]
        exact Nat.zero_le _
  · have hr : allocate a heap size alignment = _ :=
      allocate_fit_exact 2 a heap size alignment hs hal h block hcur (by omega)
    have hwf := wellFormed_allocateFuel heap size alignment 3 a _ _ h hr
    refine ⟨_, _, a.currentBlock,
      ⟨block.memory, block.size, block.used + padding block.used alignment + size⟩,
      block.used + padding block.used alignment, hr, hwf, List.getElem?_set_self h.1,
      by simp [Nat.add_assoc], ?_, rfl, by simp only; omega, ⟨[], ?_⟩, ?_⟩
    · unfold usedAt; rw [hcur]; exact Nat.le_add_right _ _
    · simp only [layout, List.append_nil, List.map_set]
      symm
      apply List.ext_getElem?
      intro n
      rw [List.getElem?_set]
      by_cases hn : a.currentBlock = n
      · subst hn
        simp [h.1, hcur]
        obtain ⟨_, hget⟩ := List.getElem?_eq_some.mp hcur
        rw [hget]
        exact ⟨rfl, rfl⟩
      · simp [hn]
    · intro j
      unfold usedAt
      simp only [List.getElem?_set]
      by_cases hj : a.currentBlock = j
      · subst hj
        simp only [if_true, h.1, hcur]
        omega
      · simp only [hj, if_false]
        exact Nat.le_refl _

theorem allocateSeq_ranges (heap : Nat → Nat) (calls : List (Nat × Nat)) :
    ∀ a : ArenaAllocator, WellFormed a → (∀ c ∈ calls, 0 < c.1 ∧ 0 < c.2) →
      noWrapSeq a heap calls = true →
      ∃ b ranges, allocateSeq a heap calls = some (b, ranges) ∧
        ranges.map Prod.snd = calls.map Prod.fst ∧ WellFormed b ∧
        (∃ ext, layout b = layout a ++ ext) ∧
        (SlabsDisjoint b →
          ranges.Pairwise RangesApart ∧ ∀ r ∈ ranges, Fresh a (layout b) r) := by
  induction calls with
  | nil =>
    intro a hwf _ _
    exact ⟨a, [], rfl, rfl, hwf, ⟨[], by simp⟩, fun _ => ⟨List.Pairwise.nil, by simp⟩⟩
  | cons c calls ih =>
    intro a hwf hcalls hnw
    obtain ⟨size, alignment⟩ := c
    obtain ⟨hs, hal⟩ := hcalls (size, alignment) (List.mem_cons_self _ _)
    simp only at hs hal
    simp only [noWrapSeq, Bool.and_eq_true] at hnw
    obtain ⟨hnw1, hnw2⟩ := hnw
    obtain ⟨a1, p, i, blk, off, hrun, hwf1, hblk, hp, hoff, hend, hcap, ⟨ext1, hext1⟩, hmono⟩ :=
      allocate_step a heap size alignment hwf hs hal hnw1
    rw [hrun] at hnw2
    obtain ⟨b, ranges, hseq, hsizes, hwfb, ⟨ext2, hext2⟩, hrest⟩ :=
      ih a1 hwf1 (fun c hc => hcalls c (List.mem_cons_of_mem _ hc)) hnw2
    have hi : i < a1.blocks.length := (List.getElem?_eq_some.mp hblk).1
    have hLi : (layout b)[i]? = some (blk.memory, blk.size) := by
      rw [hext2, List.getElem?_append_left (by simpa [layout] using hi)]
      simp [layout, hblk]
    have hfresh0 : Fresh a (layout b) (p, size) :=
      ⟨i, blk.memory, blk.size, hLi, by simp only; omega, by simp only; omega⟩
    refine ⟨b, (p, size) :: ranges, ?_, by simp [hsizes], hwfb,
      ⟨ext1 ++ ext2, by rw [hext2, hext1, List.append_assoc]⟩, ?_⟩
    · simp [allocateSeq, hrun, hseq]
    · intro hdisj
      obtain ⟨hpw, hfr⟩ := hrest hdisj
      refine ⟨List.pairwise_cons.mpr ⟨?_, hpw⟩, ?_⟩
      · intro r hr
        obtain ⟨j, base, sz, hLj, hlo, hhi⟩ := hfr r hr
        unfold RangesApart
        by_cases hji : j = i
        · subst hji
          rw [hLi] at hLj
          simp only [Option.some.injEq, Prod.mk.injEq] at hLj
          have hu : usedAt a1 j = blk.used := by unfold usedAt; rw [hblk]
          rw [hu] at hlo
          simp only
          omega
        · have hjl := (List.getElem?_eq_some.mp hLj).1
          have hil := (List.getElem?_eq_some.mp hLi).1
          have e1 := (List.getElem?_eq_some.mp hLj).2
          have e2 := (List.getElem?_eq_some.mp hLi).2
          have hall := List.pairwise_iff_getElem.mp hdisj
          rcases Nat.lt_or_gt_of_ne hji with hlt | hgt
          · have := hall j i hjl hil hlt
            rw [e1, e2] at this
            unfold RangesApart at this
            simp only at this ⊢
            omega
          · have := hall i j hil hjl hgt
            rw [e1, e2] at this
            unfold RangesApart at this
            simp only at this ⊢
            omega
      · intro r hr
        rcases List.mem_cons.mp hr with hr | hr
        · rw [hr]; exact hfresh0
        · obtain ⟨j, base, sz, hLj, hlo, hhi⟩ := hfr r hr
          have := hmono j
          exact ⟨j, base, sz, hLj, by omega, hhi⟩

/-- C20, as amended: from every reachable arena state (a fresh arena, an arena just rewound
by `reset()`, or any later one), every sequence of `allocate(size, alignment)` calls with
`size > 0` and `alignment > 0`, no `reset()` in between and no call in which the `size_t` sum
`used + padding + size` of the current slab wraps returns, and when the storage the heap
handed out for the slabs does not overlap, the returned ranges `[p, p + size)` are pairwise
disjoint. -/
theorem arena_ranges_disjoint (a : ArenaAllocator) (heap : Nat → Nat)
    (calls : List (Nat × Nat)) (hr : Reachable a) (hcalls : ∀ c ∈ calls, 0 < c.1 ∧ 0 < c.2)
    (hnw : noWrapSeq a heap calls = true) :
    ∃ b ranges, allocateSeq a heap calls = some (b, ranges) ∧
      ranges.map Prod.snd = calls.map Prod.fst ∧
      (SlabsDisjoint b → ranges.Pairwise RangesApart) := by
  obtain ⟨b, ranges, h1, h2, _, _, h5⟩ :=
    allocateSeq_ranges heap calls a hr.wellFormed hcalls hnw
  exact ⟨b, ranges, h1, h2, fun hd => (h5 hd).1⟩

/-- The amended C20 on Scenario B followed by a third request: 100 and 100 bytes at
alignment 8, then 20 bytes at alignment 4, after a `reset()`. -/
theorem arena_ranges_disjoint_witness :
    Reachable (reset (new 128 scenarioHeap)) ∧
    (∀ c ∈ [(100, 8), (100, 8), (20, 4)], 0 < c.1 ∧ 0 < c.2) ∧
    noWrapSeq (reset (new 128 scenarioHeap)) scenarioHeap [(100, 8), (100, 8), (20, 4)] = true ∧
    allocateSeq (reset (new 128 scenarioHeap)) scenarioHeap [(100, 8), (100, 8), (20, 4)] =
      some (⟨512, 1, [⟨65536, 128, 100⟩, ⟨131072, 256, 120⟩]⟩,
        [(65536, 100), (131072, 100), (131172, 20)]) ∧
    SlabsDisjoint ⟨512, 1, [⟨65536, 128, 100⟩, ⟨131072, 256, 120⟩]⟩ ∧
    [(65536, 100), (131072, 100), (131172, 20)].Pairwise RangesApart := by
  have hr : Reachable (reset (new 128 scenarioHeap)) := Reachable.reset (Reachable.new _ _)
  have hcalls : ∀ c ∈ [(100, 8), (100, 8), (20, 4)], 0 < c.1 ∧ 0 < c.2 := by decide
  have hnw : noWrapSeq (reset (new 128 scenarioHeap)) scenarioHeap
      [(100, 8), (100, 8), (20, 4)] = true := by decide
  have hrun : allocateSeq (reset (new 128 scenarioHeap)) scenarioHeap
      [(100, 8), (100, 8), (20, 4)] =
      some (⟨512, 1, [⟨65536, 128, 100⟩, ⟨131072, 256, 120⟩]⟩,
        [(65536, 100), (131072, 100), (131172, 20)]) := by decide
  have hd : SlabsDisjoint ⟨512, 1, [⟨65536, 128, 100⟩, ⟨131072, 256, 120⟩]⟩ := by
    unfold SlabsDisjoint layout RangesApart
    decide
  obtain ⟨b, ranges, h1, _, h3⟩ :=
    arena_ranges_disjoint (reset (new 128 scenarioHeap)) scenarioHeap
      [(100, 8), (100, 8), (20, 4)] hr hcalls hnw
  rw [hrun] at h1
  simp only [Option.some.injEq, Prod.mk.injEq] at h1
  obtain ⟨hb, hrg⟩ := h1
  subst hb
  subst hrg
  exact ⟨hr, hcalls, hnw, hrun, hd, h3 hd⟩

/-- C20, as stated, fails: `Arena(128)`, then `allocate(100, 1)`, `allocate(1, 2^64 - 1)`,
`allocate(100, 1)` with no `reset()` in between.  The second call wraps the cursor of the
only slab back to 0, and the third call returns the range of the first again: the ranges
are `[65536, 65636)`, `[65535, 65536)`, `[65536, 65636)`, and the first and the third
overlap, though the arena owns one slab only. -/
theorem arena_ranges_overlap_after_wrap :
    Reachable (new 128 scenarioHeap) ∧
    (∀ c ∈ [(100, 1), (1, 18446744073709551615), (100, 1)], 0 < c.1 ∧ 0 < c.2) ∧
    allocateSeq (new 128 scenarioHeap) scenarioHeap
        [(100, 1), (1, 18446744073709551615), (100, 1)] =
      some (⟨256, 0, [⟨65536, 128, 100⟩]⟩, [(65536, 100), (65535, 1), (65536, 100)]) ∧
    SlabsDisjoint ⟨256, 0, [⟨65536, 128, 100⟩]⟩ ∧
    ¬ RangesApart (65536, 100) (65536, 100) ∧
    ¬ [(65536, 100), (65535, 1), (65536, 100)].Pairwise RangesApart := by
  refine ⟨Reachable.new _ _, by decide, by decide, ?_, ?_, ?_⟩
  · unfold SlabsDisjoint layout
    simp
  · unfold RangesApart
    decide
  · intro h
    have h1 := (List.pairwise_cons.mp h).1 (65536, 100) (by simp)
    unfold RangesApart at h1
    simp at h1

end ArenaAllocator

namespace MemoryTracker

theorem stepThread_guarded (s s2 : TwoThreads) (who raced : Bool) (h : BothGuarded s)
    (hstep : stepThread s who = some (s2, raced)) : raced = false ∧ BothGuarded s2 := by
  obtain ⟨owner, first, second⟩ := s
  obtain ⟨h1, h2⟩ := h
  simp only at h1 h2
  cases who
  · cases first with
    | nil => simp [stepThread] at hstep
    | cons x rest =>
      unfold BothGuarded
      cases x <;> rcases owner with _ | _ | _ <;>
        simp_all [stepThread, ledgerGuarded] <;>
        (obtain ⟨e1, e2⟩ := hstep; subst e1; simp_all)
  · cases second with
    | nil => simp [stepThread] at hstep
    | cons x rest =>
      unfold BothGuarded
      cases x <;> rcases owner with _ | _ | _ <;>
        simp_all [stepThread, ledgerGuarded] <;>
        (obtain ⟨e1, e2⟩ := hstep; subst e1; simp_all)

/-- Threads that guard every ledger access never touch the ledger while the other thread
owns the mutex, whatever the schedule. -/
theorem guarded_never_races (schedule : List Bool) :
    ∀ s : TwoThreads, BothGuarded s → runSchedule s schedule ≠ some true := by
  induction schedule with
  | nil => intro s _; simp [runSchedule]
  | cons who rest ih =>
    intro s hs
    unfold runSchedule
    cases hstep : stepThread s who with
    | none => simp
    | some r =>
      obtain ⟨s2, raced⟩ := r
      obtain ⟨hr, hs2⟩ := stepThread_guarded s s2 who raced hs hstep
      subst hr
      have := ih s2 hs2
      cases hrun : runSchedule s2 rest with
      | none => simp [hrun]
      | some later =>
        rw [hrun] at this
        simpa [hrun] using this

/-- C19, the code at the failing input: `trackAlloc`, `trackFree`, `reset` and
`analyzeFragmentation` hold the mutex at every ledger access, `generateReport` and
`generateLeakReport` do not: each reads the ledger without the lock.  In the given schedule
`trackAlloc` owns the mutex, about to write the ledger, when `generateReport` reads
`allocations.size()`; the same start blocks `analyzeFragmentation` at its lock, and no
schedule of `analyzeFragmentation` against `trackAlloc` touches the ledger under the other
thread's lock. -/
theorem report_reads_ledger_without_lock :
    ledgerGuarded false trackAllocActions = true ∧
    ledgerGuarded false trackFreeActions = true ∧
    ledgerGuarded false resetActions = true ∧
    ledgerGuarded false analyzeFragmentationActions = true ∧
    ledgerGuarded false generateReportActions = false ∧
    ledgerGuarded false generateLeakReportActions = false ∧
    runSchedule ⟨none, generateReportActions, trackAllocActions⟩ reportRaceSchedule =
      some true ∧
    runSchedule ⟨none, generateLeakReportActions, trackAllocActions⟩
      [true, true, true, false, false] = some true ∧
    runSchedule ⟨none, analyzeFragmentationActions, trackAllocActions⟩
      [true, true, true, false] = none ∧
    (∀ schedule : List Bool,
      runSchedule ⟨none, analyzeFragmentationActions, trackAllocActions⟩ schedule ≠
        some true) := by
  refine ⟨by decide, by decide, by decide, by decide, by decide, by decide, by decide,
    by decide, by decide, ?_⟩
  intro schedule
  exact guarded_never_races schedule _ ⟨by decide, by decide⟩

end MemoryTracker

namespace MemoryPool

theorem length_slabBlocks (base blockSize poolSize : Nat) :
    (slabBlocks base blockSize poolSize).length = poolSize := by
  simp [slabBlocks]

theorem length_allBlocks (p : MemoryPool) :
    (allBlocks p).length = p.pools.length * p.poolSize := by
  unfold allBlocks
  induction p.pools with
  | nil => simp
  | cons b bs ih =>
    simp only [List.flatMap_cons, List.length_append, ih, length_slabBlocks, List.length_cons]
    rw [Nat.succ_mul]; omega

/-- A pool built with no blocks per slab: the refill links nothing and `allocate` reads
through the null head. -/
theorem allocate_new_zero (blockSize : Nat) (heap : Nat → Nat) (memory : Nat → Nat) :
    (new blockSize 0 heap memory).freeList = 0 ∧
    (allocatePool (new blockSize 0 heap memory)
      (heap (new blockSize 0 heap memory).pools.length)).freeList = 0 ∧
    allocate (new blockSize 0 heap memory) heap = none := by
  refine ⟨by simp [new, allocatePool], by simp [new, allocatePool], ?_⟩
  simp [allocate, new, allocatePool]

/-- The free list and the live blocks of a pool that satisfies the invariant. -/
theorem inv_partition (heap : Nat → Nat) (p : MemoryPool) (live : List Nat)
    (hheap : SlabsApart heap (p.blockSize * p.poolSize)) (hinv : PoolInv heap p live) :
    ∃ chain, Chain p.memory p.freeList chain ∧ chain.Nodup ∧ (∀ x ∈ chain, x ≠ 0) ∧
      (∀ x ∈ chain, x ∉ live) ∧ (∀ x, x ∈ allBlocks p ↔ (x ∈ chain ∨ x ∈ live)) ∧
      chain.Pairwise (Apart p.blockSize) ∧
      chain.length + live.length = p.pools.length * p.poolSize := by
  obtain ⟨hbs, hn, hpools, chain, hchain, hperm⟩ := hinv
  have hap := inv_apart heap p chain live hheap hpools hperm
  have hpos : 0 < p.blockSize := Nat.lt_of_lt_of_le sizeofBlock_pos hbs
  have hnd : (chain ++ live).Nodup := apart_nodup p.blockSize hpos _ hap
  have hne := allBlocks_ne_zero heap p hheap hpools
  refine ⟨chain, hchain, (List.nodup_append.mp hnd).1, ?_, ?_, ?_, ?_, ?_⟩
  · intro x hx
    exact hne x (hperm.subset (List.mem_append_left _ hx))
  · intro x hx hl
    exact (List.nodup_append.mp hnd).2.2 hx hl
  · intro x
    rw [← hperm.mem_iff, List.mem_append]
  · exact (List.pairwise_append.mp hap).1
  · rw [← length_allBlocks, ← hperm.length_eq, List.length_append]

/-- C21: in every state a pool reaches from its construction through `allocate` and
`deallocate` calls in which each `deallocate` is passed a block that is live (on a heap
whose slabs are non-null and do not overlap), the free list read from the head through the
`next` links ends in null after finitely many blocks, has no repeated block, no null block
and no live block, holds exactly the blocks of the slabs that are not live, and its length
plus the number of live blocks is the number of slabs times the capacity `initialBlocks`.
With `initialBlocks >= 1` every such run reaches a state. -/
theorem pool_free_list_invariant (blockSize initialBlocks : Nat) (heap : Nat → Nat)
    (memory : Nat → Nat) (ops : List PoolOp)
    (hheap : SlabsApart heap (max blockSize sizeofBlock * initialBlocks))
    (hdisc : disciplined (freshRun blockSize initialBlocks heap memory) heap ops = true) :
    (1 ≤ initialBlocks →
      ∃ s, runPool (freshRun blockSize initialBlocks heap memory) heap ops = some s) ∧
    ∀ s, runPool (freshRun blockSize initialBlocks heap memory) heap ops = some s →
      s.pool.poolSize = initialBlocks ∧
      ∃ chain, Chain s.pool.memory s.pool.freeList chain ∧ chain.Nodup ∧
        (∀ x ∈ chain, x ≠ 0) ∧ (∀ x ∈ chain, x ∉ s.live) ∧
        (∀ x, x ∈ allBlocks s.pool ↔ (x ∈ chain ∨ x ∈ s.live)) ∧
        chain.Pairwise (Apart s.pool.blockSize) ∧
        chain.length + s.live.length = s.pool.pools.length * initialBlocks := by
  rcases Nat.eq_zero_or_pos initialBlocks with h0 | hpos
  · subst h0
    refine ⟨fun h => absurd h (by decide), ?_⟩
    intro s hs
    cases ops with
    | nil =>
      simp only [runPool, Option.some.injEq] at hs
      subst hs
      refine ⟨by simp [freshRun, new, allocatePool], [], ?_, List.nodup_nil, ?_, ?_, ?_,
        List.Pairwise.nil, ?_⟩
      · simp [Chain, freshRun, new, allocatePool]
      · intro x hx; cases hx
      · intro x hx; cases hx
      · intro x
        simp [freshRun, new, allocatePool, allBlocks, slabBlocks]
      · simp [freshRun]
    | cons op rest =>
      cases op with
      | allocate =>
        have hnone := (allocate_new_zero blockSize heap memory).2.2
        simp [runPool, stepPool, freshRun, hnone] at hs
      | deallocate ptr =>
        simp [disciplined, freshRun] at hdisc
  · obtain ⟨hinv, hb, hn, _, _⟩ := new_inv blockSize initialBlocks heap memory hpos hheap
    obtain ⟨s, g1, g2, g3, g4, _, _, _⟩ :=
      runPool_inv heap (max blockSize sizeofBlock) initialBlocks hheap ops
        (freshRun blockSize initialBlocks heap memory) hb hn hinv rfl hdisc
    refine ⟨fun _ => ⟨s, g1⟩, ?_⟩
    intro s2 hs2
    rw [g1] at hs2
    simp only [Option.some.injEq] at hs2
    subst hs2
    have hheap2 : SlabsApart heap (s.pool.blockSize * s.pool.poolSize) := by
      rw [g2, g3]; exact hheap
    obtain ⟨chain, c1, c2, c3, c4, c5, c6, c7⟩ := inv_partition heap s.pool s.live hheap2 g4
    rw [g3] at c7
    exact ⟨g3, chain, c1, c2, c3, c4, c5, c6, c7⟩

/-- C21 on Scenario A after its first release: the free list is the one released block. -/
theorem pool_free_list_invariant_witness :
    SlabsApart poolHeap (max 64 sizeofBlock * 4) ∧
    disciplined (freshRun 64 4 poolHeap zeroMemory) poolHeap
      [PoolOp.allocate, PoolOp.allocate, PoolOp.allocate, PoolOp.allocate, PoolOp.allocate,
        PoolOp.deallocate 4288] = true ∧
    ∃ s, runPool (freshRun 64 4 poolHeap zeroMemory) poolHeap
        [PoolOp.allocate, PoolOp.allocate, PoolOp.allocate, PoolOp.allocate, PoolOp.allocate,
          PoolOp.deallocate 4288] = some s ∧
      ∃ chain, Chain s.pool.memory s.pool.freeList chain ∧ chain.Nodup ∧
        (∀ x ∈ chain, x ∉ s.live) ∧
        chain.length + s.live.length = s.pool.pools.length * 4 := by
  have hheap : SlabsApart poolHeap (max 64 sizeofBlock * 4) :=
    slabsApart_poolHeap _ (by decide)
  have hdisc : disciplined (freshRun 64 4 poolHeap zeroMemory) poolHeap
      [PoolOp.allocate, PoolOp.allocate, PoolOp.allocate, PoolOp.allocate, PoolOp.allocate,
        PoolOp.deallocate 4288] = true := by decide
  have h := pool_free_list_invariant 64 4 poolHeap zeroMemory _ hheap hdisc
  obtain ⟨s, hs⟩ := h.1 (by decide)
  obtain ⟨_, chain, c1, c2, _, c4, _, _, c7⟩ := h.2 s hs
  exact ⟨hheap, hdisc, s, hs, chain, c1, c2, c4, c7⟩

end MemoryPool

namespace MemoryPool

/-- The refill of a pool with at least one block per slab leaves the last block of the new
slab at the head of the free list. -/
theorem allocatePool_freeList (p : MemoryPool) (base : Nat) (hn : 0 < p.poolSize) :
    (allocatePool p base).freeList = base + (p.poolSize - 1) * p.blockSize ∧
    (allocatePool p base).poolSize = p.poolSize ∧
    (allocatePool p base).blockSize = p.blockSize := by
  obtain ⟨k, hk⟩ : ∃ k, p.poolSize = k + 1 := ⟨p.poolSize - 1, by omega⟩
  refine ⟨?_, rfl, rfl⟩
  simp only [allocatePool, hk, List.range_succ, List.foldl_append, List.foldl_cons,
    List.foldl_nil, linkBlock]
  simp

/-- In every pool state with at least one block per slab, on a heap that hands out non-null
slabs, the head that `allocate` pops is not null and the call returns it. -/
theorem allocate_some (p : MemoryPool) (heap : Nat → Nat) (hn : 0 < p.poolSize)
    (hheap : ∀ i, heap i ≠ 0) :
    (if p.freeList = 0 then allocatePool p (heap p.pools.length) else p).freeList ≠ 0 ∧
    ∃ q, allocate p heap =
        some (q, (if p.freeList = 0 then allocatePool p (heap p.pools.length) else p).freeList) ∧
      q.poolSize = p.poolSize := by
  have hhead : (if p.freeList = 0 then allocatePool p (heap p.pools.length) else p).freeList
      ≠ 0 := by
    by_cases h0 : p.freeList = 0
    · rw [if_pos h0, (allocatePool_freeList p _ hn).1]
      have := hheap p.pools.length
      omega
    · rw [if_neg h0]; exact h0
  refine ⟨hhead, ?_⟩
  unfold allocate
  simp only [hhead, if_false]
  refine ⟨_, rfl, ?_⟩
  by_cases h0 : p.freeList = 0
  · simp [h0, allocatePool]
  · simp [h0]

theorem stepPool_poolSize (s : PoolRun) (heap : Nat → Nat) (op : PoolOp)
    (hn : 0 < s.pool.poolSize) (hheap : ∀ i, heap i ≠ 0) :
    ∃ s2, stepPool s heap op = some s2 ∧ s2.pool.poolSize = s.pool.poolSize := by
  cases op with
  | allocate =>
    obtain ⟨_, q, hq, hsize⟩ := allocate_some s.pool heap hn hheap
    simp only [stepPool, hq]
    exact ⟨_, rfl, hsize⟩
  | deallocate ptr =>
    refine ⟨_, rfl, ?_⟩
    simp only [deallocate]
    split <;> rfl

/-- Every sequence of calls on a pool with at least one block per slab returns. -/
theorem runPool_some (heap : Nat → Nat) (hheap : ∀ i, heap i ≠ 0) (ops : List PoolOp) :
    ∀ s : PoolRun, 0 < s.pool.poolSize →
      ∃ s2, runPool s heap ops = some s2 ∧ s2.pool.poolSize = s.pool.poolSize := by
  induction ops with
  | nil => intro s _; exact ⟨s, rfl, rfl⟩
  | cons op rest ih =>
    intro s hn
    obtain ⟨s1, h1, hsize⟩ := stepPool_poolSize s heap op hn hheap
    obtain ⟨s2, h2, hsize2⟩ := ih s1 (by omega)
    exact ⟨s2, by simp only [runPool, h1]; exact h2, by omega⟩

/-- C23: a pool constructed with `initialBlocks >= 1`, on a heap that hands out non-null
slabs, reaches a state after every sequence of `allocate` and `deallocate` calls, and in that
state `allocate` pops a head that is not null (after the refill when the list was empty) and
returns that non-null block.  The condition is needed: a pool constructed with
`initialBlocks = 0` has an empty free list, the refill of `allocatePool` leaves it empty, and
`allocate` reads `next` through the null head. -/
theorem pool_allocate_pops_nonnull_head :
    (∀ (blockSize initialBlocks : Nat) (heap : Nat → Nat) (memory : Nat → Nat)
      (ops : List PoolOp), 1 ≤ initialBlocks → (∀ i, heap i ≠ 0) →
      ∃ s, runPool (freshRun blockSize initialBlocks heap memory) heap ops = some s ∧
        (if s.pool.freeList = 0 then allocatePool s.pool (heap s.pool.pools.length)
          else s.pool).freeList ≠ 0 ∧
        ∃ q ptr, allocate s.pool heap = some (q, ptr) ∧ ptr ≠ 0 ∧
          ptr = (if s.pool.freeList = 0 then allocatePool s.pool (heap s.pool.pools.length)
            else s.pool).freeList) ∧
    (∀ (blockSize : Nat) (heap : Nat → Nat) (memory : Nat → Nat),
      (new blockSize 0 heap memory).freeList = 0 ∧
      (allocatePool (new blockSize 0 heap memory)
        (heap (new blockSize 0 heap memory).pools.length)).freeList = 0 ∧
      allocate (new blockSize 0 heap memory) heap = none) := by
  refine ⟨?_, fun blockSize heap memory => allocate_new_zero blockSize heap memory⟩
  intro blockSize initialBlocks heap memory ops hpos hheap
  have hfresh : 0 < (freshRun blockSize initialBlocks heap memory).pool.poolSize := by
    simp only [freshRun, new, allocatePool]; omega
  obtain ⟨s, hs, hsize⟩ := runPool_some heap hheap ops _ hfresh
  obtain ⟨hhead, q, hq, _⟩ := allocate_some s.pool heap (by omega) hheap
  exact ⟨s, hs, hhead, q, _, hq, hhead, rfl⟩

/-- C23 on Scenario A: after the five allocations the list is empty, the sixth call refills
and returns the block at 12480; with no blocks per slab the first call has no head to pop. -/
theorem pool_allocate_pops_nonnull_head_witness :
    (∃ s, runPool (freshRun 64 4 poolHeap zeroMemory) poolHeap
        [PoolOp.allocate, PoolOp.allocate, PoolOp.allocate, PoolOp.allocate, PoolOp.allocate,
          PoolOp.allocate, PoolOp.allocate, PoolOp.allocate] = some s ∧
      ∃ q ptr, allocate s.pool poolHeap = some (q, ptr) ∧ ptr ≠ 0) ∧
    allocate (new 64 0 poolHeap zeroMemory) poolHeap = none := by
  obtain ⟨s, hs, _, q, ptr, hq, hne, _⟩ :=
    pool_allocate_pops_nonnull_head.1 64 4 poolHeap zeroMemory
      [PoolOp.allocate, PoolOp.allocate, PoolOp.allocate, PoolOp.allocate, PoolOp.allocate,
        PoolOp.allocate, PoolOp.allocate, PoolOp.allocate] (by decide)
      (fun i => by unfold poolHeap; omega)
  exact ⟨⟨s, hs, q, ptr, hq, hne⟩, (pool_allocate_pops_nonnull_head.2 64 poolHeap zeroMemory).2.2⟩

/-- The two calls after a double release: both return the block released twice. -/
theorem allocate_after_double_free (p : MemoryPool) (heap : Nat → Nat) (ptr : Nat)
    (hptr : ptr ≠ 0) :
    allocate (deallocate (deallocate p ptr) ptr) heap =
      some ({ p with freeList := ptr,
                     memory := zeroFill (store (store p.memory ptr p.freeList) ptr ptr) ptr
                       p.blockSize }, ptr) ∧
    allocate { p with freeList := ptr,
                      memory := zeroFill (store (store p.memory ptr p.freeList) ptr ptr) ptr
                        p.blockSize } heap =
      some ({ p with freeList := zeroFill (store (store p.memory ptr p.freeList) ptr ptr) ptr
                       p.blockSize ptr,
                     memory := zeroFill (zeroFill (store (store p.memory ptr p.freeList) ptr ptr)
                       ptr p.blockSize) ptr p.blockSize }, ptr) := by
  constructor
  · simp [allocate, deallocate, hptr, store]
  · simp [allocate, hptr]

/-- C24: `deallocate` does not detect a second release.  In every pool state, for every
non-null block `ptr` (every live block is one), `deallocate(ptr)` twice in a row makes the
next two `allocate()` calls both return `ptr`, neither call taking a new slab; in a run the
block is then live twice, so the live blocks are no longer distinct and, with a non-empty
block size, two of them share their address range.  Also `deallocate(nullptr)` leaves the
pool state as it is. -/
theorem pool_double_free_returns_block_twice :
    (∀ (p : MemoryPool) (heap : Nat → Nat) (ptr : Nat), ptr ≠ 0 →
      ∃ q1 q2, allocate (deallocate (deallocate p ptr) ptr) heap = some (q1, ptr) ∧
        allocate q1 heap = some (q2, ptr) ∧ q2.pools = p.pools) ∧
    (∀ (s : PoolRun) (heap : Nat → Nat) (ptr : Nat), ptr ∈ s.live → ptr ≠ 0 →
      ∃ s2, runPool s heap [PoolOp.deallocate ptr, PoolOp.deallocate ptr, PoolOp.allocate,
          PoolOp.allocate] = some s2 ∧
        s2.live = ptr :: ptr :: (s.live.erase ptr).erase ptr ∧ ¬ s2.live.Nodup ∧
        (0 < s2.pool.blockSize → ¬ s2.live.Pairwise (Apart s2.pool.blockSize))) ∧
    (∀ p : MemoryPool, deallocate p 0 = p) := by
  refine ⟨?_, ?_, fun p => by simp [deallocate]⟩
  · intro p heap ptr hptr
    obtain ⟨h1, h2⟩ := allocate_after_double_free p heap ptr hptr
    exact ⟨_, _, h1, h2, rfl⟩
  · intro s heap ptr _ hptr
    obtain ⟨h1, h2⟩ := allocate_after_double_free s.pool heap ptr hptr
    cases hrun : runPool s heap [PoolOp.deallocate ptr, PoolOp.deallocate ptr,
        PoolOp.allocate, PoolOp.allocate] with
    | none => simp [runPool, stepPool, h1, h2] at hrun
    | some s2 =>
      simp only [runPool, stepPool, h1, h2, Option.some.injEq] at hrun
      subst hrun
      refine ⟨_, rfl, rfl, ?_, ?_⟩
      · simp
      · intro hpos hpw
        simp only [List.pairwise_cons] at hpw
        have := hpw.1 ptr (List.mem_cons_self _ _)
        unfold Apart at this
        dsimp only at hpos this
        omega

/-- C24 on Scenario A: the block at 4288 is released twice and then returned twice. -/
theorem pool_double_free_returns_block_twice_witness :
    ∃ s s2, runPool (freshRun 64 4 poolHeap zeroMemory) poolHeap [PoolOp.allocate] = some s ∧
      s.live = [4288] ∧
      runPool s poolHeap [PoolOp.deallocate 4288, PoolOp.deallocate 4288, PoolOp.allocate,
        PoolOp.allocate] = some s2 ∧
      s2.live = [4288, 4288] ∧ ¬ s2.live.Nodup := by
  cases hs : runPool (freshRun 64 4 poolHeap zeroMemory) poolHeap [PoolOp.allocate] with
  | none =>
    have : (runPool (freshRun 64 4 poolHeap zeroMemory) poolHeap [PoolOp.allocate]).isSome =
        true := by decide
    rw [hs] at this
    cases this
  | some s =>
    have hlive : (runPool (freshRun 64 4 poolHeap zeroMemory) poolHeap [PoolOp.allocate]).map
        PoolRun.live = some [4288] := by decide
    rw [hs] at hlive
    simp only [Option.map_some', Option.some.injEq] at hlive
    obtain ⟨s2, h1, h2, h3, _⟩ :=
      pool_double_free_returns_block_twice.2.1 s poolHeap 4288 (by rw [hlive]; simp)
        (by decide)
    refine ⟨s, s2, rfl, hlive, h1, ?_, h3⟩
    rw [h2, hlive]
    decide

end MemoryPool

namespace MemoryTracker

theorem trackAlloc_counters (t : MemoryTracker) (c : AllocCall) (hen : t.enabled = true)
    (hr : c.env.mallocResult ≠ 0) :
    (trackAlloc t c.size c.file c.line c.env).1.totalAllocated =
      (t.totalAllocated + c.size) % u64 ∧
    (trackAlloc t c.size c.file c.line c.env).1.currentUsage =
      (t.currentUsage + c.size) % u64 ∧
    (trackAlloc t c.size c.file c.line c.env).1.allocationCount =
      (t.allocationCount + 1) % u64 ∧
    (trackAlloc t c.size c.file c.line c.env).1.peakUsage =
      max t.peakUsage ((t.currentUsage + c.size) % u64) ∧
    (trackAlloc t c.size c.file c.line c.env).1.totalFreed = t.totalFreed ∧
    (trackAlloc t c.size c.file c.line c.env).1.enabled = true ∧
    keys (trackAlloc t c.size c.file c.line c.env).1 =
      c.env.mallocResult :: (erase t.allocations c.env.mallocResult).map Prod.fst ∧
    ((ledgerSizes (trackAlloc t c.size c.file c.line c.env).1).map Prod.snd).sum =
      c.size + ((erase t.allocations c.env.mallocResult).map (fun e => e.2.size)).sum := by
  have hk := keys_trackAlloc t c
  rw [if_pos ⟨hen, hr⟩] at hk
  refine ⟨?_, ?_, ?_, ?_, ?_, ?_, hk, ?_⟩
  · unfold trackAlloc
    simp only [hen, Bool.not_true, Bool.false_eq_true, if_false, hr]
    split <;> rfl
  · unfold trackAlloc
    simp only [hen, Bool.not_true, Bool.false_eq_true, if_false, hr]
    split <;> rfl
  · unfold trackAlloc
    simp only [hen, Bool.not_true, Bool.false_eq_true, if_false, hr]
    split <;> rfl
  · unfold trackAlloc
    simp only [hen, Bool.not_true, Bool.false_eq_true, if_false, hr]
    split
    · rename_i hgt
      simp only [gt_iff_lt] at hgt
      simp only
      omega
    · rename_i hgt
      simp only [gt_iff_lt] at hgt
      simp only
      omega
  · unfold trackAlloc
    simp only [hen, Bool.not_true, Bool.false_eq_true, if_false, hr]
    split <;> rfl
  · unfold trackAlloc
    simp only [hen, Bool.not_true, Bool.false_eq_true, if_false, hr]
    split <;> rfl
  · rw [sum_ledgerSizes]
    unfold trackAlloc
    simp only [hen, Bool.not_true, Bool.false_eq_true, if_false, hr]
    split <;> simp [assign]

theorem trackFree_counters (t : MemoryTracker) (q : Nat) (hen : t.enabled = true)
    (hq : q ≠ 0) :
    (trackFree t q).totalAllocated = t.totalAllocated ∧
    (trackFree t q).totalFreed =
      (t.totalFreed + (match find t.allocations q with
        | some info => info.size
        | none => 0)) % u64 ∧
    (trackFree t q).currentUsage =
      (t.currentUsage + u64 - (match find t.allocations q with
        | some info => info.size
        | none => 0) % u64) % u64 ∧
    (trackFree t q).allocations = erase t.allocations q := by
  have hcond : ¬ (q = 0 ∨ (!t.enabled) = true) := by simp [hq, hen]
  refine ⟨?_, ?_, ?_, ?_⟩
  · simp only [trackFree, hcond, if_false]
    cases hf : find t.allocations q <;> rfl
  · simp only [trackFree, hcond, if_false]
    cases hf : find t.allocations q <;> rfl
  · simp only [trackFree, hcond, if_false]
    cases hf : find t.allocations q <;> rfl
  · simp only [trackFree, hcond, if_false]
    cases hf : find t.allocations q with
    | none => exact (erase_of_not_mem _ _ ((find_eq_none_iff _ _).mp hf)).symm
    | some info => rfl

/-- Source `trackFree` changes neither `allocationCount` nor `peakUsage`. -/
theorem trackFree_keeps (t : MemoryTracker) (q : Nat) :
    (trackFree t q).allocationCount = t.allocationCount ∧
    (trackFree t q).peakUsage = t.peakUsage ∧
    (trackFree t q).totalAllocated = t.totalAllocated ∧
    (trackFree t q).enabled = t.enabled := by
  unfold trackFree
  split
  · exact ⟨rfl, rfl, rfl, rfl⟩
  · cases hf : find t.allocations q <;> exact ⟨rfl, rfl, rfl, rfl⟩

end MemoryTracker

namespace MemoryTracker

theorem sum_erase_le (m : List (Nat × AllocationInfo)) (q : Nat)
    (hnd : (m.map Prod.fst).Nodup) :
    (match find m q with
      | some info => info.size
      | none => 0) + ((erase m q).map (fun e => e.2.size)).sum =
      (m.map (fun e => e.2.size)).sum :=
  (sum_sizes_erase m q hnd).symm

theorem counterInv_trackAlloc (t : MemoryTracker) (c : AllocCall) (hen : t.enabled = true)
    (hr : c.env.mallocResult ≠ 0) (hinv : CounterInv t)
    (hfit : t.totalAllocated + c.size < u64) :
    CounterInv (trackAlloc t c.size c.file c.line c.env).1 ∧
    (trackAlloc t c.size c.file c.line c.env).1.totalAllocated = t.totalAllocated + c.size ∧
    (trackAlloc t c.size c.file c.line c.env).1.currentUsage = t.currentUsage + c.size ∧
    (trackAlloc t c.size c.file c.line c.env).1.peakUsage =
      max t.peakUsage (t.currentUsage + c.size) := by
  obtain ⟨h1, h2, h3, h4, h5, h6⟩ := hinv
  obtain ⟨a1, a2, _, a4, a5, _, a7, a8⟩ := trackAlloc_counters t c hen hr
  have e1 : (t.totalAllocated + c.size) % u64 = t.totalAllocated + c.size :=
    Nat.mod_eq_of_lt hfit
  have e2 : (t.currentUsage + c.size) % u64 = t.currentUsage + c.size :=
    Nat.mod_eq_of_lt (by omega)
  rw [e1] at a1
  rw [e2] at a2 a4
  have hsum := sum_erase_le t.allocations c.env.mallocResult h4
  rw [sum_ledgerSizes] at h3
  refine ⟨⟨?_, ?_, ?_, ?_, ?_, ?_⟩, a1, a2, a4⟩
  · rw [a1]; exact hfit
  · rw [a1, a2, a5]; omega
  · rw [a8, a2]; omega
  · rw [a7, List.nodup_cons]
    refine ⟨?_, nodup_keys_erase _ _ h4⟩
    rw [mem_keys_erase]
    exact fun h => h.2 rfl
  · rw [a2, a4]; omega
  · rw [a4, a1]; omega

theorem counterInv_trackFree (t : MemoryTracker) (q : Nat) (hinv : CounterInv t) :
    CounterInv (trackFree t q) ∧ (trackFree t q).currentUsage ≤ t.currentUsage := by
  obtain ⟨h1, h2, h3, h4, h5, h6⟩ := hinv
  by_cases hcond : q ≠ 0 ∧ t.enabled = true
  · obtain ⟨hq, hen⟩ := hcond
    obtain ⟨f1, f2, f3, f4⟩ := trackFree_counters t q hen hq
    obtain ⟨k1, k2, _, _⟩ := trackFree_keeps t q
    have hsum := sum_erase_le t.allocations q h4
    rw [sum_ledgerSizes] at h3
    generalize hsz : (match find t.allocations q with
      | some info => info.size
      | none => 0) = sz at f2 f3 hsum
    have e2 : (t.totalFreed + sz) % u64 = t.totalFreed + sz := Nat.mod_eq_of_lt (by omega)
    have e3 : (t.currentUsage + u64 - sz % u64) % u64 = t.currentUsage - sz := by
      rw [Nat.mod_eq_of_lt (show sz < u64 by omega)]
      have : t.currentUsage + u64 - sz = t.currentUsage - sz + u64 := by omega
      rw [this, Nat.add_mod_right]
      exact Nat.mod_eq_of_lt (by omega)
    rw [e2] at f2
    rw [e3] at f3
    refine ⟨⟨?_, ?_, ?_, ?_, ?_, ?_⟩, ?_⟩
    · rw [f1]; exact h1
    · rw [f1, f2, f3]; omega
    · rw [sum_ledgerSizes, f4, f3]; omega
    · unfold keys; rw [f4]; exact nodup_keys_erase _ _ h4
    · rw [f3, k2]; omega
    · rw [k2, f1]; exact h6
    · rw [f3]; omega
  · have hc : q = 0 ∨ (!t.enabled) = true := by
      by_cases hq : q = 0
      · exact Or.inl hq
      · right
        cases hen : t.enabled
        · rfl
        · exact absurd ⟨hq, hen⟩ hcond
    have hst : trackFree t q = { t with heap := free t.heap q } := by
      unfold trackFree
      rw [if_pos hc]
    rw [hst]
    exact ⟨⟨h1, h2, h3, h4, h5, h6⟩, Nat.le_refl _⟩

theorem trackAlloc_untracked (t : MemoryTracker) (c : AllocCall)
    (h : ¬ (t.enabled = true ∧ c.env.mallocResult ≠ 0)) :
    (trackAlloc t c.size c.file c.line c.env).1 =
      { t with heap := malloc t.heap c.env.mallocResult } := by
  unfold trackAlloc
  cases hen : t.enabled
  · simp
  · have hr : c.env.mallocResult = 0 := by
      by_contra hne
      exact h ⟨hen, hne⟩
    simp [hr]

/-- One call on a state that satisfies the counter invariant, when the call overflows neither
`totalAllocated` nor `allocationCount`. -/
theorem counterInv_step (t : MemoryTracker) (op : TrackerOp) (hinv : CounterInv t)
    (hfit : t.totalAllocated + ((trackedSize (op, t.enabled)).toList).sum < u64)
    (hcount : t.allocationCount + ((trackedSize (op, t.enabled)).toList).length < u64) :
    CounterInv (step t op) ∧
    (step t op).totalAllocated =
      t.totalAllocated + ((trackedSize (op, t.enabled)).toList).sum ∧
    (step t op).allocationCount =
      t.allocationCount + ((trackedSize (op, t.enabled)).toList).length ∧
    (step t op).peakUsage = max t.peakUsage (step t op).currentUsage := by
  have hpeak : t.peakUsage = max t.peakUsage t.currentUsage := by
    obtain ⟨_, _, _, _, h5, _⟩ := hinv
    omega
  cases op with
  | enable => exact ⟨hinv, by simp [step, enable, trackedSize], by simp [step, enable, trackedSize], hpeak⟩
  | disable => exact ⟨hinv, by simp [step, disable, trackedSize], by simp [step, disable, trackedSize], hpeak⟩
  | trackAlloc c =>
    by_cases h : t.enabled = true ∧ c.env.mallocResult ≠ 0
    · obtain ⟨hen, hr⟩ := h
      have hts : trackedSize (TrackerOp.trackAlloc c, t.enabled) = some c.size := by
        simp [trackedSize, hen, hr]
      rw [hts] at hfit hcount ⊢
      simp only [Option.toList, List.sum_cons, List.sum_nil, Nat.add_zero, List.length_cons,
        List.length_nil] at hfit hcount ⊢
      obtain ⟨g1, g2, g3, g4⟩ := counterInv_trackAlloc t c hen hr hinv hfit
      obtain ⟨_, _, a3, _⟩ := trackAlloc_counters t c hen hr
      refine ⟨g1, g2, ?_, ?_⟩
      · show (trackAlloc t c.size c.file c.line c.env).1.allocationCount = _
        rw [a3]; exact Nat.mod_eq_of_lt hcount
      · show (trackAlloc t c.size c.file c.line c.env).1.peakUsage =
          max t.peakUsage (trackAlloc t c.size c.file c.line c.env).1.currentUsage
        rw [g4, g3]
    · have hts : trackedSize (TrackerOp.trackAlloc c, t.enabled) = none := by
        unfold trackedSize
        cases hen : t.enabled
        · simp
        · have hr : c.env.mallocResult = 0 := by
            by_contra hne
            exact h ⟨hen, hne⟩
          simp [hr]
      rw [hts]
      have hst : step t (TrackerOp.trackAlloc c) =
          { t with heap := malloc t.heap c.env.mallocResult } := trackAlloc_untracked t c h
      rw [hst]
      exact ⟨hinv, by simp, by simp, hpeak⟩
  | trackFree q =>
    obtain ⟨g1, g2⟩ := counterInv_trackFree t q hinv
    obtain ⟨k1, k2, k3, _⟩ := trackFree_keeps t q
    have hts : trackedSize (TrackerOp.trackFree q, t.enabled) = none := rfl
    rw [hts]
    refine ⟨g1, ?_, ?_, ?_⟩
    · show (trackFree t q).totalAllocated = _
      rw [k3]; simp
    · show (trackFree t q).allocationCount = _
      rw [k1]; simp
    · show (trackFree t q).peakUsage = max t.peakUsage (trackFree t q).currentUsage
      rw [k2]
      obtain ⟨_, _, _, _, h5, _⟩ := hinv
      omega

theorem trackedSizes_cons (t : MemoryTracker) (op : TrackerOp) (ops : List TrackerOp) :
    trackedSizes t (op :: ops) =
      (trackedSize (op, t.enabled)).toList ++ trackedSizes (step t op) ops := by
  unfold trackedSizes
  simp only [annotate, List.filterMap_cons]
  cases trackedSize (op, t.enabled) <;> rfl

theorem le_maxUsage (t : MemoryTracker) (ops : List TrackerOp) :
    t.currentUsage ≤ maxUsage t ops := by
  unfold maxUsage
  cases ops <;> simp [states]

theorem maxUsage_cons (t : MemoryTracker) (op : TrackerOp) (ops : List TrackerOp) :
    maxUsage t (op :: ops) = max t.currentUsage (maxUsage (step t op) ops) := by
  simp [maxUsage, states]

/-- The counters along a run that does not overflow. -/
theorem counterInv_run (ops : List TrackerOp) :
    ∀ t : MemoryTracker, CounterInv t →
      t.totalAllocated + (trackedSizes t ops).sum < u64 →
      t.allocationCount + (trackedSizes t ops).length < u64 →
      CounterInv (run t ops) ∧
      (run t ops).totalAllocated = t.totalAllocated + (trackedSizes t ops).sum ∧
      (run t ops).allocationCount = t.allocationCount + (trackedSizes t ops).length ∧
      (run t ops).peakUsage = max t.peakUsage (maxUsage t ops) := by
  induction ops with
  | nil =>
    intro t hinv _ _
    refine ⟨hinv, by simp [run, trackedSizes, annotate], by simp [run, trackedSizes, annotate],
      ?_⟩
    obtain ⟨_, _, _, _, h5, _⟩ := hinv
    simp only [run, List.foldl_nil, maxUsage, states, List.map_cons, List.map_nil,
      List.foldr_cons, List.foldr_nil]
    omega
  | cons op ops ih =>
    intro t hinv hfit hcount
    rw [trackedSizes_cons, List.sum_append] at hfit
    rw [trackedSizes_cons, List.length_append] at hcount
    obtain ⟨s1, s2, s3, s4⟩ := counterInv_step t op hinv (by omega) (by omega)
    obtain ⟨g1, g2, g3, g4⟩ := ih (step t op) s1 (by omega) (by omega)
    rw [run_cons, trackedSizes_cons, List.sum_append, List.length_append, maxUsage_cons]
    refine ⟨g1, by omega, by omega, ?_⟩
    rw [g4, s4]
    have h1 := le_maxUsage (step t op) ops
    obtain ⟨_, _, _, _, h5, _⟩ := hinv
    omega

theorem counterInv_reset (t : MemoryTracker) : CounterInv (reset t) := by
  refine ⟨by simp [reset, u64], by simp [reset], by simp [reset, ledgerSizes], ?_, ?_, ?_⟩
  · simp [reset, keys]
  · simp [reset]
  · simp [reset]

/-- C22: in every state the tracker reaches from `reset()` through `enable`, `disable`,
`trackAlloc` and `trackFree` calls of one thread, when the bytes requested by the tracked
allocations of the run and their number stay below `2 ^ 64`: `totalFreed <= totalAllocated`,
`currentUsage = totalAllocated - totalFreed`, `currentUsage <= peakUsage <= totalAllocated`,
and `peakUsage` is the largest value `currentUsage` had in the states since the reset.
A tracked `trackAlloc(size)` whose `malloc` succeeds, made in such a state without
overflowing the counters, adds `size` to `totalAllocated` and to `currentUsage` and 1 to
`allocationCount`; `trackFree` changes neither `allocationCount` nor `peakUsage`. -/
theorem tracker_counter_invariants (t0 : MemoryTracker) (ops : List TrackerOp)
    (hfit : NoOverflow (reset t0) ops) :
    (run (reset t0) ops).totalAllocated = (trackedSizes (reset t0) ops).sum ∧
    (run (reset t0) ops).allocationCount = (trackedSizes (reset t0) ops).length ∧
    (run (reset t0) ops).totalFreed ≤ (run (reset t0) ops).totalAllocated ∧
    (run (reset t0) ops).currentUsage =
      (run (reset t0) ops).totalAllocated - (run (reset t0) ops).totalFreed ∧
    (run (reset t0) ops).currentUsage ≤ (run (reset t0) ops).peakUsage ∧
    (run (reset t0) ops).peakUsage ≤ (run (reset t0) ops).totalAllocated ∧
    (run (reset t0) ops).peakUsage = maxUsage (reset t0) ops ∧
    (∀ c : AllocCall, (run (reset t0) ops).enabled = true → c.env.mallocResult ≠ 0 →
      (run (reset t0) ops).totalAllocated + c.size < u64 →
      (run (reset t0) ops).allocationCount + 1 < u64 →
      (step (run (reset t0) ops) (TrackerOp.trackAlloc c)).totalAllocated =
        (run (reset t0) ops).totalAllocated + c.size ∧
      (step (run (reset t0) ops) (TrackerOp.trackAlloc c)).currentUsage =
        (run (reset t0) ops).currentUsage + c.size ∧
      (step (run (reset t0) ops) (TrackerOp.trackAlloc c)).allocationCount =
        (run (reset t0) ops).allocationCount + 1) ∧
    (∀ q : Nat,
      (step (run (reset t0) ops) (TrackerOp.trackFree q)).allocationCount =
        (run (reset t0) ops).allocationCount ∧
      (step (run (reset t0) ops) (TrackerOp.trackFree q)).peakUsage =
        (run (reset t0) ops).peakUsage) := by
  obtain ⟨hsum, hlen⟩ := hfit
  have h0 : (reset t0).totalAllocated = 0 := rfl
  have h1 : (reset t0).allocationCount = 0 := rfl
  have h2 : (reset t0).peakUsage = 0 := rfl
  obtain ⟨g1, g2, g3, g4⟩ := counterInv_run ops (reset t0) (counterInv_reset t0)
    (by rw [h0]; omega) (by rw [h1]; omega)
  rw [h0, Nat.zero_add] at g2
  rw [h1, Nat.zero_add] at g3
  rw [h2, Nat.zero_max] at g4
  obtain ⟨i1, i2, i3, i4, i5, i6⟩ := g1
  refine ⟨g2, g3, by omega, by omega, i5, i6, g4, ?_, ?_⟩
  · intro c hen hr hfit1 hcnt1
    obtain ⟨_, a2, a3, _⟩ := counterInv_trackAlloc _ c hen hr ⟨i1, i2, i3, i4, i5, i6⟩ hfit1
    obtain ⟨_, _, b3, _⟩ := trackAlloc_counters _ c hen hr
    refine ⟨a2, a3, ?_⟩
    show (trackAlloc (run (reset t0) ops) c.size c.file c.line c.env).1.allocationCount = _
    rw [b3]
    exact Nat.mod_eq_of_lt hcnt1
  · intro q
    obtain ⟨k1, k2, _, _⟩ := trackFree_keeps (run (reset t0) ops) q
    exact ⟨k1, k2⟩

/-- C22 on a run with two tracked blocks of which the first is released: 356 bytes were
allocated, 256 freed, 100 are in use and the peak was 356. -/
theorem tracker_counter_invariants_witness :
    NoOverflow (reset init) [TrackerOp.enable, TrackerOp.trackAlloc (scenarioAlloc 256 4096),
      TrackerOp.trackAlloc (scenarioAlloc 100 8192), TrackerOp.trackFree 4096] ∧
    (run (reset init) [TrackerOp.enable, TrackerOp.trackAlloc (scenarioAlloc 256 4096),
      TrackerOp.trackAlloc (scenarioAlloc 100 8192), TrackerOp.trackFree 4096]).currentUsage =
      (run (reset init) [TrackerOp.enable, TrackerOp.trackAlloc (scenarioAlloc 256 4096),
        TrackerOp.trackAlloc (scenarioAlloc 100 8192),
        TrackerOp.trackFree 4096]).totalAllocated -
      (run (reset init) [TrackerOp.enable, TrackerOp.trackAlloc (scenarioAlloc 256 4096),
        TrackerOp.trackAlloc (scenarioAlloc 100 8192), TrackerOp.trackFree 4096]).totalFreed ∧
    (run (reset init) [TrackerOp.enable, TrackerOp.trackAlloc (scenarioAlloc 256 4096),
      TrackerOp.trackAlloc (scenarioAlloc 100 8192), TrackerOp.trackFree 4096]).peakUsage =
      maxUsage (reset init) [TrackerOp.enable, TrackerOp.trackAlloc (scenarioAlloc 256 4096),
        TrackerOp.trackAlloc (scenarioAlloc 100 8192), TrackerOp.trackFree 4096] ∧
    maxUsage (reset init) [TrackerOp.enable, TrackerOp.trackAlloc (scenarioAlloc 256 4096),
      TrackerOp.trackAlloc (scenarioAlloc 100 8192), TrackerOp.trackFree 4096] = 356 := by
  have hfit : NoOverflow (reset init) [TrackerOp.enable,
      TrackerOp.trackAlloc (scenarioAlloc 256 4096),
      TrackerOp.trackAlloc (scenarioAlloc 100 8192), TrackerOp.trackFree 4096] := by
    unfold NoOverflow
    decide
  obtain ⟨_, _, _, h4, _, _, h7, _⟩ := tracker_counter_invariants init _ hfit
  exact ⟨hfit, h4, h7, by decide⟩

end MemoryTracker

namespace DFS

theorem is_safeFrom_spec (board : List Int) (row : Nat) (col : Int) (rows : List Nat)
    (h : ∀ r ∈ rows, r < board.length) :
    ∃ b, is_safeFrom board row col rows = some b ∧
      (b = true ↔ ∀ r ∈ rows, ∀ c, board[r]? = some c →
        ¬ (c = col ∨ (c - col).natAbs = ((r : Int) - (row : Int)).natAbs)) := by
  induction rows with
  | nil => exact ⟨true, rfl, by simp⟩
  | cons r rest ih =>
    have hr : r < board.length := h r (List.mem_cons_self _ _)
    obtain ⟨b, hb, hiff⟩ := ih (fun x hx => h x (List.mem_cons_of_mem _ hx))
    have hget : board[r]? = some board[r] := List.getElem?_eq_getElem hr
    by_cases hc : board[r] = col ∨ (board[r] - col).natAbs = ((r : Int) - (row : Int)).natAbs
    · refine ⟨false, by simp only [is_safeFrom, hget, hc, if_true], ?_⟩
      constructor
      · intro hf; cases hf
      · intro hall
        exact absurd hc (hall r (List.mem_cons_self _ _) _ hget)
    · refine ⟨b, by simp only [is_safeFrom, hget, hc, if_false]; exact hb, ?_⟩
      rw [hiff]
      constructor
      · intro hall x hx c hxc
        rcases List.mem_cons.mp hx with rfl | hx
        · rw [hget] at hxc
          cases hxc
          exact hc
        · exact hall x hx c hxc
      · intro hall x hx
        exact hall x (List.mem_cons_of_mem _ hx)

theorem natAbs_rows (r row : Nat) (h : r < row) :
    ((r : Int) - (row : Int)).natAbs = row - r := by
  omega

/-- Source `is_safe` returns, and returns `true` exactly when no earlier row holds a queen
in the column or on a diagonal of the square. -/
theorem is_safe_spec (board : List Int) (row : Nat) (col : Int) (h : row ≤ board.length) :
    ∃ b, is_safe board row col = some b ∧
      (b = true ↔ ∀ r c, r < row → board[r]? = some c →
        c ≠ col ∧ (c - col).natAbs ≠ row - r) := by
  obtain ⟨b, hb, hiff⟩ := is_safeFrom_spec board row col (List.range row)
    (fun r hr => Nat.lt_of_lt_of_le (List.mem_range.mp hr) h)
  refine ⟨b, hb, ?_⟩
  rw [hiff]
  constructor
  · intro hall r c hr hc
    have := hall r (List.mem_range.mpr hr) c hc
    rw [natAbs_rows r row hr, not_or] at this
    exact this
  · intro hall r hr c hc
    have := hall r c (List.mem_range.mp hr) hc
    rw [natAbs_rows r row (List.mem_range.mp hr), not_or]
    exact this

theorem safeExt_iff (qs : List Nat) (col : Nat) :
    safeExt qs col = true ↔
      ∀ r c : Nat, qs[r]? = some c →
        c ≠ col ∧ ((c : Int) - (col : Int)).natAbs ≠ qs.length - r := by
  unfold safeExt
  rw [List.all_eq_true]
  constructor
  · intro hall r c hrc
    have hr : r < qs.length := by
      by_contra hge
      rw [List.getElem?_eq_none (by omega)] at hrc
      cases hrc
    have := hall r (List.mem_range.mpr hr)
    rw [hrc] at this
    simpa using this
  · intro hall r hr
    have hlt := List.mem_range.mp hr
    have hget : qs[r]? = some qs[r] := List.getElem?_eq_getElem hlt
    rw [hget]
    have := hall r _ hget
    simpa using this

theorem agrees_length (board : List Int) (qs : List Nat) (h : Agrees board qs) :
    qs.length ≤ board.length := by
  by_contra hlt
  have hpos : board.length < qs.length := by omega
  have := h board.length _ (List.getElem?_eq_getElem hpos)
  rw [List.getElem?_eq_none (Nat.le_refl _)] at this
  cases this

theorem is_safe_agrees (board : List Int) (qs : List Nat) (col : Nat) (h : Agrees board qs) :
    is_safe board qs.length (col : Int) = some (safeExt qs col) := by
  obtain ⟨b, hb, hiff⟩ := is_safe_spec board qs.length (col : Int) (agrees_length board qs h)
  rw [hb]
  congr 1
  have : b = true ↔ safeExt qs col = true := by
    rw [hiff, safeExt_iff]
    constructor
    · intro hall r c hrc
      have hr : r < qs.length := by
        by_contra hge
        rw [List.getElem?_eq_none (by omega)] at hrc
        cases hrc
      have := hall r (c : Int) hr (h r c hrc)
      omega
    · intro hall r c hr hrc
      have hget : qs[r]? = some qs[r] := List.getElem?_eq_getElem hr
      have hb2 := h r _ hget
      rw [hb2] at hrc
      cases hrc
      have := hall r _ hget
      omega
  cases b <;> cases hs : safeExt qs col <;> simp_all

end DFS

namespace DFS

theorem agrees_front (board : List Int) (qs : List Nat) (col : Nat)
    (h : Agrees board (qs ++ [col])) : Agrees board qs := by
  intro r c hrc
  apply h r c
  have hr : r < qs.length := by
    by_contra hge
    rw [List.getElem?_eq_none (by omega)] at hrc
    cases hrc
  rw [List.getElem?_append_left hr]
  exact hrc

theorem agrees_set (board : List Int) (qs : List Nat) (col : Nat) (h : Agrees board qs)
    (hlt : qs.length < board.length) :
    Agrees (board.set qs.length (col : Int)) (qs ++ [col]) := by
  intro r c hrc
  by_cases hr : r < qs.length
  · rw [List.getElem?_append_left hr] at hrc
    rw [List.getElem?_set_ne (by omega)]
    exact h r c hrc
  · by_cases hr2 : r = qs.length
    · subst hr2
      rw [List.getElem?_append_right (Nat.le_refl _)] at hrc
      simp only [Nat.sub_self, List.getElem?_cons_zero, Option.some.injEq] at hrc
      subst hrc
      rw [List.getElem?_set_self hlt]
    · rw [List.getElem?_eq_none (by simp; omega)] at hrc
      cases hrc

/-- The loop over the columns of one row, when the recursive call counts the placements
that extend each safe column. -/
theorem solve_allCols_spec (n k : Nat) (recurse : List Int → Int → Option (List Int × Int))
    (qs : List Nat) (hqs : qs.length < n)
    (hrec : ∀ col, safeExt qs col = true → ∀ (board : List Int) (count : Int),
      board.length = n → Agrees board (qs ++ [col]) →
      count + ((extensions n k (qs ++ [col])).length : Int) ≤ intMax →
      ∃ board2, recurse board count =
          some (board2, count + ((extensions n k (qs ++ [col])).length : Int)) ∧
        board2.length = n ∧ Agrees board2 (qs ++ [col])) :
    ∀ (cols : List Nat) (board : List Int) (count : Int), board.length = n → Agrees board qs →
      count + ((cols.flatMap (fun col =>
        if safeExt qs col then extensions n k (qs ++ [col]) else [])).length : Int) ≤ intMax →
      ∃ board2, solve_allCols recurse qs.length cols board count =
          some (board2, count + ((cols.flatMap (fun col =>
            if safeExt qs col then extensions n k (qs ++ [col]) else [])).length : Int)) ∧
        board2.length = n ∧ Agrees board2 qs := by
  intro cols
  induction cols with
  | nil =>
    intro board count hlen hag _
    exact ⟨board, by simp [solve_allCols], hlen, hag⟩
  | cons col rest ih =>
    intro board count hlen hag hfit
    simp only [List.flatMap_cons, List.length_append, Nat.cast_add] at hfit ⊢
    have hsafe := is_safe_agrees board qs col hag
    cases hs : safeExt qs col with
    | false =>
      rw [hs] at hsafe
      simp only [hs, Bool.false_eq_true, if_false, List.length_nil, Nat.cast_zero,
        Int.zero_add] at hfit ⊢
      obtain ⟨board2, h1, h2, h3⟩ := ih board count hlen hag hfit
      refine ⟨board2, ?_, h2, h3⟩
      simp only [solve_allCols, hsafe]
      exact h1
    | true =>
      rw [hs] at hsafe
      simp only [hs, if_true] at hfit ⊢
      have hlt : qs.length < board.length := by omega
      have hset : (board.set qs.length (col : Int)).length = n := by
        rw [List.length_set]; exact hlen
      obtain ⟨board1, r1, r2, r3⟩ := hrec col hs (board.set qs.length (col : Int)) count hset
        (agrees_set board qs col hag hlt) (by omega)
      obtain ⟨board2, h1, h2, h3⟩ := ih board1
        (count + ((extensions n k (qs ++ [col])).length : Int)) r2
        (agrees_front board1 qs col r3) (by omega)
      refine ⟨board2, ?_, h2, h3⟩
      simp only [solve_allCols, hsafe, hlt, if_true, r1]
      rw [h1]
      congr 2
      omega

/-- Source `solve_all` called at row `qs.length` on a board that holds `qs` in its first rows:
with fuel for the remaining rows it returns and has added the number of placements that
extend `qs`, as long as the counter stays within `int`. -/
theorem solve_all_spec (n : Nat) :
    ∀ (k fuel : Nat) (qs : List Nat) (board : List Int) (count : Int),
      n = qs.length + k → k + 1 ≤ fuel → board.length = n → Agrees board qs →
      count + ((extensions n k qs).length : Int) ≤ intMax →
      ∃ board2, solve_all fuel board qs.length n count =
          some (board2, count + ((extensions n k qs).length : Int)) ∧
        board2.length = n ∧ Agrees board2 qs := by
  intro k
  induction k with
  | zero =>
    intro fuel qs board count hn hfuel hlen hag hfit
    obtain ⟨f, rfl⟩ : ∃ f, fuel = f + 1 := ⟨fuel - 1, by omega⟩
    simp only [extensions, List.length_singleton, Nat.cast_one] at hfit ⊢
    refine ⟨board, ?_, hlen, hag⟩
    have hrow : qs.length = n := by omega
    simp only [solve_all, hrow, if_true, hfit]
  | succ k ih =>
    intro fuel qs board count hn hfuel hlen hag hfit
    obtain ⟨f, rfl⟩ : ∃ f, fuel = f + 1 := ⟨fuel - 1, by omega⟩
    have hrow : ¬ qs.length = n := by omega
    simp only [solve_all, hrow, if_false]
    have hrange : (extensions n (k + 1) qs) = (List.range n).flatMap (fun col =>
        if safeExt qs col then extensions n k (qs ++ [col]) else []) := rfl
    rw [hrange] at hfit ⊢
    apply solve_allCols_spec n k _ qs (by omega) _ (List.range n) board count hlen hag hfit
    intro col hs board1 count1 hlen1 hag1 hfit1
    have := ih f (qs ++ [col]) board1 count1 (by simp; omega) (by omega) hlen1 hag1 hfit1
    simpa using this

end DFS

namespace DFS

theorem getElem?_lt {α : Type} (l : List α) (i : Nat) (x : α) (h : l[i]? = some x) :
    i < l.length := by
  by_contra hge
  rw [List.getElem?_eq_none (by omega)] at h
  cases h

theorem noAttack_front (a b : List Nat) (h : NoAttack (a ++ b)) : NoAttack a := by
  intro i j ci cj hij hi hj
  have hj2 := getElem?_lt a j cj hj
  apply h i j ci cj hij
  · rw [List.getElem?_append_left (by omega)]; exact hi
  · rw [List.getElem?_append_left hj2]; exact hj

theorem noAttack_snoc (qs : List Nat) (col : Nat) :
    NoAttack (qs ++ [col]) ↔ NoAttack qs ∧ safeExt qs col = true := by
  constructor
  · intro h
    refine ⟨noAttack_front qs [col] h, ?_⟩
    rw [safeExt_iff]
    intro r c hrc
    have hr := getElem?_lt qs r c hrc
    apply h r qs.length c col hr
    · rw [List.getElem?_append_left hr]; exact hrc
    · rw [List.getElem?_append_right (Nat.le_refl _)]; simp
  · rintro ⟨hqs, hsafe⟩
    rw [safeExt_iff] at hsafe
    intro i j ci cj hij hi hj
    have hj2 := getElem?_lt _ j cj hj
    simp only [List.length_append, List.length_singleton] at hj2
    by_cases hjq : j < qs.length
    · rw [List.getElem?_append_left hjq] at hj
      rw [List.getElem?_append_left (by omega)] at hi
      exact hqs i j ci cj hij hi hj
    · have hje : j = qs.length := by omega
      subst hje
      rw [List.getElem?_append_right (Nat.le_refl _)] at hj
      simp only [Nat.sub_self, List.getElem?_cons_zero, Option.some.injEq] at hj
      subst hj
      rw [List.getElem?_append_left hij] at hi
      exact hsafe i ci hi

theorem noAttack_nil : NoAttack [] := by
  intro i j ci cj _ hi _
  simp at hi

theorem extensions_front (n : Nat) :
    ∀ (k : Nat) (qs sol : List Nat), sol ∈ extensions n k qs →
      ∃ ext, sol = qs ++ ext ∧ ext.length = k ∧ ∀ c ∈ ext, c < n := by
  intro k
  induction k with
  | zero =>
    intro qs sol h
    simp only [extensions, List.mem_singleton] at h
    exact ⟨[], by simp [h], rfl, by simp⟩
  | succ k ih =>
    intro qs sol h
    simp only [extensions, List.mem_flatMap, List.mem_range] at h
    obtain ⟨col, hcol, hmem⟩ := h
    cases hs : safeExt qs col with
    | false => simp [hs] at hmem
    | true =>
      simp only [hs, if_true] at hmem
      obtain ⟨ext, h1, h2, h3⟩ := ih _ _ hmem
      refine ⟨col :: ext, by simp [h1], by simp [h2], ?_⟩
      intro c hc
      rcases List.mem_cons.mp hc with rfl | hc
      · exact hcol
      · exact h3 c hc

theorem mem_extensions (n : Nat) :
    ∀ (k : Nat) (qs sol : List Nat), NoAttack qs →
      (sol ∈ extensions n k qs ↔
        (∃ ext, sol = qs ++ ext ∧ ext.length = k ∧ ∀ c ∈ ext, c < n) ∧ NoAttack sol) := by
  intro k
  induction k with
  | zero =>
    intro qs sol hqs
    simp only [extensions, List.mem_singleton]
    constructor
    · rintro rfl
      exact ⟨⟨[], by simp, rfl, by simp⟩, hqs⟩
    · rintro ⟨⟨ext, h1, h2, _⟩, _⟩
      rw [List.length_eq_zero] at h2
      subst h2
      simpa using h1
  | succ k ih =>
    intro qs sol hqs
    simp only [extensions, List.mem_flatMap, List.mem_range]
    constructor
    · rintro ⟨col, hcol, hmem⟩
      cases hs : safeExt qs col with
      | false => simp [hs] at hmem
      | true =>
        simp only [hs, if_true] at hmem
        obtain ⟨⟨ext, h1, h2, h3⟩, h4⟩ :=
          (ih (qs ++ [col]) sol ((noAttack_snoc qs col).mpr ⟨hqs, hs⟩)).mp hmem
        refine ⟨⟨col :: ext, by simp [h1], by simp [h2], ?_⟩, h4⟩
        intro c hc
        rcases List.mem_cons.mp hc with rfl | hc
        · exact hcol
        · exact h3 c hc
    · rintro ⟨⟨ext, h1, h2, h3⟩, h4⟩
      cases ext with
      | nil => simp at h2
      | cons col ext =>
        have hsol : sol = (qs ++ [col]) ++ ext := by simp [h1]
        have hna : NoAttack (qs ++ [col]) := by
          rw [hsol] at h4
          exact noAttack_front _ _ h4
        have hs := ((noAttack_snoc qs col).mp hna).2
        refine ⟨col, h3 col (List.mem_cons_self _ _), ?_⟩
        simp only [hs, if_true]
        apply (ih (qs ++ [col]) sol hna).mpr
        refine ⟨⟨ext, hsol, by simpa using h2, ?_⟩, h4⟩
        intro c hc
        exact h3 c (List.mem_cons_of_mem _ hc)

theorem nodup_extensions (n : Nat) :
    ∀ (k : Nat) (qs : List Nat), (extensions n k qs).Nodup := by
  intro k
  induction k with
  | zero => intro qs; simp [extensions]
  | succ k ih =>
    intro qs
    simp only [extensions]
    rw [List.nodup_flatMap]
    constructor
    · intro col _
      cases hs : safeExt qs col with
      | false => simp
      | true => simp only [if_true]; exact ih _
    · refine (List.nodup_range n).imp ?_
      intro a b hab
      show List.Disjoint _ _
      intro sol ha hb
      cases hsa : safeExt qs a with
      | false => simp [hsa] at ha
      | true =>
        cases hsb : safeExt qs b with
        | false => simp [hsb] at hb
        | true =>
          simp only [hsa, if_true] at ha
          simp only [hsb, if_true] at hb
          obtain ⟨e1, h1, _, _⟩ := extensions_front n k _ _ ha
          obtain ⟨e2, h2, _, _⟩ := extensions_front n k _ _ hb
          rw [h1] at h2
          simp only [List.append_assoc, List.singleton_append, List.append_cancel_left_eq,
            List.cons.injEq] at h2
          exact hab h2.1

/-- The list `extensions n n []` holds every placement of `n` queens, one per row, in which
no two queens share a column or a diagonal, each once. -/
theorem solutions_spec (n : Nat) :
    (extensions n n []).Nodup ∧
    ∀ qs, qs ∈ extensions n n [] ↔ (IsPlacement n qs ∧ NoAttack qs) := by
  refine ⟨nodup_extensions n n [], ?_⟩
  intro qs
  rw [mem_extensions n n [] qs noAttack_nil]
  unfold IsPlacement
  constructor
  · rintro ⟨⟨ext, h1, h2, h3⟩, h4⟩
    simp only [List.nil_append] at h1
    subst h1
    exact ⟨⟨h2, h3⟩, h4⟩
  · rintro ⟨⟨h2, h3⟩, h4⟩
    exact ⟨⟨qs, by simp, h2, h3⟩, h4⟩

end DFS

namespace DFS

theorem enumerates_extensions (n : Nat) : Enumerates n (extensions n n []) :=
  solutions_spec n

theorem enumerates_length (n : Nat) (sols : List (List Nat)) (h : Enumerates n sols) :
    sols.length = (extensions n n []).length := by
  obtain ⟨hnd, hmem⟩ := h
  obtain ⟨hnd2, hmem2⟩ := solutions_spec n
  have hperm : sols.Perm (extensions n n []) :=
    (List.perm_ext_iff_of_nodup hnd hnd2).mpr (fun qs => by rw [hmem, hmem2])
  exact hperm.length_eq

set_option maxRecDepth 100000 in
theorem extensions_small :
    (extensions 1 1 []).length = 1 ∧ (extensions 2 2 []).length = 0 ∧
    (extensions 3 3 []).length = 0 ∧ extensions 4 4 [] = [[1, 3, 0, 2], [2, 0, 3, 1]] := by
  decide

theorem safeFast_iff : ∀ (placed : List Nat) (d col : Nat),
    safeFast placed d col = true ↔
      ∀ i c : Nat, placed[i]? = some c → c ≠ col ∧ c + (d + i) ≠ col ∧ col + (d + i) ≠ c := by
  intro placed
  induction placed with
  | nil => intro d col; simp [safeFast]
  | cons x rest ih =>
    intro d col
    simp only [safeFast, Bool.and_eq_true, bne_iff_ne, ne_eq, ih]
    constructor
    · rintro ⟨⟨⟨h1, h2⟩, h3⟩, h4⟩ i c hic
      cases i with
      | zero =>
        simp only [List.getElem?_cons_zero, Option.some.injEq] at hic
        subst hic
        exact ⟨h1, by omega, by omega⟩
      | succ i =>
        simp only [List.getElem?_cons_succ] at hic
        have := h4 i c hic
        omega
    · intro h
      have h0 := h 0 x (by simp)
      refine ⟨⟨⟨h0.1, by omega⟩, by omega⟩, ?_⟩
      intro i c hic
      have := h (i + 1) c (by simpa using hic)
      omega

theorem safeFast_reverse (qs : List Nat) (col : Nat) :
    safeFast qs.reverse 1 col = safeExt qs col := by
  rw [Bool.eq_iff_iff, safeFast_iff, safeExt_iff]
  constructor
  · intro h r c hrc
    have hr := getElem?_lt qs r c hrc
    have hget : qs.reverse[qs.length - 1 - r]? = some c := by
      rw [List.getElem?_reverse (by omega)]
      have : qs.length - 1 - (qs.length - 1 - r) = r := by omega
      rw [this]
      exact hrc
    have := h (qs.length - 1 - r) c hget
    omega
  · intro h i c hic
    have hi := getElem?_lt _ i c hic
    rw [List.length_reverse] at hi
    rw [List.getElem?_reverse hi] at hic
    have := h (qs.length - 1 - i) c hic
    omega

theorem sum_map_eq_length_flatMap {α : Type} (f : Nat → Nat) (g : Nat → List α)
    (h : ∀ col, f col = (g col).length) :
    ∀ cols : List Nat, (cols.map f).sum = (cols.flatMap g).length := by
  intro cols
  induction cols with
  | nil => rfl
  | cons col rest ih =>
    simp only [List.map_cons, List.sum_cons, List.flatMap_cons, List.length_append, ih, h]

/-- The count `countFast` is the number of placements `extensions` lists. -/
theorem countFast_eq (n : Nat) :
    ∀ (k : Nat) (qs : List Nat), countFast n k qs.reverse = (extensions n k qs).length := by
  intro k
  induction k with
  | zero => intro qs; rfl
  | succ k ih =>
    intro qs
    simp only [countFast, extensions]
    apply sum_map_eq_length_flatMap
    intro col
    rw [safeFast_reverse]
    cases hs : safeExt qs col with
    | false => simp
    | true =>
      simp only [if_true]
      rw [← ih (qs ++ [col])]
      simp

theorem countFast_eight_step (placed : List Nat) (k : Nat) :
    countFast 8 (k + 1) placed =
      ((List.range 8).map (fun col =>
        if safeFast placed 1 col then countFast 8 k (col :: placed) else 0)).sum := rfl

set_option maxRecDepth 100000 in
theorem countFast_eight_0 : countFast 8 7 [0] = 4 := by decide!

set_option maxRecDepth 100000 in
theorem countFast_eight_1 : countFast 8 7 [1] = 8 := by decide!

set_option maxRecDepth 100000 in
theorem countFast_eight_2 : countFast 8 7 [2] = 16 := by decide!

set_option maxRecDepth 100000 in
theorem countFast_eight_3 : countFast 8 7 [3] = 18 := by decide!

set_option maxRecDepth 100000 in
theorem countFast_eight_4 : countFast 8 7 [4] = 18 := by decide!

set_option maxRecDepth 100000 in
theorem countFast_eight_5 : countFast 8 7 [5] = 16 := by decide!

set_option maxRecDepth 100000 in
theorem countFast_eight_6 : countFast 8 7 [6] = 8 := by decide!

set_option maxRecDepth 100000 in
theorem countFast_eight_7 : countFast 8 7 [7] = 4 := by decide!

theorem extensions_eight : (extensions 8 8 []).length = 92 := by
  have h := countFast_eq 8 8 []
  rw [List.reverse_nil] at h
  rw [← h]
  have hstep := countFast_eight_step [] 7
  have hrange : List.range 8 = [0, 1, 2, 3, 4, 5, 6, 7] := by decide
  rw [hrange] at hstep
  simp only [List.map_cons, List.map_nil, safeFast, if_true, List.sum_cons, List.sum_nil,
    countFast_eight_0, countFast_eight_1, countFast_eight_2, countFast_eight_3,
    countFast_eight_4, countFast_eight_5, countFast_eight_6, countFast_eight_7] at hstep
  exact hstep

/-- The enumerator on a board of `n` rows, when the number of solutions fits `int`. -/
theorem solve_all_counts (n : Nat) (sols : List (List Nat)) (henum : Enumerates n sols)
    (hfit : (sols.length : Int) ≤ intMax) (board : List Int) (fuel : Nat)
    (hlen : board.length = n) (hfuel : n + 1 ≤ fuel) :
    ∃ board2, solve_all fuel board 0 n 0 = some (board2, (sols.length : Int)) ∧
      board2.length = n := by
  have hl := enumerates_length n sols henum
  have hag : Agrees board [] := by
    intro r c hrc
    simp at hrc
  obtain ⟨board2, h1, h2, _⟩ := solve_all_spec n n fuel [] board 0 (by simp) hfuel hlen hag
    (by rw [← hl]; omega)
  refine ⟨board2, ?_, h2⟩
  rw [hl]
  simpa using h1

theorem dfs_blind_eq (n : Nat) (hfit : ((extensions n n []).length : Int) ≤ intMax) :
    dfs_blind n = some ((extensions n n []).length : Int) := by
  obtain ⟨board2, h1, _⟩ := solve_all_counts n _ (enumerates_extensions n) hfit
    (List.replicate n (-1)) (n + 1) (by simp) (Nat.le_refl _)
  unfold dfs_blind
  rw [h1]
  rfl

/-- C26, as amended: the blind depth-first enumerator counts all solutions when their number
is at most `INT_MAX`.  `is_safe(board, row, col)`
returns, for every board of at least `row` entries, and returns `true` exactly when no row
`r < row` has `board[r] = col` or `|board[r] - col| = row - r`.  For every `n`, every board
of length `n` and every list `sols` that holds the placements of `n` queens, one per row, in
which no two queens share a column or a diagonal, each once: when the number of these
placements fits the `int` counter, `solve_all(board, 0, n, count)` started with `count = 0`
returns (with fuel for the `n + 1` levels of the recursion) and leaves `count = sols.length`.
Such a list exists for every `n`, and its length is 1 for `n = 1`, 0 for `n = 2` and `n = 3`,
2 for `n = 4` and 92 for `n = 8`, which `dfs_blind` reports. -/
theorem dfs_counts_all_solutions :
    (∀ (board : List Int) (row : Nat) (col : Int), row ≤ board.length →
      ∃ b, is_safe board row col = some b ∧
        (b = true ↔ ∀ r c, r < row → board[r]? = some c →
          c ≠ col ∧ (c - col).natAbs ≠ row - r)) ∧
    (∀ (n : Nat) (sols : List (List Nat)), Enumerates n sols →
      (sols.length : Int) ≤ intMax →
      ∀ (board : List Int) (fuel : Nat), board.length = n → n + 1 ≤ fuel →
        ∃ board2, solve_all fuel board 0 n 0 = some (board2, (sols.length : Int))) ∧
    (∀ n : Nat, ∃ sols, Enumerates n sols) ∧
    (∀ sols, Enumerates 1 sols → sols.length = 1) ∧
    (∀ sols, Enumerates 2 sols → sols.length = 0) ∧
    (∀ sols, Enumerates 3 sols → sols.length = 0) ∧
    (∀ sols, Enumerates 4 sols → sols.length = 2) ∧
    (∀ sols, Enumerates 8 sols → sols.length = 92) ∧
    dfs_blind 1 = some 1 ∧ dfs_blind 2 = some 0 ∧ dfs_blind 3 = some 0 ∧
    dfs_blind 4 = some 2 ∧ dfs_blind 8 = some 92 := by
  obtain ⟨e1, e2, e3, e4⟩ := extensions_small
  have e4l : (extensions 4 4 []).length = 2 := by rw [e4]; rfl
  have e8 := extensions_eight
  refine ⟨is_safe_spec, ?_, fun n => ⟨_, enumerates_extensions n⟩, ?_, ?_, ?_, ?_, ?_,
    ?_, ?_, ?_, ?_, ?_⟩
  · intro n sols henum hfit board fuel hlen hfuel
    obtain ⟨board2, h1, _⟩ := solve_all_counts n sols henum hfit board fuel hlen hfuel
    exact ⟨board2, h1⟩
  · intro sols h; rw [enumerates_length 1 sols h, e1]
  · intro sols h; rw [enumerates_length 2 sols h, e2]
  · intro sols h; rw [enumerates_length 3 sols h, e3]
  · intro sols h; rw [enumerates_length 4 sols h, e4l]
  · intro sols h; rw [enumerates_length 8 sols h, e8]
  · rw [dfs_blind_eq 1 (by rw [e1]; decide), e1]; rfl
  · rw [dfs_blind_eq 2 (by rw [e2]; decide), e2]; rfl
  · rw [dfs_blind_eq 3 (by rw [e3]; decide), e3]; rfl
  · rw [dfs_blind_eq 4 (by rw [e4l]; decide), e4l]; rfl
  · rw [dfs_blind_eq 8 (by rw [e8]; decide), e8]; rfl

/-- The amended C26 for `n = 4`: the two solutions are the placements with columns 1, 3, 0, 2 and
2, 0, 3, 1, and the enumerator started on the board of `dfs_blind` counts 2. -/
theorem dfs_counts_all_solutions_witness :
    Enumerates 4 [[1, 3, 0, 2], [2, 0, 3, 1]] ∧
    ∃ board2, solve_all 5 [-1, -1, -1, -1] 0 4 0 = some (board2, 2) := by
  have henum : Enumerates 4 [[1, 3, 0, 2], [2, 0, 3, 1]] := by
    have := enumerates_extensions 4
    rw [extensions_small.2.2.2] at this
    exact this
  exact ⟨henum, dfs_counts_all_solutions.2.1 4 _ henum (by decide) [-1, -1, -1, -1] 5 rfl
    (by decide)⟩

end DFS

namespace CSP

theorem tryValues_mono (r1 r2 : CSPState → Option (Bool × CSPState))
    (h : ∀ s res, r1 s = some res → r2 s = some res) (state : CSPState) (row : Nat) :
    ∀ (values : List Int) (res : Bool × CSPState),
      tryValues r1 state row values = some res → tryValues r2 state row values = some res := by
  intro values
  induction values with
  | nil => intro res hres; simpa [tryValues] using hres
  | cons col rest ih =>
    intro res hres
    unfold tryValues at hres ⊢
    by_cases hrow : row < state.assignment.length
    · simp only [hrow, if_true] at hres ⊢
      cases hfc : forward_check { state with assignment := state.assignment.set row col }
          row col with
      | none => simp [hfc] at hres
      | some fc =>
        obtain ⟨b, new_state⟩ := fc
        cases b with
        | false =>
          simp only [hfc] at hres ⊢
          exact ih res hres
        | true =>
          simp only [hfc] at hres ⊢
          cases hr1 : r1 new_state with
          | none => simp [hr1] at hres
          | some out =>
            rw [h new_state out hr1]
            obtain ⟨b2, s2⟩ := out
            cases b2 with
            | false =>
              simp only [hr1] at hres ⊢
              exact ih res hres
            | true =>
              simp only [hr1] at hres ⊢
              exact hres
    · simp [hrow] at hres

/-- More fuel does not change a result of `solve`. -/
theorem solveFuel_succ :
    ∀ (fuel : Nat) (state : CSPState) (res : Bool × CSPState),
      solveFuel fuel state = some res → solveFuel (fuel + 1) state = some res := by
  intro fuel
  induction fuel with
  | zero => intro state res h; simp [solveFuel] at h
  | succ fuel ih =>
    intro state res h
    unfold solveFuel at h ⊢
    cases hd : allAssigned state with
    | none => simp [hd] at h
    | some d =>
      cases d with
      | true => simpa [hd] using h
      | false =>
        simp only [hd] at h ⊢
        cases hsel : select_variable state with
        | none => simp [hsel] at h
        | some row =>
          simp only [hsel] at h ⊢
          by_cases hneg : row < 0
          · simp [hneg] at h
          · simp only [hneg, if_false] at h ⊢
            cases hl : sorted_lcv state row.toNat with
            | none => simp [hl] at h
            | some values =>
              simp only [hl] at h ⊢
              exact tryValues_mono _ _ ih state row.toNat values res h

theorem solveFuel_le (fuel fuel2 : Nat) (hle : fuel ≤ fuel2) (state : CSPState)
    (res : Bool × CSPState) (h : solveFuel fuel state = some res) :
    solveFuel fuel2 state = some res := by
  induction hle with
  | refl => exact h
  | step _ ih => exact solveFuel_succ _ state res ih

theorem noAttack_extendsSafely :
    ∀ (ext qs : List Nat), NoAttack qs → extendsSafely qs ext = true → NoAttack (qs ++ ext) := by
  intro ext
  induction ext with
  | nil => intro qs h _; simpa using h
  | cons col rest ih =>
    intro qs h hs
    simp only [extendsSafely, Bool.and_eq_true] at hs
    have := ih (qs ++ [col]) ((DFS.noAttack_snoc qs col).mpr ⟨h, hs.1⟩) hs.2
    simpa using this

theorem solve_four : solveFuel 5 (initial 4) = some (false, initial 4) := by
  decide

theorem solve_eight : solveFuel 9 (initial 8) = some (false, initial 8) := by
  decide

end CSP

namespace CSP

theorem solve_one :
    solve (initial 1) = some (true, { n := 1, assignment := [0], domains := [[0]] }) := by
  decide

theorem forward_check_four :
    forward_check { n := 4, assignment := [-1, 0, -1, -1],
                    domains := [[0, 1, 2, 3], [0, 1, 2, 3], [0, 1, 2, 3], [0, 1, 2, 3]] } 1 0 =
      some (false, { n := 4, assignment := [-1, 0, -1, -1],
                     domains := [[0, 1, 2, 3], [0, 1, 2, 3], [2, 3], []] }) := by
  decide

theorem placement_four : IsPlacement 4 [2, 0, 3, 1] ∧ NoAttack [2, 0, 3, 1] := by
  refine ⟨⟨rfl, by decide⟩, ?_⟩
  exact noAttack_extendsSafely [2, 0, 3, 1] [] DFS.noAttack_nil (by decide)

theorem placement_eight :
    IsPlacement 8 [0, 4, 7, 5, 2, 6, 1, 3] ∧ NoAttack [0, 4, 7, 5, 2, 6, 1, 3] := by
  refine ⟨⟨rfl, by decide⟩, ?_⟩
  exact noAttack_extendsSafely [0, 4, 7, 5, 2, 6, 1, 3] [] DFS.noAttack_nil (by decide)

/-- C25: the backtracking solver of `csp.cpp` does not solve N-Queens.  Called on the state
`dfs_csp` builds for `n = 4` and for `n = 8` (every row unassigned, every domain
`{0, ..., n - 1}`), `solve` terminates, for every recursion bound of at least `n + 1`,
returning `false` and leaving `state` as it was, with every row unassigned, although the
placements 2, 0, 3, 1 and 0, 4, 7, 5, 2, 6, 1, 3 are solutions.  For `n = 4` the first row
chosen is row 1 and `forward_check` rejects its column 0, which the solution 2, 0, 3, 1
uses: the second loop empties the domain of row 3.  For `n = 1` the solver returns `true`
with the queen in column 0. -/
theorem csp_solve_fails_on_solvable_boards :
    (∀ fuel, 5 ≤ fuel → solveFuel fuel (initial 4) = some (false, initial 4)) ∧
    (∀ fuel, 9 ≤ fuel → solveFuel fuel (initial 8) = some (false, initial 8)) ∧
    solve (initial 4) = some (false, initial 4) ∧
    solve (initial 8) = some (false, initial 8) ∧
    (initial 4).assignment = [-1, -1, -1, -1] ∧
    (IsPlacement 4 [2, 0, 3, 1] ∧ NoAttack [2, 0, 3, 1]) ∧
    (IsPlacement 8 [0, 4, 7, 5, 2, 6, 1, 3] ∧ NoAttack [0, 4, 7, 5, 2, 6, 1, 3]) ∧
    select_variable (initial 4) = some 1 ∧
    forward_check { n := 4, assignment := [-1, 0, -1, -1],
                    domains := [[0, 1, 2, 3], [0, 1, 2, 3], [0, 1, 2, 3], [0, 1, 2, 3]] } 1 0 =
      some (false, { n := 4, assignment := [-1, 0, -1, -1],
                     domains := [[0, 1, 2, 3], [0, 1, 2, 3], [2, 3], []] }) ∧
    solve (initial 1) = some (true, { n := 1, assignment := [0], domains := [[0]] }) :=
  ⟨fun fuel h => solveFuel_le 5 fuel h _ _ solve_four,
    fun fuel h => solveFuel_le 9 fuel h _ _ solve_eight,
    solve_four, solve_eight, by decide, placement_four, placement_eight, by decide,
    forward_check_four, solve_one⟩

end CSP

namespace MemoryTracker

/-- When `trackFree` returns, it leaves the state `trackFree` describes. -/
theorem trackFreeCall_returns (t t2 : MemoryTracker) (ptr : Nat)
    (h : trackFreeCall t ptr = some t2) : t2 = trackFree t ptr := by
  unfold trackFreeCall at h
  unfold trackFree
  by_cases h0 : ptr = 0 ∨ (!t.enabled) = true
  · rw [if_pos h0] at h
    rw [if_pos h0]
    exact (Option.some.inj h).symm
  · rw [if_neg h0] at h
    rw [if_neg h0]
    cases hf : find t.allocations ptr with
    | none =>
      rw [hf] at h
      exact (Option.some.inj h).symm
    | some info =>
      rw [hf] at h
      have hen : t.enabled = true := by
        cases he : t.enabled with
        | true => rfl
        | false => exact absurd (Or.inr (by simp [he])) h0
      simp [deleteUnderLock, hen] at h

/-- The calls of `trackFree` that return: a null pointer, tracking disabled, or a pointer
that is no key of the ledger. -/
theorem trackFreeCall_isSome (t : MemoryTracker) (ptr : Nat) :
    (trackFreeCall t ptr).isSome = true ↔
      (ptr = 0 ∨ t.enabled = false ∨ find t.allocations ptr = none) := by
  unfold trackFreeCall
  by_cases h0 : ptr = 0 ∨ (!t.enabled) = true
  · rw [if_pos h0]
    simp only [Option.isSome_some, true_iff]
    rcases h0 with h0 | h0
    · exact Or.inl h0
    · exact Or.inr (Or.inl (by simpa using h0))
  · rw [if_neg h0]
    have hp : ptr ≠ 0 := fun hp => h0 (Or.inl hp)
    have hen : t.enabled = true := by
      cases he : t.enabled with
      | true => rfl
      | false => exact absurd (Or.inr (by simp [he])) h0
    cases hf : find t.allocations ptr with
    | none => simp
    | some info => simp [deleteUnderLock, hen, hp]

/-- With tracking enabled, `trackFree` on a pointer the ledger holds does not return. -/
theorem trackFreeCall_tracked (t : MemoryTracker) (ptr : Nat) (info : AllocationInfo)
    (hen : t.enabled = true) (hp : ptr ≠ 0) (hf : find t.allocations ptr = some info) :
    trackFreeCall t ptr = none := by
  have h := trackFreeCall_isSome t ptr
  cases hr : trackFreeCall t ptr with
  | none => rfl
  | some t2 =>
    rw [hr] at h
    have := h.mp rfl
    rcases this with h1 | h1 | h1
    · exact absurd h1 hp
    · rw [hen] at h1; cases h1
    · rw [hf] at h1; cases h1

/-- With tracking enabled, the pointer a successful `trackAlloc` returns is a key of the
ledger, and `trackFree` on it does not return. -/
theorem trackFreeCall_after_trackAlloc (t : MemoryTracker) (size : Nat) (file : String)
    (line : Int) (env : AllocEnv) (hen : t.enabled = true) (hp : env.mallocResult ≠ 0) :
    trackFreeCall (trackAlloc t size file line env).1 (trackAlloc t size file line env).2 =
      none := by
  have h1 : (trackAlloc t size file line env).2 = env.mallocResult := by
    unfold trackAlloc
    simp only [hen, Bool.not_true, Bool.false_eq_true, if_false, hp]
  have h2 : (trackAlloc t size file line env).1.enabled = true := by
    unfold trackAlloc
    simp only [hen, Bool.not_true, Bool.false_eq_true, if_false, hp]
    first | rfl | (split <;> rfl)
  have h3 : ∃ info, find (trackAlloc t size file line env).1.allocations env.mallocResult =
      some info := by
    unfold trackAlloc
    simp only [hen, Bool.not_true, Bool.false_eq_true, if_false, hp]
    split <;>
      exact ⟨⟨env.mallocResult, size, file, line, env.timestamp, env.stackTrace⟩,
        by simp [find, assign]⟩
  obtain ⟨info, h3⟩ := h3
  rw [h1]
  exact trackFreeCall_tracked _ _ info h2 hp h3

theorem clearUnderLock_disabled (t : MemoryTracker) (hen : t.enabled = false) :
    ∀ entries, clearUnderLock t entries = some { t with allocations := [] } := by
  intro entries
  induction entries with
  | nil => rfl
  | cons e rest ih =>
    have hd : deleteUnderLock t = some t := by simp [deleteUnderLock, hen]
    simp only [clearUnderLock, hd]
    exact ih

/-- The calls of `reset` that return: tracking disabled or an empty ledger; the state is
then the one `reset` describes. -/
theorem resetCall_returns (t : MemoryTracker) (h : t.enabled = false ∨ t.allocations = []) :
    resetCall t = some (reset t) := by
  unfold resetCall
  rcases h with h | h
  · rw [clearUnderLock_disabled t h]
    rfl
  · rw [h]
    simp only [clearUnderLock]
    cases t
    simp only at h
    subst h
    rfl

/-- With tracking enabled, `reset` on a ledger that holds an entry does not return. -/
theorem resetCall_tracked (t : MemoryTracker) (hen : t.enabled = true)
    (hne : t.allocations ≠ []) : resetCall t = none := by
  unfold resetCall
  cases ha : t.allocations with
  | nil => exact absurd ha hne
  | cons e rest => simp [clearUnderLock, deleteUnderLock, hen]

/-- The calls of `analyzeFragmentation` that return: tracking disabled or an empty ledger;
the state is then the one `analyzeFragmentation` describes. -/
theorem analyzeFragmentationCall_returns (t : MemoryTracker)
    (h : t.enabled = false ∨ t.allocations = []) :
    analyzeFragmentationCall t = some (analyzeFragmentation t) := by
  unfold analyzeFragmentationCall analyzeFragmentation
  by_cases he : t.allocations.isEmpty = true
  · simp only [he, if_true]
  · simp only [he, Bool.false_eq_true, if_false]
    rcases h with h | h
    · simp [deleteUnderLock, h]
    · rw [h] at he; simp at he

/-- With tracking enabled, `analyzeFragmentation` on a ledger that holds an entry does not
return. -/
theorem analyzeFragmentationCall_tracked (t : MemoryTracker) (hen : t.enabled = true)
    (hne : t.allocations ≠ []) : analyzeFragmentationCall t = none := by
  unfold analyzeFragmentationCall
  have he : t.allocations.isEmpty = false := by
    cases ha : t.allocations with
    | nil => exact absurd ha hne
    | cons e rest => rfl
  simp [he, deleteUnderLock, hen]

/-- C5, the code at the failing input: `MemoryTracker::enable(); MemoryTracker::reset();
void* p = MemoryTracker::trackAlloc(400); MemoryTracker::trackFree(p);`, that is `N = 1` and
`M = 1`.  The `reset()` on the empty ledger returns, `trackAlloc` returns `p = 4096` and
records the block (`getAllocationCount() = 1`, `getCurrentUsage() = 400`), and
`trackFree(p)` does not return: `allocations.erase(it)` releases the node of the entry
inside the locked region, the replaced `operator delete` calls `trackFree` on the node, and
that call locks the mutex its thread owns.  The state with `getCurrentUsage() = 0` that the
claim names is not reached. -/
theorem tracker_free_of_tracked_block_blocks :
    resetCall (enable init) = some (reset (enable init)) ∧
    (trackAlloc (reset (enable init)) 400 "main_unified.cpp" 12 ⟨4096, 0, ""⟩).2 = 4096 ∧
    getAllocationCount
      (trackAlloc (reset (enable init)) 400 "main_unified.cpp" 12 ⟨4096, 0, ""⟩).1 = 1 ∧
    getCurrentUsage
      (trackAlloc (reset (enable init)) 400 "main_unified.cpp" 12 ⟨4096, 0, ""⟩).1 = 400 ∧
    trackFreeCall
      (trackAlloc (reset (enable init)) 400 "main_unified.cpp" 12 ⟨4096, 0, ""⟩).1 4096 =
      none :=
  ⟨resetCall_returns _ (Or.inr rfl), rfl, by decide, by decide,
    trackFreeCall_after_trackAlloc (reset (enable init)) 400 "main_unified.cpp" 12
      ⟨4096, 0, ""⟩ rfl (by decide)⟩

/-- C15, the code at the failing input: `MemoryTracker::enable();
MemoryTracker::trackAlloc(256);` and then `MemoryTracker::reset()`.  Tracking is enabled and
the ledger holds one entry; `allocations.clear()` releases the node of the entry inside the
locked region of `reset`, the replaced `operator delete` calls `trackFree` on the node, and
that call locks the mutex its thread owns: `reset()` does not return, and no state with an
empty ledger and counters 0 is reached.  With tracking disabled the same call returns with
the ledger empty, the counters 0, and the flag and the heap as before. -/
theorem tracker_reset_blocks_when_tracking :
    scenarioC.enabled = true ∧ keys scenarioC = [4096] ∧
    resetCall scenarioC = none ∧
    resetCall (disable scenarioC) = some (reset (disable scenarioC)) ∧
    (reset (disable scenarioC)).allocations = [] ∧
    (reset (disable scenarioC)).currentUsage = 0 ∧
    (reset (disable scenarioC)).allocationCount = 0 ∧
    (reset (disable scenarioC)).enabled = false ∧
    (reset (disable scenarioC)).heap = scenarioC.heap :=
  ⟨rfl, by decide, resetCall_tracked scenarioC rfl (by decide),
    resetCall_returns _ (Or.inl rfl), rfl, rfl, rfl, rfl, rfl⟩

/-- C16, the code at the failing input: `MemoryTracker::enable();
MemoryTracker::trackAlloc(256);` and then `MemoryTracker::analyzeFragmentation()`.  Tracking
is enabled and the ledger holds one entry; the vector `sorted` is destroyed while the
`lock_guard` still holds the mutex, the replaced `operator delete` calls `trackFree` on the
array of the vector, and that call locks the mutex its thread owns:
`analyzeFragmentation()` does not return and the fragmentation counter is not set for the
caller.  With tracking disabled the call returns; on the ledger of three records at 4096
(100 bytes), 4200 (16 bytes) and 8192 (50 bytes) it leaves the gap sum 4 + 3976. -/
theorem fragmentation_blocks_when_tracking :
    scenarioC.enabled = true ∧ keys scenarioC = [4096] ∧
    analyzeFragmentationCall scenarioC = none ∧
    analyzeFragmentationCall (enable scenarioLedger) = none ∧
    scenarioLedger.enabled = false ∧
    analyzeFragmentationCall scenarioLedger = some (analyzeFragmentation scenarioLedger) ∧
    (analyzeFragmentation scenarioLedger).fragmentation = 4 + 3976 :=
  ⟨rfl, by decide, analyzeFragmentationCall_tracked scenarioC rfl (by decide),
    analyzeFragmentationCall_tracked (enable scenarioLedger) rfl (by decide),
    rfl, analyzeFragmentationCall_returns _ (Or.inl rfl), by decide⟩

end MemoryTracker

namespace DFS


theorem linearPlacement_get (p a b i c : Nat) (h : (linearPlacement p a b)[i]? = some c) :
    i < p ∧ c = (a * i + b) % p := by
  unfold linearPlacement at h
  rw [List.getElem?_map] at h
  by_cases hi : i < p
  · rw [List.getElem?_range hi] at h
    simp only [Option.map_some', Option.some.injEq] at h
    exact ⟨hi, h.symm⟩
  · rw [List.getElem?_eq_none (by simp; omega)] at h
    cases h

theorem linearPlacement_isPlacement (p a b : Nat) (hp : 0 < p) :
    IsPlacement p (linearPlacement p a b) := by
  refine ⟨by simp [linearPlacement], ?_⟩
  intro c hc
  simp only [linearPlacement, List.mem_map, List.mem_range] at hc
  obtain ⟨i, _, rfl⟩ := hc
  exact Nat.mod_lt _ hp

theorem modEq_rows (p m i j : Nat) (hp : p.Prime) (hm0 : 0 < m) (hm : m < p) (hi : i < p)
    (hj : j < p) (h : Nat.ModEq p (m * i) (m * j)) : i = j := by
  have hcop : Nat.gcd p m = 1 :=
    (Nat.Prime.coprime_iff_not_dvd hp).mpr (Nat.not_dvd_of_pos_of_lt hm0 hm)
  have h2 : Nat.ModEq p i j := Nat.ModEq.cancel_left_of_coprime hcop h
  unfold Nat.ModEq at h2
  rwa [Nat.mod_eq_of_lt hi, Nat.mod_eq_of_lt hj] at h2

theorem linearPlacement_noAttack (p a b : Nat) (hp : p.Prime) (ha : 2 ≤ a) (ha2 : a + 2 ≤ p) :
    NoAttack (linearPlacement p a b) := by
  intro i j ci cj hij hi hj
  obtain ⟨hip, rfl⟩ := linearPlacement_get p a b i ci hi
  obtain ⟨hjp, rfl⟩ := linearPlacement_get p a b j cj hj
  have hp0 : 0 < p := hp.pos
  have hci : (a * i + b) % p < p := Nat.mod_lt _ hp0
  have hcj : (a * j + b) % p < p := Nat.mod_lt _ hp0
  have ei : Nat.ModEq p ((a * i + b) % p) (a * i + b) := Nat.mod_modEq _ _
  have ej : Nat.ModEq p ((a * j + b) % p) (a * j + b) := Nat.mod_modEq _ _
  refine ⟨?_, ?_⟩
  · intro heq
    have h1 : Nat.ModEq p (a * i + b) (a * j + b) := by
      unfold Nat.ModEq; exact heq
    have h2 : Nat.ModEq p (a * i) (a * j) := Nat.ModEq.add_right_cancel' b h1
    have := modEq_rows p a i j hp (by omega) (by omega) hip hjp h2
    omega
  · intro habs
    have hcases : (a * i + b) % p + i = (a * j + b) % p + j ∨
        (a * j + b) % p + i = (a * i + b) % p + j := by
      omega
    rcases hcases with h | h
    · have h1 : Nat.ModEq p ((a * i + b) + i) ((a * j + b) + j) := by
        have e1 := ei.add_right i
        have e2 := ej.add_right j
        rw [h] at e1
        exact e1.symm.trans e2
      have h2 : Nat.ModEq p ((a + 1) * i + b) ((a + 1) * j + b) := by
        have e3 : (a + 1) * i + b = a * i + b + i := by ring
        have e4 : (a + 1) * j + b = a * j + b + j := by ring
        rw [e3, e4]; exact h1
      have h3 : Nat.ModEq p ((a + 1) * i) ((a + 1) * j) := Nat.ModEq.add_right_cancel' b h2
      have := modEq_rows p (a + 1) i j hp (by omega) (by omega) hip hjp h3
      omega
    · have h1 : Nat.ModEq p ((a * j + b) + i) ((a * i + b) + j) := by
        have e1 := ej.add_right i
        have e2 := ei.add_right j
        rw [h] at e1
        exact e1.symm.trans e2
      obtain ⟨m, rfl⟩ : ∃ m, a = m + 1 := ⟨a - 1, by omega⟩
      have h2 : Nat.ModEq p (m * j + (b + i + j)) (m * i + (b + i + j)) := by
        have e3 : m * j + (b + i + j) = (m + 1) * j + b + i := by ring
        have e4 : m * i + (b + i + j) = (m + 1) * i + b + j := by ring
        rw [e3, e4]; exact h1
      have h3 : Nat.ModEq p (m * j) (m * i) := Nat.ModEq.add_right_cancel' _ h2
      have := modEq_rows p m j i hp (by omega) (by omega) hjp hip h3
      omega

theorem linearPlacement_inj (p a b a2 b2 : Nat) (hp : 2 ≤ p) (ha : a < p) (hb : b < p)
    (ha2 : a2 < p) (hb2 : b2 < p) (h : linearPlacement p a b = linearPlacement p a2 b2) :
    a = a2 ∧ b = b2 := by
  have g0 : (linearPlacement p a b)[0]? = some ((a * 0 + b) % p) := by
    unfold linearPlacement
    rw [List.getElem?_map, List.getElem?_range (by omega)]
    rfl
  have g1 : (linearPlacement p a b)[1]? = some ((a * 1 + b) % p) := by
    unfold linearPlacement
    rw [List.getElem?_map, List.getElem?_range (by omega)]
    rfl
  rw [h] at g0 g1
  have k0 := (linearPlacement_get p a2 b2 0 _ g0).2
  have k1 := (linearPlacement_get p a2 b2 1 _ g1).2
  simp only [Nat.mul_zero, Nat.zero_add, Nat.mul_one] at k0 k1
  rw [Nat.mod_eq_of_lt hb, Nat.mod_eq_of_lt hb2] at k0
  subst k0
  have h2 : Nat.ModEq p a a2 := Nat.ModEq.add_right_cancel' b k1
  unfold Nat.ModEq at h2
  rw [Nat.mod_eq_of_lt ha, Nat.mod_eq_of_lt ha2] at h2
  exact ⟨h2, rfl⟩

/-- For a prime `p` the `p`-queens problem has at least `(p - 3) * p` solutions: the
placements `(a * i + b) % p` with `2 <= a <= p - 2` and `b < p`. -/
theorem enumerates_prime_lower (p : Nat) (hp : p.Prime) (sols : List (List Nat))
    (h : Enumerates p sols) : (p - 3) * p ≤ sols.length := by
  obtain ⟨hnd, hmem⟩ := h
  have hp2 : 2 ≤ p := hp.two_le
  have hcard : (Finset.Icc 2 (p - 2) ×ˢ Finset.range p).card = (p - 3) * p := by
    rw [Finset.card_product, Nat.card_Icc, Finset.card_range]
    have e : p - 2 + 1 - 2 = p - 3 := by omega
    rw [e]
  rw [← hcard, ← List.toFinset_card_of_nodup hnd]
  apply Finset.card_le_card_of_injOn (fun x => linearPlacement p x.1 x.2)
  · intro x hx
    simp only [Finset.coe_product, Finset.coe_Icc, Finset.coe_range, Set.mem_prod, Set.mem_Icc,
      Set.mem_Iio, Finset.mem_product, Finset.mem_Icc, Finset.mem_range] at hx
    simp only [Finset.mem_coe, List.mem_toFinset, hmem]
    exact ⟨linearPlacement_isPlacement p _ _ hp.pos,
      linearPlacement_noAttack p _ _ hp (by omega) (by omega)⟩
  · intro x hx y hy hxy
    simp only [Finset.coe_product, Finset.coe_Icc, Finset.coe_range, Set.mem_prod, Set.mem_Icc,
      Set.mem_Iio] at hx hy
    obtain ⟨e1, e2⟩ := linearPlacement_inj p x.1 x.2 y.1 y.2 hp2 (by omega) (by omega)
      (by omega) (by omega) hxy
    exact Prod.ext e1 e2

theorem prime_46349 : Nat.Prime 46349 := by norm_num

/-- The loop over the columns of one row, when it returns: it has added the number of
placements that extend each safe column, and the counter is within `int` if it was
incremented. -/
theorem solve_allCols_sound (n k : Nat) (recurse : List Int → Int → Option (List Int × Int))
    (qs : List Nat) (hqs : qs.length < n)
    (hrec : ∀ col, safeExt qs col = true → ∀ (board board2 : List Int) (count c : Int),
      board.length = n → Agrees board (qs ++ [col]) →
      recurse board count = some (board2, c) →
      c = count + ((extensions n k (qs ++ [col])).length : Int) ∧
        board2.length = n ∧ Agrees board2 (qs ++ [col]) ∧
        (0 < (extensions n k (qs ++ [col])).length → c ≤ intMax)) :
    ∀ (cols : List Nat) (board board2 : List Int) (count c : Int), board.length = n →
      Agrees board qs →
      solve_allCols recurse qs.length cols board count = some (board2, c) →
      c = count + ((cols.flatMap (fun col =>
            if safeExt qs col then extensions n k (qs ++ [col]) else [])).length : Int) ∧
        board2.length = n ∧ Agrees board2 qs ∧
        (0 < (cols.flatMap (fun col =>
            if safeExt qs col then extensions n k (qs ++ [col]) else [])).length →
          c ≤ intMax) := by
  intro cols
  induction cols with
  | nil =>
    intro board board2 count c hlen hag hr
    simp only [solve_allCols, Option.some.injEq, Prod.mk.injEq] at hr
    obtain ⟨rfl, rfl⟩ := hr
    exact ⟨by simp, hlen, hag, by simp⟩
  | cons col rest ih =>
    intro board board2 count c hlen hag hr
    have hsafe := is_safe_agrees board qs col hag
    simp only [List.flatMap_cons, List.length_append, Nat.cast_add]
    cases hs : safeExt qs col with
    | false =>
      rw [hs] at hsafe
      simp only [solve_allCols, hsafe] at hr
      obtain ⟨h1, h2, h3, h4⟩ := ih board board2 count c hlen hag hr
      simp only [Bool.false_eq_true, if_false, List.length_nil, Nat.cast_zero, Int.zero_add,
        Nat.zero_add]
      exact ⟨h1, h2, h3, h4⟩
    | true =>
      rw [hs] at hsafe
      have hlt : qs.length < board.length := by omega
      simp only [solve_allCols, hsafe, hlt, if_true] at hr
      have hset : (board.set qs.length (col : Int)).length = n := by
        rw [List.length_set]; exact hlen
      cases hrc : recurse (board.set qs.length (col : Int)) count with
      | none => rw [hrc] at hr; cases hr
      | some res =>
        obtain ⟨board1, c1⟩ := res
        rw [hrc] at hr
        simp only at hr
        obtain ⟨r1, r2, r3, r4⟩ := hrec col hs _ _ _ _ hset (agrees_set board qs col hag hlt) hrc
        obtain ⟨h1, h2, h3, h4⟩ := ih board1 board2 c1 c r2 (agrees_front board1 qs col r3) hr
        simp only [if_true]
        refine ⟨by omega, h2, h3, ?_⟩
        intro hpos
        by_cases hz : 0 < (rest.flatMap (fun col =>
            if safeExt qs col then extensions n k (qs ++ [col]) else [])).length
        · exact h4 hz
        · have hz0 : (rest.flatMap (fun col =>
              if safeExt qs col then extensions n k (qs ++ [col]) else [])).length = 0 := by
            omega
          have hc : c = c1 := by rw [h1, hz0]; simp
          rw [hc]
          exact r4 (by omega)

/-- Source `solve_all` called at row `qs.length` on a board that holds `qs` in its first
rows, when it returns: it has added the number of placements that extend `qs`, and the
counter is within `int` if it was incremented. -/
theorem solve_all_sound (n : Nat) :
    ∀ (k fuel : Nat) (qs : List Nat) (board board2 : List Int) (count c : Int),
      n = qs.length + k → board.length = n → Agrees board qs →
      solve_all fuel board qs.length n count = some (board2, c) →
      c = count + ((extensions n k qs).length : Int) ∧ board2.length = n ∧
        Agrees board2 qs ∧ (0 < (extensions n k qs).length → c ≤ intMax) := by
  intro k
  induction k with
  | zero =>
    intro fuel qs board board2 count c hn hlen hag hr
    cases fuel with
    | zero => simp [solve_all] at hr
    | succ f =>
      have hrow : qs.length = n := by omega
      simp only [solve_all, hrow, if_true] at hr
      by_cases hfit : count + 1 ≤ intMax
      · simp only [hfit, if_true, Option.some.injEq, Prod.mk.injEq] at hr
        obtain ⟨rfl, rfl⟩ := hr
        exact ⟨by simp [extensions], hlen, hag, fun _ => hfit⟩
      · simp [hfit] at hr
  | succ k ih =>
    intro fuel qs board board2 count c hn hlen hag hr
    cases fuel with
    | zero => simp [solve_all] at hr
    | succ f =>
      have hrow : ¬ qs.length = n := by omega
      simp only [solve_all, hrow, if_false] at hr
      have hrange : (extensions n (k + 1) qs) = (List.range n).flatMap (fun col =>
          if safeExt qs col then extensions n k (qs ++ [col]) else []) := rfl
      rw [hrange]
      apply solve_allCols_sound n k _ qs (by omega) _ (List.range n) board board2 count c hlen
        hag hr
      intro col hs board1 board3 count1 c1 hlen1 hag1 hr1
      have hl : (qs ++ [col]).length = qs.length + 1 := by simp
      rw [← hl] at hr1
      exact ih f (qs ++ [col]) board1 board3 count1 c1 (by rw [hl]; omega) hlen1 hag1 hr1

/-- When the number of solutions passes `INT_MAX`, no call of `solve_all` from row 0 with
`count = 0` returns: the increment of `count` at `INT_MAX` is reached. -/
theorem solve_all_overflow (n : Nat) (sols : List (List Nat)) (henum : Enumerates n sols)
    (hbig : intMax < (sols.length : Int)) (board : List Int) (fuel : Nat)
    (hlen : board.length = n) : solve_all fuel board 0 n 0 = none := by
  have hl := enumerates_length n sols henum
  have hag : Agrees board [] := by
    intro r c hrc
    simp at hrc
  cases hr : solve_all fuel board 0 n 0 with
  | none => rfl
  | some res =>
    obtain ⟨board2, c⟩ := res
    have hr2 : solve_all fuel board ([] : List Nat).length n 0 = some (board2, c) := hr
    obtain ⟨h1, _, _, h4⟩ := solve_all_sound n n fuel [] board board2 0 c (by simp) hlen hag hr2
    rw [← hl] at h1 h4
    have hpos : 0 < sols.length := by
      unfold intMax at hbig
      omega
    have := h4 hpos
    omega

/-- C26, as stated, fails for `n = 46349`.  The number is prime, so the placements with the
queen of row `i` in column `(a * i + b) % 46349`, for `2 <= a <= 46347` and `b < 46349`, are
46346 * 46349 = 2148090754 different solutions: the number of solutions passes
`INT_MAX = 2147483647`, no value of the `int` counter equals it, and `solve_all` started with
`count = 0` reaches `count++` at `INT_MAX`, a signed overflow, instead of returning. -/
theorem dfs_count_exceeds_int :
    ∃ sols, Enumerates 46349 sols ∧ intMax < (sols.length : Int) ∧
      (∀ c : Int, c ≤ intMax → c ≠ (sols.length : Int)) ∧
      (∀ (board : List Int) (fuel : Nat), board.length = 46349 →
        solve_all fuel board 0 46349 0 = none) ∧
      dfs_blind 46349 = none := by
  have henum := enumerates_extensions 46349
  have hlow := enumerates_prime_lower 46349 prime_46349 _ henum
  have hbig : intMax < ((extensions 46349 46349 []).length : Int) := by
    unfold intMax
    have : (46349 - 3) * 46349 = 2148090754 := by norm_num
    omega
  refine ⟨_, henum, hbig, ?_, ?_, ?_⟩
  · intro c hc heq
    omega
  · intro board fuel hlen
    exact solve_all_overflow 46349 _ henum hbig board fuel hlen
  · unfold dfs_blind
    rw [solve_all_overflow 46349 _ henum hbig _ _ (List.length_replicate _ _)]
    rfl

end DFS

end NQueens
